import Mathlib

/-!
# Tenzir pipeline engine: verification development

Shallow embedding of selected parts of the repository and theorems about them.

* `Json`  : `libtenzir/builtins/formats/json.cpp`
* `Tql`   : `libtenzir/builtins/query-languages/tql.cpp`
* `Exec`  : `libtenzir/builtins/commands/exec.cpp`
-/

namespace Json

/-! ## `to_padded_lines` (json.cpp, lines 39-85) -/

/-- A `chunk_ptr`: either null or a byte buffer (possibly of size zero). -/
abbrev Chunk := Option (List Char)

/-- Values yielded by `to_padded_lines`: `std::nullopt` or a line view. -/
abbrev Yielded := Option (List Char)

/-- The inner `for (current = begin; current != end; ++current)` loop of
`to_padded_lines` on one chunk, together with the `buffer.append(begin, end)`
that follows it.

* `buffer` is the carry-over `std::string buffer`;
* `seg` is the byte range `[begin, current)`;
* the last argument is the byte range `[current, end)`.

The result is the list of values yielded by the loop, the buffer after
`buffer.append(begin, end)`, and the final value of `ended_on_linefeed`
(which was reset to `false` just before the loop). `pad` is
`simdjson::SIMDJSON_PADDING`. -/
def scanChunk (pad : Nat) : List Char → List Char → List Char →
    List Yielded × List Char × Bool
  | buffer, seg, [] => ([], buffer ++ seg, false)
  | buffer, seg, c :: rest =>
    if c ≠ '\n' ∧ c ≠ '\r' then
      scanChunk pad buffer (seg ++ [c]) rest
    else
      let capacity := seg.length + (c :: rest).length
      let size := seg.length
      -- either a zero-copy view of the chunk or the carry-over buffer
      let line := if buffer = [] ∧ capacity ≥ size + pad then seg else buffer ++ seg
      let buffer1 : List Char := if buffer = [] ∧ capacity ≥ size + pad then buffer else []
      if c = '\r' then
        match rest with
        | [] =>
          -- `next == end`: remember that the chunk ended on a carriage return
          (some line :: [], buffer1, true)
        | n :: rest1 =>
          if n = '\n' then
            let r := scanChunk pad buffer1 [] rest1
            (some line :: r.1, r.2.1, r.2.2)
          else
            let r := scanChunk pad buffer1 [] (n :: rest1)
            (some line :: r.1, r.2.1, r.2.2)
      else
        let r := scanChunk pad buffer1 [] rest
        (some line :: r.1, r.2.1, r.2.2)

/-- The coroutine `to_padded_lines` as the list of values it yields, started
with carry-over `buffer` and flag `ended_on_linefeed`. -/
def toPaddedLinesFrom (pad : Nat) : List Chunk → List Char → Bool → List Yielded
  | [], buffer, _ => if buffer = [] then [] else [some buffer]
  | none :: input, buffer, eol => none :: toPaddedLinesFrom pad input buffer eol
  | some [] :: input, buffer, eol => none :: toPaddedLinesFrom pad input buffer eol
  | some (b :: bs) :: input, buffer, eol =>
    -- `if (ended_on_linefeed && *begin == '\n') ++begin;`
    let data := if eol = true ∧ b = '\n' then bs else b :: bs
    let r := scanChunk pad buffer [] data
    r.1 ++ none :: toPaddedLinesFrom pad input r.2.1 r.2.2

/-- The generator `to_padded_lines(input)`: initially the buffer is empty and
`ended_on_linefeed` is `false`. -/
def to_padded_lines (pad : Nat) (input : List Chunk) : List Yielded :=
  toPaddedLinesFrom pad input [] false

/-- The non-null values of a yielded sequence. -/
def nonNull (ys : List Yielded) : List (List Char) := ys.filterMap id

/-- The bytes of a chunk sequence, concatenated (null chunks carry no bytes). -/
def concatChunks : List Chunk → List Char
  | [] => []
  | none :: input => concatChunks input
  | some bs :: input => bs ++ concatChunks input

/-- Reference line splitter, following the specification's words: split the
text at the terminators `\r\n`, `\n` and bare `\r`; an unterminated remainder
is a line if it is non-empty. `cur` is the line collected so far. -/
def splitLinesFrom : List Char → List Char → List (List Char)
  | cur, [] => if cur = [] then [] else [cur]
  | cur, c :: rest =>
    if c = '\r' then
      match rest with
      | [] => [cur]
      | n :: rest1 =>
        if n = '\n' then cur :: splitLinesFrom [] rest1
        else cur :: splitLinesFrom [] (n :: rest1)
    else if c = '\n' then cur :: splitLinesFrom [] rest
    else splitLinesFrom (cur ++ [c]) rest

/-- The lines of a text. -/
def splitLines (text : List Char) : List (List Char) := splitLinesFrom [] text

/-- Drop the line feed that completes a `\r\n` pair split over two chunks. -/
def dropLF (eol : Bool) (s : List Char) : List Char :=
  if eol = true then
    match s with
    | [] => []
    | b :: t => if b = '\n' then t else b :: t
  else s

end Json

/-! ## Error codes shared by the embedded functions -/

/-- The error codes of `tenzir::ec` that the embedded functions use. -/
inductive ec where
  | unspecified
  | syntax_error
  | lookup_error
  | parse_error
  | logic_error
  | invalid_configuration
  | type_clash
  deriving DecidableEq, Repr

/-- A `caf::error`: an error code with its message. -/
structure Error where
  code : ec
  message : String
  deriving DecidableEq, Repr

namespace Tql

/-! ## `parse` (tql.cpp, lines 19-99) -/

/-- An operator of a parsed pipeline: either built by an operator plugin
(`op`), or a nested pipeline that came from an alias definition
(`std::make_unique<pipeline>(...)`). -/
inductive Operator (α : Type) where
  | plugin (op : α)
  | nested (ops : List (Operator α))

/-- What `parse` takes from its surroundings; none of it is defined in
`tql.cpp`.

* `parse_operator_name` is the source's operator-name parser,
  `optional_ws_or_comment >> plugin_name`, run on
  `[f, l)`: on success the operator name and the text from the advanced `f`;
* `find_plugin` is `plugins::find<operator_parser_plugin>`; a plugin is given
  by its `make_operator`, which returns the remaining text and the operator or
  an error;
* `try_get_only` is `try_get_only<std::string>(config, key)`: an error, a null
  pointer (`none`) or the configured string;
* `end_of_operator` is `optional_ws_or_comment >> end_of_pipeline_operator`
  run on `[f, l)`: on success the text from the advanced `f`. -/
structure Env (α : Type) where
  parse_operator_name : String → Option (String × String)
  find_plugin : String → Option (String → String × Except Error α)
  try_get_only : String → Except Error (Option String)
  end_of_operator : String → Option String

/-- The configuration key `fmt::format("tenzir.operators.{}", operator_name)`. -/
def config_key (operator_name : String) : String :=
  "tenzir.operators." ++ operator_name

/-- The outcome of `recursed.emplace(operator_name)`: the set afterwards and
whether the name was inserted. -/
def emplace (recursed : List String) (name : String) : List String × Bool :=
  if name ∈ recursed then (recursed, false) else (name :: recursed, true)

/-- The set after `recursed.erase(operator_name)`. -/
def erase (recursed : List String) (name : String) : List String :=
  recursed.filter (fun n => n ≠ name)

/-- The result of a call of `parse`: the returned `caf::expected<pipeline>` and
the final contents of the by-reference set `recursed`. `none` stands for a run
that did not finish within the fuel. -/
abbrev Result (α : Type) := Option (Except Error (List (Operator α)) × List String)

/-- The `while (!repr.empty())` loop of `parse`, with `ops` the operators
collected so far. One unit of fuel is used per loop iteration and per
recursive call. -/
def parseLoop {α : Type} (env : Env α) :
    Nat → String → List String → List (Operator α) → Result α
  | fuel, repr, recursed, ops =>
    if repr = "" then
      -- `return pipeline{std::move(ops)};`
      some (.ok ops, recursed)
    else
      match fuel with
      | 0 => none
      | fuel + 1 =>
        -- 1. parse a single word as operator plugin name
        match env.parse_operator_name repr with
        | none =>
          some (.error ⟨ec.syntax_error,
            "failed to parse pipeline '" ++ repr ++ "': operator name is invalid"⟩, recursed)
        | some (operator_name, rest) =>
          -- 2a. find plugin using operator name
          let plugin := env.find_plugin operator_name
          -- 2b. find alias definition in `tenzir.operators`
          let key := config_key operator_name
          match env.try_get_only key with
          | .error e => some (.error e, recursed)
          | .ok (some _) =>
            -- `definition = *result; used_config_key = key; break;`
            -- the `break` leaves the while loop
            some (.ok ops, recursed)
          | .ok none =>
            -- `definition` is still the null pointer, `used_config_key` is empty
            let definition : Option String := none
            let used_config_key : String := ""
            if plugin.isSome ∧ definition.isSome then
              some (.error ⟨ec.lookup_error,
                "the operator " ++ operator_name ++
                  " is defined by a plugin, but also by the `tenzir.operators` config"⟩,
                recursed)
            else
              match plugin, definition with
              | some make_operator, _ =>
                -- 3a. ask the plugin to parse itself from the remainder
                match make_operator rest with
                | (_, .error e) =>
                  some (.error ⟨ec.unspecified,
                    "failed to parse pipeline '" ++ repr ++ "': " ++ e.message⟩, recursed)
                | (remaining_repr, .ok op) =>
                  parseLoop env fuel remaining_repr recursed (ops ++ [Operator.plugin op])
              | none, some defn =>
                -- 3b. parse the definition of the operator recursively
                match emplace recursed operator_name with
                | (recursed1, false) =>
                  some (.error ⟨ec.invalid_configuration,
                    "the definition of `" ++ used_config_key ++ "` is recursive"⟩, recursed1)
                | (recursed1, true) =>
                  match parseLoop env fuel defn recursed1 [] with
                  | none => none
                  | some (result, recursed2) =>
                    let recursed3 := erase recursed2 operator_name
                    match result with
                    | .error e =>
                      some (.error ⟨ec.invalid_configuration,
                        e.message ++ " (while parsing `" ++ used_config_key ++ "`)"⟩,
                        recursed3)
                    | .ok sub =>
                      match env.end_of_operator rest with
                      | none =>
                        some (.error ⟨ec.unspecified,
                          "expected end of operator while parsing '" ++ repr ++ "'"⟩,
                          recursed3)
                      | some rest1 =>
                        parseLoop env fuel rest1 recursed3 (ops ++ [Operator.nested sub])
              | none, none =>
                some (.error ⟨ec.syntax_error,
                  "failed to parse pipeline '" ++ repr ++ "': operator '" ++
                    operator_name ++ "' does not exist"⟩, recursed)

/-- The function `parse(repr, config, recursed)`: the loop started with no
operators. -/
def parse {α : Type} (env : Env α) (fuel : Nat) (repr : String)
    (recursed : List String) : Result α :=
  parseLoop env fuel repr recursed []

/-- The entry point `parse_query(query)`: `parse` with an empty `recursed`
set; only the `caf::expected<pipeline>` is returned. -/
def parse_query {α : Type} (env : Env α) (fuel : Nat) (query : String) :
    Option (Except Error (List (Operator α))) :=
  (parse env fuel query []).map (fun r => r.1)

/-- The pipeline strings that consist only of plugin operators, with the
operators they denote: `PluginRun env repr ops` holds when `repr` is empty and
`ops` is empty, or when `repr` starts with an operator name that names a
registered plugin and has no alias entry in the configuration, the plugin
builds `op` from the text after the name and returns the tail `tail`, and
`tail` denotes the remaining operators. -/
inductive PluginRun {α : Type} (env : Env α) : String → List α → Prop where
  | done : PluginRun env "" []
  | step (repr operator_name rest tail : String) (op : α) (ops : List α)
      (make_operator : String → String × Except Error α)
      (hne : repr ≠ "")
      (hname : env.parse_operator_name repr = some (operator_name, rest))
      (hplugin : env.find_plugin operator_name = some make_operator)
      (hconfig : env.try_get_only (config_key operator_name) = .ok none)
      (hmake : make_operator rest = (tail, .ok op))
      (htail : PluginRun env tail ops) :
      PluginRun env repr (op :: ops)

/-! ### Sample environments used to evaluate `parse` on concrete inputs -/

/-- Drop leading blanks. -/
def skipBlanks : List Char → List Char
  | [] => []
  | c :: cs => if c = ' ' then skipBlanks cs else c :: cs

/-- The leading run of letters of a text and what follows it. -/
def takeName : List Char → List Char × List Char
  | [] => ([], [])
  | c :: cs =>
    if c.isAlpha then ((c :: (takeName cs).1), (takeName cs).2) else ([], c :: cs)

/-- A sample operator-name parser: optional blanks, then a non-empty run of
letters. -/
def sampleNameParser (repr : String) : Option (String × String) :=
  match takeName (skipBlanks repr.data) with
  | ([], _) => none
  | (name, rest) => some (String.mk name, String.mk rest)

/-- A sample end-of-operator parser: optional blanks, then the end of the text
or a `|`, which is consumed. -/
def sampleEndOfOperator (rest : String) : Option String :=
  match skipBlanks rest.data with
  | [] => some ""
  | c :: cs => if c = '|' then some (String.mk cs) else none

/-- A sample plugin for an operator without arguments: it builds the operator
`name` and returns the text after the end of the operator. -/
def sampleMakeOperator (name : String) (rest : String) : String × Except Error String :=
  match sampleEndOfOperator rest with
  | some tail => (tail, .ok name)
  | none => (rest, .error ⟨ec.syntax_error, "unexpected argument"⟩)

/-- A sample environment: the plugins are the operators named in `plugins`,
the aliases are the entries of `aliases` (name and definition). -/
def sampleEnv (plugins : List String) (aliases : List (String × String)) : Env String where
  parse_operator_name := sampleNameParser
  find_plugin := fun name =>
    if name ∈ plugins then some (sampleMakeOperator name) else none
  try_get_only := fun key =>
    .ok ((aliases.find? (fun a => config_key a.1 = key)).map (fun a => a.2))
  end_of_operator := sampleEndOfOperator

/-- The configuration of the recursive-alias scenario: `foo = bar`,
`bar = foo`, and no plugin of either name. -/
def recursiveAliasEnv : Env String :=
  sampleEnv ["pass"] [("foo", "bar"), ("bar", "foo")]

/-- A configuration in which `pass` is an operator plugin and also an alias. -/
def shadowedPluginEnv : Env String :=
  sampleEnv ["pass"] [("pass", "pass")]

/-- A configuration with the plugins `pass` and `head` and no alias. -/
def pluginsOnlyEnv : Env String :=
  sampleEnv ["pass", "head"] []

end Tql

namespace Exec

/-! ## `add_implicit_source_and_sink` (exec.cpp, lines 33-93) -/

/-- The element types of an operator (`operator_type`): `void`, `chunk_ptr`
(bytes) and `table_slice` (events). -/
inductive operator_type where
  | void
  | bytes
  | events
  deriving DecidableEq, Repr

/-- Modelled from the spec: the class `operator_base` is not part of the
sources. "Each operator declares a set of (input, output) element-type pairs":
an operator is given by its name and by the output type or type error it
declares for each input type. -/
structure Operator where
  name : String
  infer_type : operator_type → Except Error operator_type

/-- Modelled from the spec: the class `pipeline` is not part of the sources. A
pipeline is the ordered sequence of its operators. -/
abbrev Pipeline := List Operator

/-- Modelled from the spec: `pipeline::infer_type` is not part of the sources.
"The pipeline's overall type is obtained by left-to-right composition." -/
def infer_type : Pipeline → operator_type → Except Error operator_type
  | [], input => .ok input
  | op :: ops, input =>
    match op.infer_type input with
    | .error e => .error e
    | .ok next => infer_type ops next

/-- Whether `pipe.infer_type<T>()` holds a value, that is, whether the
pipeline accepts the input type. -/
def accepts (pipe : Pipeline) (input : operator_type) : Bool :=
  match infer_type pipe input with
  | .ok _ => true
  | .error _ => false

/-- Modelled from the spec: `pipeline::is_closed` is not part of the sources.
A pipeline is closed when it takes `void` to `void`. -/
def is_closed (pipe : Pipeline) : Bool :=
  match infer_type pipe operator_type.void with
  | .ok operator_type.void => true
  | _ => false

/-- The second half of `add_implicit_source_and_sink` (lines 59-92): the
implicit sink and the final check. `internal_parse_as_operator` is
`pipeline::internal_parse_as_operator`, which is not part of the sources. -/
def add_implicit_sink (internal_parse_as_operator : String → Except Error Operator)
    (pipe : Pipeline) : Except Error Pipeline :=
  match infer_type pipe operator_type.void with
  | .error e =>
    .error ⟨ec.logic_error, "expected pipeline to accept void here, but: " ++ e.message⟩
  | .ok out =>
    let appended : Except Error Pipeline :=
      match out with
      | operator_type.void =>
        -- Pipeline is already closed, nothing to do here.
        .ok pipe
      | operator_type.bytes =>
        match internal_parse_as_operator "save file -" with
        | .error e =>
          .error ⟨ec.logic_error, "failed to append implicit 'save file -': " ++ e.message⟩
        | .ok op => .ok (pipe ++ [op])
      | operator_type.events =>
        match internal_parse_as_operator "to stdout write json" with
        | .error e =>
          .error ⟨ec.logic_error,
            "failed to append implicit 'to stdout write json': " ++ e.message⟩
        | .ok op => .ok (pipe ++ [op])
    match appended with
    | .error e => .error e
    | .ok pipe1 =>
      if is_closed pipe1 = false then
        .error ⟨ec.logic_error,
          "expected pipeline to be closed after adding implicit source and sink"⟩
      else
        .ok pipe1

/-- The function `add_implicit_source_and_sink(pipe)`. -/
def add_implicit_source_and_sink
    (internal_parse_as_operator : String → Except Error Operator)
    (pipe : Pipeline) : Except Error Pipeline :=
  if accepts pipe operator_type.void = true then
    -- Don't add implicit source.
    add_implicit_sink internal_parse_as_operator pipe
  else if accepts pipe operator_type.bytes = true then
    match internal_parse_as_operator "load file -" with
    | .error e =>
      .error ⟨ec.logic_error, "failed to prepend implicit 'load file -': " ++ e.message⟩
    | .ok op => add_implicit_sink internal_parse_as_operator (op :: pipe)
  else if accepts pipe operator_type.events = true then
    match internal_parse_as_operator "from stdin read json" with
    | .error e =>
      .error ⟨ec.logic_error,
        "failed to prepend implicit 'from stdin read json': " ++ e.message⟩
    | .ok op => add_implicit_sink internal_parse_as_operator (op :: pipe)
  else
    -- Pipeline is ill-typed. We don't add implicit source or sink and continue,
    -- as this is handled further down the line.
    .ok pipe

/-- The implicit source of the specification: nothing for a pipeline that
accepts `void`; otherwise `load file -` for one that accepts bytes; otherwise
`from stdin read json` for one that accepts events. -/
inductive ImplicitSource (internal_parse_as_operator : String → Except Error Operator)
    (pipe : Pipeline) : List Operator → Prop where
  | void (h : accepts pipe operator_type.void = true) :
      ImplicitSource internal_parse_as_operator pipe []
  | bytes (op : Operator) (h0 : accepts pipe operator_type.void = false)
      (h : accepts pipe operator_type.bytes = true)
      (hop : internal_parse_as_operator "load file -" = .ok op) :
      ImplicitSource internal_parse_as_operator pipe [op]
  | events (op : Operator) (h0 : accepts pipe operator_type.void = false)
      (h1 : accepts pipe operator_type.bytes = false)
      (h : accepts pipe operator_type.events = true)
      (hop : internal_parse_as_operator "from stdin read json" = .ok op) :
      ImplicitSource internal_parse_as_operator pipe [op]

/-- The implicit sink of the specification: nothing for the output type
`void`, `save file -` for bytes and `to stdout write json` for events. -/
inductive ImplicitSink (internal_parse_as_operator : String → Except Error Operator) :
    operator_type → List Operator → Prop where
  | void : ImplicitSink internal_parse_as_operator operator_type.void []
  | bytes (op : Operator) (hop : internal_parse_as_operator "save file -" = .ok op) :
      ImplicitSink internal_parse_as_operator operator_type.bytes [op]
  | events (op : Operator)
      (hop : internal_parse_as_operator "to stdout write json" = .ok op) :
      ImplicitSink internal_parse_as_operator operator_type.events [op]

/-! ### Sample operators used to evaluate the function on concrete inputs -/

/-- An operator with the single signature `input → output`. -/
def sampleOperator (name : String) (input output : operator_type) : Operator where
  name := name
  infer_type := fun t =>
    if t = input then .ok output
    else .error ⟨ec.type_clash, "'" ++ name ++ "' does not accept this input"⟩

/-- The source `load file -`: `void → bytes`. -/
def loadFile : Operator := sampleOperator "load file -" .void .bytes

/-- The source `from stdin read json`: `void → events`. -/
def fromStdin : Operator := sampleOperator "from stdin read json" .void .events

/-- The sink `save file -`: `bytes → void`. -/
def saveFile : Operator := sampleOperator "save file -" .bytes .void

/-- The sink `to stdout write json`: `events → void`. -/
def toStdout : Operator := sampleOperator "to stdout write json" .events .void

/-- The parser `read json`: `bytes → events`. -/
def readJson : Operator := sampleOperator "read json" .bytes .events

/-- A sample `internal_parse_as_operator` that knows the four implicit
operators. -/
def sampleParseAsOperator (text : String) : Except Error Operator :=
  if text = "load file -" then .ok loadFile
  else if text = "from stdin read json" then .ok fromStdin
  else if text = "save file -" then .ok saveFile
  else if text = "to stdout write json" then .ok toStdout
  else .error ⟨ec.syntax_error, "unknown operator"⟩

end Exec

namespace Json

/-! ## The JSON parser (json.cpp, lines 87-674) -/

/-- A JSON value as simdjson presents it. -/
inductive JValue where
  | null
  | bool (b : Bool)
  | number (n : Int)
  | string (s : String)
  | array (xs : List JValue)
  | object (members : List (String × JValue))

/-- The simdjson error codes that the parser tells apart. -/
inductive simdjson_error where
  | NO_SUCH_FIELD
  | INCORRECT_TYPE
  | TAPE_ERROR
  deriving DecidableEq, Repr

/-- The text `error_message(err)` of a simdjson error. -/
def error_message : simdjson_error → String
  | .NO_SUCH_FIELD => "The JSON field referenced does not exist in this object."
  | .INCORRECT_TYPE => "The JSON element does not have the requested type."
  | .TAPE_ERROR => "The JSON document has an improper structure."

/-- The lookup `doc[key]` on the members of an object. -/
def find_field (members : List (String × JValue)) (key : String) :
    Except simdjson_error JValue :=
  match members.find? (fun kv => kv.1 = key) with
  | some kv => .ok kv.2
  | none => .error simdjson_error.NO_SUCH_FIELD

/-- The accessor `get_string()` of a value. -/
def get_string : JValue → Except simdjson_error String
  | .string s => .ok s
  | _ => .error simdjson_error.INCORRECT_TYPE

/-- The enum `parser_action`. -/
inductive parser_action where
  | skip
  | yield
  | parse
  deriving DecidableEq, Repr

/-- The struct `selector`; `pfx` is the member `prefix`. -/
structure selector where
  pfx : String
  selector_field : String
  deriving DecidableEq, Repr

/-- One NDJSON line as the parser sees it through simdjson.

* `text` is the line (`json_line`);
* `value_error` is the error of `maybe_doc.get_value()`, if any;
* `members` are the members of the top-level object;
* `doc_warnings` are the warnings that `doc_parser::parse_object` emits
  while it adds the members to the row;
* `more` is the value of `doc.is_alive() and not doc.at_end()` after the first
  object was parsed. -/
structure Line where
  text : String
  value_error : Option simdjson_error
  members : List (String × JValue)
  doc_warnings : List Error
  more : Bool

/-- A row of a builder or slice: the object it was parsed from. -/
abbrev Row := List (String × JValue)

/-- A `table_slice`: the name of its schema and its rows. -/
structure Slice where
  name : String
  rows : List Row

/-- Modelled from the spec: the class `adaptive_table_slice_builder` is not
part of the sources. The builder collects the rows pushed to it; `schema` is
the name of the schema it was seeded with, if any. -/
structure Builder where
  schema : Option String
  rows : List Row

/-- The default-constructed builder (`adaptive_table_slice_builder{}`). -/
def Builder.empty : Builder := ⟨none, []⟩

/-- Modelled from the spec: "`finish(fallback_name?) → batch(es)`:
materialize". The slice holds the rows collected so far; its schema is the
seeded schema, and otherwise takes the name handed to `finish`. The builder
is left without rows. -/
def Builder.finish (b : Builder) (fallback_name : String) : Slice × Builder :=
  (⟨b.schema.getD fallback_name, b.rows⟩, { b with rows := [] })

/-- The target of the pointer `last_used_builder` when it is not null: the
member `unknown_schema_builder` or an entry of `builders_per_schema`. -/
inductive BuilderRef where
  | unknown
  | per_schema (name : String)
  deriving DecidableEq, Repr

/-- The struct `parser_state`. -/
structure parser_state where
  builders_per_schema : List (String × Builder)
  last_used_builder : Option BuilderRef
  last_used_schema_name : String
  unknown_schema_builder : Builder
  abort_requested : Bool

/-- The value `parser_state{}`. -/
def parser_state.init : parser_state :=
  ⟨[], none, "", Builder.empty, false⟩

/-- The builder a reference points to. -/
def parser_state.deref (state : parser_state) : BuilderRef → Builder
  | .unknown => state.unknown_schema_builder
  | .per_schema name =>
    match state.builders_per_schema.find? (fun kv => kv.1 = name) with
    | some kv => kv.2
    | none => Builder.empty

/-- Store a builder through a reference. -/
def parser_state.assign (state : parser_state) (ref : BuilderRef) (b : Builder) :
    parser_state :=
  match ref with
  | .unknown => { state with unknown_schema_builder := b }
  | .per_schema name =>
    { state with
      builders_per_schema :=
        state.builders_per_schema.map (fun kv => if kv.1 = name then (kv.1, b) else kv) }

/-- The call `ref->finish(name)`: the slice and the state with the builder
flushed. -/
def parser_state.finish (state : parser_state) (ref : BuilderRef) (name : String) :
    Slice × parser_state :=
  ((state.deref ref).finish name |>.1, state.assign ref ((state.deref ref).finish name |>.2))

/-- The function `handle_empty_chunk(state, has_selector)`. -/
def handle_empty_chunk (state : parser_state) (has_selector : Bool) : Slice × parser_state :=
  if has_selector then
    match state.last_used_builder with
    | some ref => state.finish ref state.last_used_schema_name
    | none => (⟨"", []⟩, state)
  else
    -- `std::exchange(state.unknown_schema_builder, {}).finish()`
    ((state.unknown_schema_builder.finish "").1,
      { state with unknown_schema_builder := Builder.empty })

/-- The function `get_schema_name(doc, selector)`. -/
def get_schema_name (members : List (String × JValue)) (sel : selector) :
    Except Error String :=
  match find_field members sel.selector_field with
  | .error err =>
    if err ≠ simdjson_error.NO_SUCH_FIELD then
      .error ⟨ec.parse_error, error_message err⟩
    else
      .ok ""
  | .ok type =>
    match get_string type with
    | .error err => .error ⟨ec.parse_error, error_message err⟩
    | .ok schema_name =>
      if sel.pfx = "" then .ok schema_name
      else .ok (sel.pfx ++ "." ++ schema_name)

/-- The function `handle_builder_change(builder_to_use, state)`. -/
def handle_builder_change (builder_to_use : BuilderRef) (state : parser_state) :
    Option Slice × parser_state :=
  match state.last_used_builder with
  | none => (none, state)
  | some last =>
    if last ≠ builder_to_use then
      let r := state.finish last state.last_used_schema_name
      if r.1.rows.length > 0 then
        if last = BuilderRef.unknown then
          (some r.1, { r.2 with unknown_schema_builder := Builder.empty })
        else
          (some r.1, r.2)
      else
        (none, r.2)
    else
      (none, state)

/-- The function `finalize(last_used_builder, last_used_schema_name)`. -/
def finalize (state : parser_state) : Option Slice :=
  match state.last_used_builder with
  | none => none
  | some last =>
    let slice := (state.finish last state.last_used_schema_name).1
    if slice.rows.length > 0 then some slice else none

/-- The members of `parser_base` that the embedded functions read. `schemas`
holds the names of the schemas in `schemas_`, `schema` the name of `schema_`,
and `max_table_slice_rows` is `defaults::import::table_slice_size`. -/
structure parser_base where
  selector_ : Option selector
  schema : Option String
  schemas : List String
  infer_types : Bool
  max_table_slice_rows : Nat

/-- The function `parser_base::handle_schema_found(state, schema)`. -/
def handle_schema_found (_p : parser_base) (state : parser_state) (schema : String) :
    Option Slice × parser_state :=
  let state1 : parser_state :=
    if state.builders_per_schema.any (fun kv => kv.1 = schema) then state
    else { state with
           builders_per_schema := state.builders_per_schema ++ [(schema, ⟨some schema, []⟩)] }
  let current_builder := BuilderRef.per_schema schema
  let r := handle_builder_change current_builder state1
  (r.1, { r.2 with last_used_builder := some current_builder, last_used_schema_name := schema })

/-- The function `parser_base::handle_no_matching_schema_found`. -/
def handle_no_matching_schema_found (p : parser_base) (state : parser_state)
    (schema_name : String) (parsed_doc : String) :
    Except Error (Option Slice) × parser_state :=
  if p.infer_types = false then
    (.error ⟨ec.parse_error, "json parser failed to find schema for '" ++ schema_name ++
      "' and skips the JSON object '" ++ parsed_doc ++ "'"⟩, state)
  else if state.last_used_schema_name = schema_name then
    (.ok none, state)
  else
    let r : Option Slice × parser_state :=
      match state.last_used_builder with
      | none => (none, state)
      | some last =>
        let f := state.finish last state.last_used_schema_name
        if f.1.rows.length > 0 then (some f.1, f.2) else (none, f.2)
    (.ok r.1,
      { r.2 with
        unknown_schema_builder := Builder.empty,
        last_used_builder := some BuilderRef.unknown,
        last_used_schema_name := schema_name })

/-- The function `parser_base::handle_schema_name_found`. -/
def handle_schema_name_found (p : parser_base) (schema_name : String)
    (json_source : String) (state : parser_state) :
    Except Error (Option Slice) × parser_state :=
  match p.schemas.find? (fun schema => schema = schema_name) with
  | none => handle_no_matching_schema_found p state schema_name json_source
  | some schema =>
    let r := handle_schema_found p state schema
    (.ok r.1, r.2)

/-- What a handler returns besides the new state: the action, the slice to
yield and the warnings handed to `ctrl_.warn`. -/
structure Handled where
  action : parser_action
  slice : Option Slice
  warnings : List Error
  state : parser_state

/-- The function `parser_base::handle_known_schema`. -/
def handle_known_schema (p : parser_base) (sel : selector) (line : Line)
    (state : parser_state) : Handled :=
  match get_schema_name line.members sel with
  | .error e =>
    if p.infer_types = false then
      ⟨parser_action.skip, none, [e], state⟩
    else
      let r := handle_builder_change BuilderRef.unknown state
      let state1 : parser_state :=
        { r.2 with last_used_builder := some BuilderRef.unknown, last_used_schema_name := "" }
      match r.1 with
      | some slice => ⟨parser_action.yield, some slice, [e], state1⟩
      | none => ⟨parser_action.parse, none, [e], state1⟩
  | .ok schema_name =>
    match handle_schema_name_found p schema_name line.text state with
    | (.ok (some slice), state1) => ⟨parser_action.yield, some slice, [], state1⟩
    | (.ok none, state1) => ⟨parser_action.parse, none, [], state1⟩
    | (.error e, state1) => ⟨parser_action.skip, none, [e], state1⟩

/-- The function `parser_base::handle_selector`. -/
def handle_selector (p : parser_base) (line : Line) (state : parser_state) : Handled :=
  match p.selector_ with
  | none => ⟨parser_action.parse, none, [], state⟩
  | some sel => handle_known_schema p sel line state

/-- The function `parser_base::handle_max_rows`. A null `last_used_builder`
is not dereferenced by any caller; the embedding returns nothing for it. -/
def handle_max_rows (p : parser_base) (state : parser_state) : Option Slice × parser_state :=
  match state.last_used_builder with
  | none => (none, state)
  | some last =>
    if (state.deref last).rows.length < p.max_table_slice_rows then
      (none, state)
    else
      let r := state.finish last state.last_used_schema_name
      if p.selector_.isNone then
        (some r.1, { r.2 with unknown_schema_builder := Builder.empty })
      else
        (some r.1, r.2)

/-- The call `state.last_used_builder->push_row()` followed by
`doc_parser::parse_object` and, if `cancel` holds, by `row.cancel()`: the row
is added unless it is cancelled. -/
def push_row (state : parser_state) (row : Row) (cancel : Bool) : parser_state :=
  match state.last_used_builder with
  | none => state
  | some last =>
    if cancel then state
    else state.assign last { state.deref last with rows := (state.deref last).rows ++ [row] }

/-- What one call of a parser's `parse` produces: the slices it yields, the
warnings it emits, and the state afterwards. -/
structure Parsed where
  slices : List Slice
  warnings : List Error
  state : parser_state

/-- The coroutine `ndjson_parser::parse(json_line, state)`. -/
def ndjson_parse (p : parser_base) (line : Line) (state : parser_state) : Parsed :=
  match line.value_error with
  | some err =>
    ⟨[], [⟨ec.parse_error, "skips invalid JSON '" ++ line.text ++ "' : " ++
      error_message err⟩], state⟩
  | none =>
    let h := handle_selector p line state
    match h.action with
    | parser_action.skip => ⟨[], h.warnings, h.state⟩
    | _ =>
      -- `case parser_action::yield: co_yield *slice;`
      let yielded : List Slice :=
        match h.action, h.slice with
        | parser_action.yield, some slice => [slice]
        | _, _ => []
      let state1 := push_row h.state line.members line.more
      let more_warning : List Error :=
        if line.more then
          [⟨ec.parse_error, "more than one JSON object in a single line for NDJSON mode " ++
            "(while parsing '" ++ line.text ++ "')"⟩]
        else []
      let m := handle_max_rows p state1
      ⟨yielded ++ m.1.toList, h.warnings ++ line.doc_warnings ++ more_warning, m.2⟩

/-- The arguments of the function template `make_parser` and the constants it
reads. `table_slice_size` is `defaults::import::table_slice_size`,
`batch_timeout` is `defaults::import::batch_timeout`, and `unflatten_row` is
the effect of `unflatten(slice, separator)` on one row. -/
structure parser_args where
  separator : String
  try_find_schema : Bool
  schema : Option String
  table_slice_size : Nat
  batch_timeout : Nat
  unflatten_row : Row → String → Row

/-- Modelled from the spec: `unflatten` is not part of the sources. "If an
unflatten separator is configured, a field name containing the separator
(e.g. `a.b.c`) desugars to nested records": the slice keeps its schema name
and every row is rewritten on its own. -/
def unflatten (args : parser_args) (slice : Slice) (separator : String) : Slice :=
  { slice with rows := slice.rows.map (fun row => args.unflatten_row row separator) }

/-- The function `unflatten_if_needed(separator, slice)`. -/
def unflatten_if_needed (args : parser_args) (slice : Slice) : Slice :=
  if args.separator = "" then slice else unflatten args slice args.separator

/-- The state with which `make_parser` starts. -/
def initial_state (args : parser_args) : parser_state :=
  match args.schema with
  | some schema =>
    { parser_state.init with
      builders_per_schema := [(schema, ⟨some schema, []⟩)],
      last_used_builder := some (BuilderRef.per_schema schema) }
  | none =>
    { parser_state.init with last_used_builder := some BuilderRef.unknown }

/-- What the generator returned by `make_parser` produces: the slices it
yields, in order, and the warnings emitted on the way. -/
structure Output where
  slices : List Slice
  warnings : List Error

/-- Put slices and warnings in front of an output. -/
def Output.after (slices : List Slice) (warnings : List Error) (out : Output) : Output :=
  ⟨slices ++ out.slices, warnings ++ out.warnings⟩

/-- The loop `for (const auto& chnk : json_chunk_generator)` of `make_parser`
and the `finalize` that follows it. Every element of the input is a chunk
(null or not) together with the reading `now` of the steady clock in its
iteration; `size` is `chnk->size()` and `parse` is `parser_impl.parse`. -/
def make_parser_loop {γ : Type} (args : parser_args) (size : γ → Nat)
    (parse : γ → parser_state → Parsed) :
    List (Nat × Option γ) → parser_state → Nat → Output
  | [], state, _ =>
    ⟨((finalize state).map (unflatten_if_needed args)).toList, []⟩
  | (now, chnk) :: input, state, last_finish =>
    let full : Bool :=
      match state.last_used_builder with
      | some last => decide ((state.deref last).rows.length ≥ args.table_slice_size)
      | none => false
    let flush : Bool := full || decide (last_finish + args.batch_timeout < now)
    let e := handle_empty_chunk state args.try_find_schema
    let yielded1 : List Slice := if flush then [unflatten_if_needed args e.1] else []
    let state1 : parser_state := if flush then e.2 else state
    let last_finish1 : Nat := if flush then now else last_finish
    match chnk with
    | none =>
      let e2 := handle_empty_chunk state1 args.try_find_schema
      let yielded2 : List Slice :=
        if last_finish1 ≠ now then [unflatten_if_needed args e2.1] else []
      let state2 : parser_state := if last_finish1 ≠ now then e2.2 else state1
      (make_parser_loop args size parse input state2 last_finish1).after
        (yielded1 ++ yielded2) []
    | some c =>
      if size c = 0 then
        (make_parser_loop args size parse input state1 last_finish1).after yielded1 []
      else
        let r := parse c state1
        let yielded3 := r.slices.map (unflatten_if_needed args)
        if r.state.abort_requested then
          -- `co_return;`
          ⟨yielded1 ++ yielded3, r.warnings⟩
        else
          (make_parser_loop args size parse input r.state last_finish1).after
            (yielded1 ++ yielded3) r.warnings

/-- The generator `make_parser(to_padded_lines(input), ...)` with an
`ndjson_parser`, as `json_parser::instantiate_impl` builds it: `start` is the
clock reading before the loop. -/
def read_ndjson (args : parser_args) (p : parser_base) (start : Nat)
    (input : List (Nat × Option Line)) : Output :=
  make_parser_loop args (fun line => line.text.length) (ndjson_parse p) input
    (initial_state args) start

/-! ### Sample inputs used to evaluate the parser -/

/-- The arguments of `read suricata`: no separator, a selector, no schema. -/
def suricataArgs : parser_args :=
  ⟨"", true, none, 65536, 1000, fun row _ => row⟩

/-- The parser of `read suricata`: selector `event_type:suricata`, type
inference allowed, no schema known to the node. -/
def suricataParser : parser_base :=
  ⟨some ⟨"suricata", "event_type"⟩, none, [], true, 65536⟩

/-- A line that holds exactly the object with the given members. -/
def objectLine (text : String) (members : List (String × JValue)) : Line :=
  ⟨text, none, members, [], false⟩

/-- The line `{"event_type":"flow","src":"10.0.0.1"}`. -/
def flowLine : Line :=
  objectLine "\x7b\"event_type\":\"flow\",\"src\":\"10.0.0.1\"\x7d"
    [("event_type", .string "flow"), ("src", .string "10.0.0.1")]

/-- The line `{"event_type":"alert","sig":"ET"}`. -/
def alertLine : Line :=
  objectLine "\x7b\"event_type\":\"alert\",\"sig\":\"ET\"\x7d"
    [("event_type", .string "alert"), ("sig", .string "ET")]

/-- The line `{"event_type":1}`, whose selector field is not a string. -/
def numberLine : Line :=
  objectLine "\x7b\"event_type\":1\x7d" [("event_type", .number 1)]

/-- The line `{"src":"10.0.0.2"}`, which has no selector field. -/
def plainLine : Line :=
  objectLine "\x7b\"src\":\"10.0.0.2\"\x7d" [("src", .string "10.0.0.2")]

/-- The relation between the members of `parser_state` that every state of
a parser with a selector satisfies: the unknown-schema builder is not seeded
with a schema, and when `last_used_schema_name` is empty, `last_used_builder`
points to the unknown-schema builder. -/
def NameTracksBuilder (state : parser_state) : Prop :=
  state.unknown_schema_builder.schema = none ∧
  (state.last_used_schema_name = "" → state.last_used_builder = some BuilderRef.unknown)

/-- The object of a line lacks the selector field. -/
def LacksSelector (sel : selector) (line : Line) : Prop :=
  line.value_error = none ∧
  find_field line.members sel.selector_field = .error simdjson_error.NO_SUCH_FIELD

/-- The number of chunks of an input that hold a line of non-zero size. -/
def countLines (input : List (Nat × Option Line)) : Nat :=
  (input.filter (fun x =>
    match x.2 with
    | some line => decide (line.text.length ≠ 0)
    | none => false)).length

/-- The selector `event_type:suricata`. -/
def suricataSelector : selector := ⟨"suricata", "event_type"⟩

/-- The parser of `read suricata --no-infer`: as `suricataParser`, with type
inference disallowed. -/
def suricataParserNoInfer : parser_base :=
  ⟨some suricataSelector, none, [], false, 65536⟩

/-! ### `parse_selector` (json.cpp, lines 661-674) -/

/-- Modelled from the spec: `detail::split` is not part of the sources. The
selector is a "`field[:prefix]` pair", so the text is split at every occurrence
of the separator: a text with `n` separators has the `n + 1` parts between
them, empty parts included. The separator is a single character, as in the
only call, `detail::split(x, ":")`. -/
def split (sep : Char) : List Char → List (List Char)
  | [] => [[]]
  | c :: cs =>
    if c = sep then [] :: split sep cs
    else
      match split sep cs with
      | [] => [[c]]
      | part :: parts => (c :: part) :: parts

/-- The function `parse_selector(x, source)`. The diagnostic thrown with
`throw_()` is the error of the result; an empty `x` violates the assertion
`TENZIR_ASSERT(!x.empty())`, which is reported as an error as well. -/
def parse_selector (x : List Char) : Except String selector :=
  let parts := split ':' x
  if x = [] then
    .error "assertion `!x.empty()` failed"
  else if parts.length > 2 ∨ parts.headD [] = [] then
    .error ("invalid selector `" ++ String.mk x ++
      "`: must contain at most one `:` and field name must not be empty")
  else
    let pfx : String := if parts.length = 2 then String.mk (parts.getD 1 []) else ""
    .ok ⟨pfx, String.mk (parts.headD [])⟩

/-- The part of a text before its first `:` (all of it when there is none). -/
def beforeColon (x : List Char) : List Char := x.takeWhile (fun c => c ≠ ':')

/-- The part of a text after its first `:` (empty when there is none). -/
def afterColon (x : List Char) : List Char := (x.dropWhile (fun c => c ≠ ':')).drop 1

end Json

namespace Json

/-! ### Inputs and notions for the parser without selector and schema -/

/-- The arguments of `read json --ndjson` without selector, schema and
separator, for a given `defaults::import::table_slice_size`. -/
def plainArgs (table_slice_size : Nat) : parser_args :=
  ⟨"", false, none, table_slice_size, 1000, fun row _ => row⟩

/-- The parser of `read json --ndjson` without selector and schema. -/
def plainParser (table_slice_size : Nat) : parser_base :=
  ⟨none, none, [], true, table_slice_size⟩

/-- The line `{"a":1,"b":"x"}`. -/
def lineAB : Line :=
  objectLine "\x7b\"a\":1,\"b\":\"x\"\x7d" [("a", .number 1), ("b", .string "x")]

/-- The line `{"a":2,"b":"y","c":true}`. -/
def lineABC : Line :=
  objectLine "\x7b\"a\":2,\"b\":\"y\",\"c\":true\x7d"
    [("a", .number 2), ("b", .string "y"), ("c", .bool true)]

/-- The line `{"a":1} {"a":2}`, which holds two top-level values. -/
def twoObjectsLine : Line :=
  ⟨"\x7b\"a\":1\x7d \x7b\"a\":2\x7d", none, [("a", .number 1)], [], true⟩

/-- The yielded slices that have at least one row (the batches). -/
def nonEmptySlices (out : Output) : List Slice :=
  out.slices.filter (fun slice => !slice.rows.isEmpty)

/-- A line that holds exactly one valid, non-empty JSON object. -/
def SingleObject (line : Line) : Prop :=
  line.value_error = none ∧ line.more = false ∧ line.text.length ≠ 0

/-- The state of a parser without selector and schema whose unknown-schema
builder holds the rows `acc`. -/
def accState (acc : List Row) : parser_state :=
  ⟨[], some BuilderRef.unknown, "", ⟨none, acc⟩, false⟩

/-- The input of `make_parser` that delivers the given lines, each with its
clock reading, with no null chunk in between. -/
def lineInput (rows : List (Nat × Line)) : List (Nat × Option Line) :=
  rows.map (fun x => (x.1, some x.2))

/-- The input of `make_parser` that delivers null chunks at the given clock
readings. -/
def nullInput (ticks : List Nat) : List (Nat × Option Line) :=
  ticks.map (fun t => (t, none))

end Json

namespace Json

/-! ### `doc_parser` (json.cpp, lines 123-273) -/

/-- A cell that `doc_parser` hands to the builder. `parsed kind text` is a
string that one of `parsers::time`, `duration`, `net`, `ip` accepted; the
subtypes of numbers are not told apart. -/
inductive Cell where
  | null
  | bool (b : Bool)
  | number (n : Int)
  | string (s : String)
  | parsed (kind : String) (text : String)
  | list (elements : List Cell)
  | record (fields : List (String × Cell))

/-- What `doc_parser` is built from, besides the document: `max_recursion` is
`defaults::max_recursion`, `field_validator` is the functor `FieldValidator`
applied to the guard of a field, which is given here by the path of the field,
and `classify` is the parser `time | duration | net | ip` of `parse_string`,
which gives the kind it recognised. -/
structure doc_parser_members where
  max_recursion : Nat
  field_validator : List String → Bool
  classify : String → Option String

/-- Whether a JSON value is `null`. -/
def JValue.isNull : JValue → Bool
  | .null => true
  | _ => false

mutual

/-- The function `doc_parser::parse_impl(val, pusher, depth)`: the cells that
are added to `pusher`, or `none` when `die` ends the process. The guard
`pusher` is given by its path. Warnings of the builder about conflicting
types and errors of simdjson on malformed input are not part of the
embedding. -/
def parse_impl (dp : doc_parser_members) : JValue → List String → Nat → Option (List Cell)
  | val, path, depth =>
    if depth > dp.max_recursion then
      -- `die("nesting too deep in json_parser parse")`
      none
    else
      match val with
      | .null => some []
      | .number n => some [Cell.number n]
      | .bool b => some [Cell.bool b]
      | .string s =>
        match dp.classify s with
        | some kind => some [Cell.parsed kind s]
        | none => some [Cell.string s]
      | .array xs =>
        match parse_array dp xs path (depth + 1) with
        | none => none
        | some elements => some [Cell.list elements]
      | .object members =>
        match parse_object dp members path (depth + 1) with
        | none => none
        | some fields => some [Cell.record fields]

/-- The loop of `doc_parser::parse_array(arr, pusher, depth)` over the
elements: the cells added to the list that `pusher.push_list()` opened. -/
def parse_array (dp : doc_parser_members) : List JValue → List String → Nat → Option (List Cell)
  | [], _, _ => some []
  | element :: rest, path, depth =>
    match parse_impl dp element path (depth + 1) with
    | none => none
    | some added =>
      match parse_array dp rest path depth with
      | none => none
      | some more => some (added ++ more)

/-- The loop of `doc_parser::parse_object(v, field_pusher, depth)` over the
members: the fields of the record with their cells. A field that the
validator rejects is left out; a field to which nothing is added is null. -/
def parse_object (dp : doc_parser_members) :
    List (String × JValue) → List String → Nat → Option (List (String × Cell))
  | [], _, _ => some []
  | (key, val) :: rest, path, depth =>
    if dp.field_validator (path ++ [key]) = false then
      parse_object dp rest path depth
    else
      match parse_impl dp val (path ++ [key]) (depth + 1) with
      | none => none
      | some added =>
        match parse_object dp rest path depth with
        | none => none
        | some more => some ((key, added.headD Cell.null) :: more)

end

end Json

namespace Json

mutual

/-- The structural nesting depth of a value: the largest number of arrays and
objects, the value itself included, that enclose a value inside it (`0` for a
scalar and for an empty array or object). -/
def nest : JValue → Nat
  | .array xs => nestList xs
  | .object members => nestMembers members
  | _ => 0

/-- The nesting depth of an array with the given elements. -/
def nestList : List JValue → Nat
  | [] => 0
  | x :: xs => max (1 + nest x) (nestList xs)

/-- The nesting depth of an object with the given members. -/
def nestMembers : List (String × JValue) → Nat
  | [] => 0
  | (_, v) :: members => max (1 + nest v) (nestMembers members)

end

/-- The value that consists of `n` nested arrays around the number `0`. -/
def deepArray : Nat → JValue
  | 0 => .number 0
  | n + 1 => .array [deepArray n]

/-- The parser that `json_parser::instantiate` builds without `--no-infer`:
no field is rejected; here no string is recognised as time, duration, subnet
or address. -/
def plainDocParser (max_recursion : Nat) : doc_parser_members :=
  ⟨max_recursion, fun _ => true, fun _ => none⟩

end Json

namespace SortOp

/-! ## The sort operator (sort.cpp) -/

/-- An `offset`: the index path of a field in a record type. -/
abbrev offset := List Nat

/-- The pruned type of the key field, as far as `find_or_create_path` tells
types apart: `none_type` is the default `type{}`, which converts to `false`. -/
inductive key_type where
  | none_type
  | subnet
  | other (id : Nat)
  deriving DecidableEq, Repr

/-- A `table_slice`: its schema and its rows. -/
structure table_slice (σ α : Type) where
  schema : σ
  rows : List α

/-- The value `table_slice{}`. -/
def table_slice.empty {σ α : Type} [Inhabited σ] : table_slice σ α := ⟨default, []⟩

/-- What `sort_state` takes from its surroundings, for the sort key `key_` and
the sort options of the operator.

* `resolve_key` is `caf::get<record_type>(schema).resolve_key(key_)`;
* `field_type` is `caf::get<record_type>(schema).field(path).type.prune()`;
* `key_column` is `path->get(*batch)` for the record batch of a slice (for an
  extension array, its storage array);
* `sort_indices` is `arrow::compute::SortIndices(*chunked_key, sort_options_)`
  on the chunked array made of the key columns;
* `schema_name` is the text of a schema in a warning. -/
structure Env (σ α κ : Type) where
  resolve_key : σ → Option offset
  field_type : σ → offset → key_type
  key_column : offset → table_slice σ α → List κ
  sort_indices : List (List κ) → List Nat
  schema_name : σ → String

/-- The members of `sort_state` that change. -/
structure sort_state (σ α κ : Type) where
  cache_ : List (table_slice σ α)
  offset_table_ : List Nat
  sort_keys_ : List (List κ)
  key_field_path_ : List (σ × Option offset)
  key_type_ : key_type

/-- The state after construction: `offset_table_ = {0}`, all else empty. -/
def sort_state.init {σ α κ : Type} : sort_state σ α κ :=
  ⟨[], [0], [], [], key_type.none_type⟩

/-- What a member function returns besides its value: the warnings handed to
`ctrl.warn` and the state afterwards. -/
structure Step (σ α κ ρ : Type) where
  value : ρ
  warnings : List Error
  state : sort_state σ α κ

/-- The function `sort_state::find_or_create_path(schema, ctrl)`. The text of
the second warning leaves out the names of the two types. -/
def find_or_create_path {σ α κ : Type} [DecidableEq σ] (env : Env σ α κ) (key : String)
    (st : sort_state σ α κ) (schema : σ) : Step σ α κ (Option offset) :=
  match st.key_field_path_.find? (fun kv => kv.1 = schema) with
  | some kv => ⟨kv.2, [], st⟩
  | none =>
    -- Set up the sorting and emit warnings at most once per schema.
    let key_path : Option offset := env.resolve_key schema
    let warnings1 : List Error :=
      if key_path.isNone then
        [⟨ec.invalid_configuration, "sort key " ++ key ++ " does not apply to schema " ++
          env.schema_name schema ++ "; events of this schema will not be sorted"⟩]
      else []
    let current_key_type : key_type :=
      match key_path with
      | some path => env.field_type schema path
      | none => key_type.none_type
    if st.key_type_ = key_type.none_type ∧ current_key_type ≠ key_type.none_type then
      if current_key_type = key_type.subnet then
        ⟨none, warnings1,
          { st with key_field_path_ := st.key_field_path_ ++ [(schema, none)] }⟩
      else
        ⟨key_path, warnings1,
          { st with
            key_field_path_ := st.key_field_path_ ++ [(schema, key_path)],
            key_type_ := current_key_type }⟩
    else if st.key_type_ ≠ current_key_type then
      ⟨none,
        warnings1 ++ [⟨ec.invalid_configuration, "sort key " ++ key ++
          " resolved to a type for schema " ++ env.schema_name schema ++
          " that differs from the type resolved for a previous schema; events of this " ++
          "schema will not be sorted"⟩],
        { st with key_field_path_ := st.key_field_path_ ++ [(schema, none)] }⟩
    else
      ⟨key_path, warnings1,
        { st with key_field_path_ := st.key_field_path_ ++ [(schema, key_path)] }⟩

/-- The function `sort_state::try_add(slice, ctrl)`. -/
def try_add {σ α κ : Type} [DecidableEq σ] [Inhabited σ] (env : Env σ α κ) (key : String)
    (st : sort_state σ α κ) (slice : table_slice σ α) : Step σ α κ (table_slice σ α) :=
  if slice.rows.length = 0 then
    ⟨slice, [], st⟩
  else
    let r := find_or_create_path env key st slice.schema
    match r.value with
    | none => ⟨table_slice.empty, r.warnings, r.state⟩
    | some path =>
      ⟨table_slice.empty, r.warnings,
        { r.state with
          sort_keys_ := r.state.sort_keys_ ++ [env.key_column path slice],
          offset_table_ :=
            r.state.offset_table_ ++ [r.state.offset_table_.getLastD 0 + slice.rows.length],
          cache_ := r.state.cache_ ++ [slice] }⟩

/-- The loop `for (auto&& slice : input) co_yield state.try_add(...)` of the
operator: the yielded slices, the warnings and the final state. -/
def add_all {σ α κ : Type} [DecidableEq σ] [Inhabited σ] (env : Env σ α κ) (key : String) :
    List (table_slice σ α) → sort_state σ α κ → Step σ α κ (List (table_slice σ α))
  | [], st => ⟨[], [], st⟩
  | slice :: input, st =>
    let r := try_add env key st slice
    let rest := add_all env key input r.state
    ⟨r.value :: rest.value, r.warnings ++ rest.warnings, rest.state⟩

/-- The position that `std::upper_bound(begin, end, value)` returns on a
sorted range: that of the first element greater than `value`, or the length
of the range. -/
def upper_bound (table : List Nat) (value : Nat) : Nat :=
  (table.takeWhile (fun x => decide (x ≤ value))).length

/-- Modelled from the spec: `subslice` is not part of the sources. "Slicing
yields a new batch sharing storage": the rows `[first, last)` of the slice. -/
def subslice {σ α : Type} (slice : table_slice σ α) (first last : Nat) : table_slice σ α :=
  ⟨slice.schema, (slice.rows.drop first).take (last - first)⟩

/-- One iteration of the loop of `sort_state::sorted()` for the sort index
`index`: the yielded slice, or `none` when `std::prev` leaves the table, the
cache index is out of range, or the assertion `result.rows() == 1` fails. -/
def sorted_at {σ α κ : Type} (st : sort_state σ α κ) (index : Nat) :
    Option (table_slice σ α) :=
  match upper_bound st.offset_table_ index with
  | 0 => none
  | position + 1 =>
    -- `offset = std::prev(...)`, `cache_index = std::distance(begin, offset)`
    let cache_index := position
    match st.offset_table_.get? cache_index, st.cache_.get? cache_index with
    | some off, some slice =>
      let row := index - off
      let result := subslice slice row (row + 1)
      if result.rows.length = 1 then some result else none
    | _, _ => none

/-- The loop of `sort_state::sorted()` over the sort indices. -/
def sorted_loop {σ α κ : Type} (st : sort_state σ α κ) :
    List Nat → Option (List (table_slice σ α))
  | [] => some []
  | index :: indices =>
    match sorted_at st index with
    | none => none
    | some result =>
      match sorted_loop st indices with
      | none => none
      | some results => some (result :: results)

/-- The generator `sort_state::sorted()`: the slices it yields. -/
def sorted {σ α κ : Type} (env : Env σ α κ) (st : sort_state σ α κ) :
    Option (List (table_slice σ α)) :=
  if st.cache_.length = 0 then
    -- If there is nothing to sort, then we can just return early.
    some []
  else
    sorted_loop st (env.sort_indices st.sort_keys_)

end SortOp

namespace SortOp

/-- The offset table that belongs to slices with the given numbers of rows,
starting at `base`: the running totals, with `base` in front. -/
def offsets (base : Nat) : List Nat → List Nat
  | [] => [base]
  | n :: ns => base :: offsets (base + n) ns

/-- The number of rows of a list of slices. -/
def total_rows {σ α : Type} (slices : List (table_slice σ α)) : Nat :=
  (slices.map (fun s => s.rows.length)).sum

/-- The relation between `offset_table_` and `cache_` that the comment on
`offset_table_` describes: the first entry is zero, and every cached slice
appends the total number of rows in the cache. -/
def Consistent {σ α κ : Type} (st : sort_state σ α κ) : Prop :=
  st.offset_table_ = offsets 0 (st.cache_.map (fun s => s.rows.length))

end SortOp

namespace SortOp

/-! ### A sample instance used to evaluate the operator -/

/-- Insert the index `i` into a list of indices that is ordered by key, behind
the indices whose key is not greater. -/
def insertIndex (keys : List Int) (i : Nat) : List Nat → List Nat
  | [] => [i]
  | j :: js =>
    if keys.getD i 0 < keys.getD j 0 then i :: j :: js else j :: insertIndex keys i js

/-- A sample `SortIndices` for integer keys in ascending order: the indices of
the concatenated key columns, ordered by key. -/
def ascendingIndices (columns : List (List Int)) : List Nat :=
  (List.range columns.flatten.length).foldl (fun acc i => insertIndex columns.flatten i acc) []

/-- A sample instance: schemas are names, an event is the value of its field
`t`, which every schema has at offset `[0]` with one and the same type, and
the keys are sorted in ascending order. -/
def sampleEnv : Env String Int Int where
  resolve_key := fun _ => some [0]
  field_type := fun _ _ => key_type.other 0
  key_column := fun _ slice => slice.rows
  sort_indices := ascendingIndices
  schema_name := fun schema => schema

/-- The input of the sort scenario: three events with `t = 3, 1, 2`, the
first and the third of schema `A`, the second of schema `B`. -/
def sampleInput : List (table_slice String Int) :=
  [⟨"A", [3]⟩, ⟨"B", [1]⟩, ⟨"A", [2]⟩]

end SortOp

namespace SortOp

/-! ### The rebatching loop of `sort_operator::operator()` (sort.cpp, lines 181-208) -/

/-- Modelled from the spec: `split(slices, n)` is not part of the sources. It
partitions a sequence of slices at the row `n`: the first part holds the first
`n` rows, the second part the rest; the slice that contains row `n` is cut in
two. -/
def split {σ α : Type} : List (table_slice σ α) → Nat →
    List (table_slice σ α) × List (table_slice σ α)
  | [], _ => ([], [])
  | s :: rest, n =>
    if s.rows.length ≤ n then
      ((s :: (split rest (n - s.rows.length)).1), (split rest (n - s.rows.length)).2)
    else if n = 0 then
      ([], s :: rest)
    else
      ([⟨s.schema, s.rows.take n⟩], ⟨s.schema, s.rows.drop n⟩ :: rest)

/-- Modelled from the spec: `concatenate(slices)` is not part of the sources.
It makes one slice of slices of one schema: the schema of the first slice with
the rows of all slices in order; no slices give `table_slice{}`. -/
def concatenate {σ α : Type} [Inhabited σ] : List (table_slice σ α) → table_slice σ α
  | [] => table_slice.empty
  | s :: rest => ⟨s.schema, s.rows ++ rest.flatMap (fun x => x.rows)⟩

/-- Addition of `uint64_t` values. -/
def add64 (a b : Nat) : Nat := (a + b) % 2 ^ 64

/-- Subtraction of `uint64_t` values. -/
def sub64 (a b : Nat) : Nat := (a + 2 ^ 64 - b % 2 ^ 64) % 2 ^ 64

/-- The loop `while (not buffer.empty())` that runs when the schema changes:
the yielded slices and `num_buffered` afterwards; the buffer is empty
afterwards. `size` is `defaults::import::table_slice_size`; one unit of fuel
is used per iteration. -/
def flush_all {σ α : Type} [Inhabited σ] (size : Nat) :
    Nat → List (table_slice σ α) → Nat → Option (List (table_slice σ α) × Nat)
  | _, [], num_buffered => some ([], num_buffered)
  | 0, _ :: _, _ => none
  | fuel + 1, s :: buffer, num_buffered =>
    let parts := split (s :: buffer) size
    let result := concatenate parts.1
    match flush_all size fuel parts.2 (sub64 num_buffered result.rows.length) with
    | none => none
    | some (yielded, num) => some (result :: yielded, num)

/-- The loop `while (num_buffered >= defaults::import::table_slice_size)`: the
yielded slices, the buffer and `num_buffered` afterwards. -/
def flush_full {σ α : Type} [Inhabited σ] (size : Nat) :
    Nat → List (table_slice σ α) → Nat →
      Option (List (table_slice σ α) × List (table_slice σ α) × Nat)
  | fuel, buffer, num_buffered =>
    if num_buffered < size then
      some ([], buffer, num_buffered)
    else
      match fuel with
      | 0 => none
      | fuel + 1 =>
        let parts := split buffer size
        let result := concatenate parts.1
        match flush_full size fuel parts.2 (sub64 num_buffered result.rows.length) with
        | none => none
        | some (yielded, buffer1, num) => some (result :: yielded, buffer1, num)

/-- The loop `for (auto&& slice : std::move(state).sorted())` and the final
`if (not buffer.empty()) co_yield concatenate(std::move(buffer))`: the batches
that are yielded, or `none` when an inner loop runs out of its fuel. -/
def rebatch {σ α : Type} [DecidableEq σ] [Inhabited σ] (size fuel : Nat) :
    List (table_slice σ α) → List (table_slice σ α) → Nat → Option (List (table_slice σ α))
  | [], buffer, _ =>
    if buffer.isEmpty then some [] else some [concatenate buffer]
  | slice :: slices, buffer, num_buffered =>
    let changed : Bool :=
      match buffer.getLast? with
      | some back => decide (back.schema ≠ slice.schema)
      | none => false
    match (if changed then flush_all size fuel buffer num_buffered
           else some ([], num_buffered)) with
    | none => none
    | some (yielded1, num1) =>
      let buffer1 := if changed then [] else buffer
      let num2 := add64 num1 slice.rows.length
      let buffer2 := buffer1 ++ [slice]
      match flush_full size fuel buffer2 num2 with
      | none => none
      | some (yielded2, buffer3, num3) =>
        match rebatch size fuel slices buffer3 num3 with
        | none => none
        | some yielded3 => some (yielded1 ++ yielded2 ++ yielded3)

/-- The single-row slice of an event with its schema. -/
def single {σ α : Type} (e : σ × α) : table_slice σ α := ⟨e.1, [e.2]⟩

/-- The blocks into which the rebatching loop cuts a sequence of events, each
given with its schema, when `buf` holds the events buffered so far: a block
ends where the schema changes and where it has `size` events. -/
def blocks {σ α : Type} [DecidableEq σ] (size : Nat) :
    List (σ × α) → List (σ × α) → List (List (σ × α))
  | buf, [] => if buf.isEmpty then [] else [buf]
  | buf, e :: rest =>
    let changed : Bool :=
      match buf.getLast? with
      | some back => decide (back.1 ≠ e.1)
      | none => false
    let flushed : List (List (σ × α)) := if changed then [buf] else []
    let buf1 := if changed then [] else buf
    if (buf1 ++ [e]).length ≥ size then
      flushed ++ (buf1 ++ [e]) :: blocks size [] rest
    else
      flushed ++ blocks size (buf1 ++ [e]) rest

/-- The events of a list have one and the same schema. -/
def SameSchema {σ α : Type} (events : List (σ × α)) : Prop :=
  ∀ e ∈ events, ∀ e' ∈ events, e.1 = e'.1

end SortOp

namespace EvalBinary

/-! ## Binary operators of the evaluator (eval_binary.cpp) -/

/-- The enum `ast::binary_op`. -/
inductive binary_op where
  | add | sub | mul | div | eq | neq | gt | ge | lt | le | and_ | or_ | in_
  deriving DecidableEq, Repr

/-- The function `result_if_both_null(op)`. -/
def result_if_both_null : binary_op → Option Bool
  | .eq | .ge | .le => some true
  | .neq => some false
  | .add | .sub | .mul | .div | .gt | .lt | .and_ | .or_ | .in_ => none

/-- The loop of `EvalBinOp<Op, L, R>::eval` for the operators with a kernel,
over the rows of the two arrays; a cell is `none` when `IsNull(i)` holds.
`both_null` is the cell appended when both operands are null
(`result_if_both_null(Op)` in the result type), `kernel` is
`BinOpKernel<Op, L, R>::evaluate`, and `warnings` is the `stack_vector` of the
errors seen so far. The result is the column that `finish(*b)` returns and
the warnings handed to `warning_emitter`. -/
def eval_loop {L R Res : Type} (both_null : Option Res) (kernel : L → R → Except String Res) :
    List (Option L × Option R) → List String → List (Option Res) × List String
  | [], warnings => ([], warnings)
  | (ln, rn) :: rows, warnings =>
    match ln, rn with
    | none, none =>
      (both_null :: (eval_loop both_null kernel rows warnings).1,
        (eval_loop both_null kernel rows warnings).2)
    | none, some _ =>
      (none :: (eval_loop both_null kernel rows warnings).1,
        (eval_loop both_null kernel rows warnings).2)
    | some _, none =>
      (none :: (eval_loop both_null kernel rows warnings).1,
        (eval_loop both_null kernel rows warnings).2)
    | some lv, some rv =>
      match kernel lv rv with
      | .ok res =>
        (some res :: (eval_loop both_null kernel rows warnings).1,
          (eval_loop both_null kernel rows warnings).2)
      | .error e =>
        let warnings1 := if e ∈ warnings then warnings else warnings ++ [e]
        (none :: (eval_loop both_null kernel rows warnings1).1,
          (eval_loop both_null kernel rows warnings1).2)

/-- The function `EvalBinOp<Op, L, R>::eval(l, r, warning_emitter)` for the
operators with a kernel. The arrays have the same length
(`TENZIR_ASSERT(l.length() == r.length())` in `evaluator::eval`). -/
def eval {L R Res : Type} (both_null : Option Res) (kernel : L → R → Except String Res)
    (l : List (Option L)) (r : List (Option R)) : List (Option Res) × List String :=
  eval_loop both_null kernel (l.zip r) []

/-- The double-precision operations that the kernels use, for a type `F` of
doubles: `of_int` is `static_cast<double>` of an integer, `div` is `/`, and
`is_zero x` is `x == 0.0`. -/
structure DoubleOps (F : Type) where
  of_int : Int → F
  div : F → F → F
  is_zero : F → Bool

/-- A value of one of the numeric types `int64`, `uint64` and `double`. -/
inductive Number (F : Type) where
  | int64 (v : Int)
  | uint64 (v : Nat)
  | double (v : F)

/-- The conversion `static_cast<double>(x)`. -/
def to_double {F : Type} (ops : DoubleOps F) : Number F → F
  | .int64 v => ops.of_int v
  | .uint64 v => ops.of_int v
  | .double v => v

/-- The comparison `r == decltype(r){}`. -/
def is_zero {F : Type} (ops : DoubleOps F) : Number F → Bool
  | .int64 v => decide (v = 0)
  | .uint64 v => decide (v = 0)
  | .double v => ops.is_zero v

/-- The kernel `BinOpKernel<ast::binary_op::div, L, R>::evaluate(l, r)` for
numeric `L` and `R`. -/
def div_kernel {F : Type} (ops : DoubleOps F) (l r : Number F) : Except String F :=
  if is_zero ops r = true then
    .error "division by zero"
  else
    .ok (ops.div (to_double ops l) (to_double ops r))

/-- The value `std::numeric_limits<int64_t>::max()`. -/
def INT64_MAX : Int := 9223372036854775807

/-- The value `std::numeric_limits<int64_t>::min()`. -/
def INT64_MIN : Int := -9223372036854775808

/-- The conversion to `int64_t` (two's complement). -/
def to_int64 (x : Int) : Int :=
  (x + 9223372036854775808) % 18446744073709551616 - 9223372036854775808

/-- The conversion `static_cast<uint64_t>(x)`. -/
def to_uint64 (x : Int) : Int := x % 18446744073709551616

/-- The call `abs(l)` for an `int64_t`; the result for `INT64_MIN`, which
overflows, is taken in two's complement. -/
def abs_int64 (l : Int) : Int := to_int64 (if l < 0 then -l else l)

/-- The kernel `BinOpKernel<ast::binary_op::sub, int64_type,
uint64_type>::evaluate(l, r)`, for `l` an `int64_t` and `r` a `uint64_t`. -/
def sub_int64_uint64 (l : Int) (r : Int) : Except String Int :=
  -- r > int_max
  if r > to_uint64 INT64_MAX then
    .error "subtraction overflow"
  -- l < 0 and |l| + r > int_max -> l - r < int_min
  else if l < 0 ∧ to_uint64 (to_uint64 (abs_int64 l) + r) > to_uint64 (to_uint64 INT64_MAX + 1) then
    .error "subtraction underflow"
  else
    .ok (to_int64 (l - to_int64 r))

/-- A sample of double operations on the rationals, used to evaluate the
division kernel. -/
def sampleDoubleOps : DoubleOps Rat :=
  ⟨fun i => (i : Rat), fun a b => a / b, fun x => decide (x = 0)⟩

end EvalBinary

namespace EvalBinary

/-- The cell that the loop of `EvalBinOp::eval` appends for one row. -/
def cell_of {L R Res : Type} (both_null : Option Res) (kernel : L → R → Except String Res) :
    Option L × Option R → Option Res
  | (none, none) => both_null
  | (none, some _) => none
  | (some _, none) => none
  | (some lv, some rv) =>
    match kernel lv rv with
    | .ok res => some res
    | .error _ => none

end EvalBinary

namespace Aggregation

/-! ## Aggregation functions `sum` and `approximate_median`
(builtins/aggregation-functions) -/

/-- The member functions of `arrow::internal::TDigest` that
`approximate_median_function` calls, for a type `τ` of digests over the
doubles `F`; `Quantile t` stands for `t.Quantile(0.5)`. The class belongs to
the Arrow library. -/
structure TDigest (τ F : Type) where
  Add : τ → F → τ
  is_empty : τ → Bool
  Quantile : τ → F

/-- The function `sum_function<Type>::add(view)`: `sum_` is the member
`std::optional<type_to_data_t<Type>>`, a `view` holding `caf::none` is `none`,
and `plus` is `+` on the values of `Type`. -/
def sum_add {V : Type} (plus : V → V → V) (sum_ : Option V) (view : Option V) : Option V :=
  match view with
  | none => sum_
  | some v =>
    match sum_ with
    | none => some v
    | some s => some (plus s v)

/-- The function `sum_function<Type>::finish()`, `data{sum_}`: null when
`sum_` holds no value. -/
def sum_finish {V : Type} (sum_ : Option V) : Option V := sum_

/-- The function `approximate_median_function<Type>::add(view)` on the member
`tdigest_`: `is_double` is `std::is_same_v<Type, double_type>`, `to_double`
is `static_cast<double>`, and `isnan` is `std::isnan`. -/
def approximate_median_add {τ F V : Type} (td : TDigest τ F) (isnan : F → Bool)
    (is_double : Bool) (to_double : V → F) (tdigest_ : τ) (view : Option V) : τ :=
  match view with
  | none => tdigest_
  | some v =>
    let x := to_double v
    if is_double = true ∧ isnan x = true then tdigest_
    else td.Add tdigest_ x

/-- The function `approximate_median_function<Type>::add(array)` over the
values of the array. -/
def approximate_median_add_array {τ F V : Type} (td : TDigest τ F) (isnan : F → Bool)
    (is_double : Bool) (to_double : V → F) (tdigest_ : τ) : List (Option V) → τ
  | [] => tdigest_
  | none :: values =>
    approximate_median_add_array td isnan is_double to_double tdigest_ values
  | some v :: values =>
    if is_double = true ∧ isnan (to_double v) = true then
      approximate_median_add_array td isnan is_double to_double tdigest_ values
    else
      approximate_median_add_array td isnan is_double to_double
        (td.Add tdigest_ (to_double v)) values

/-- The function `approximate_median_function<Type>::finish()`; `of_double`
is `static_cast<type_to_data_t<Type>>`. -/
def approximate_median_finish {τ F V : Type} (td : TDigest τ F) (of_double : F → V)
    (tdigest_ : τ) : Option V :=
  if td.is_empty tdigest_ = true then none
  else some (of_double (td.Quantile tdigest_))

/-- A sample of doubles: NaN and the integers. -/
inductive sample_double where
  | nan
  | finite (v : Int)
  deriving DecidableEq, Repr

/-- The sum of two sample doubles; NaN is absorbing. -/
def sample_double.plus : sample_double → sample_double → sample_double
  | .finite a, .finite b => .finite (a + b)
  | _, _ => .nan

/-- The test `std::isnan` on the sample doubles. -/
def sample_double.isnan : sample_double → Bool
  | .nan => true
  | .finite _ => false

/-- A sample digest that keeps the added values in order and answers the
quantile with the value in the middle of that list. -/
def sampleDigest : TDigest (List sample_double) sample_double :=
  ⟨fun t x => t ++ [x], fun t => t.isEmpty, fun t => t.getD (t.length / 2) .nan⟩

end Aggregation

namespace SortOp

/-! ### The operator as a whole, and a sample with unsortable schemas -/

/-- The generator `sort_operator::operator()(input, ctrl)`: the slices that
are yielded while the input is read, followed by the batches of the
rebatching loop, and the warnings; `none` when `sorted()` fails or an inner
loop runs out of its fuel. `size` is `defaults::import::table_slice_size`. -/
def sort_operator {σ α κ : Type} [DecidableEq σ] [Inhabited σ] (env : Env σ α κ)
    (key : String) (size fuel : Nat) (input : List (table_slice σ α)) :
    Option (List (table_slice σ α) × List Error) :=
  let r := add_all env key input sort_state.init
  match sorted env r.state with
  | none => none
  | some slices =>
    match rebatch size fuel slices [] 0 with
    | none => none
    | some batches => some (r.value ++ batches, r.warnings)

/-- The rows of a sequence of slices, in order. -/
def all_rows {σ α : Type} (slices : List (table_slice σ α)) : List α :=
  slices.flatMap (fun s => s.rows)

/-- A sample instance with schemas that cannot be sorted: the schemas are
names, an event is the value of its field `t`; schema `C` has no field `t`,
in schema `B` the field has another type than in the other schemas, and in
schema `S` it is a subnet. -/
def mixedEnv : Env String Int Int where
  resolve_key := fun schema => if schema = "C" then none else some [0]
  field_type := fun schema _ =>
    if schema = "B" then key_type.other 1
    else if schema = "S" then key_type.subnet
    else key_type.other 0
  key_column := fun _ slice => slice.rows
  sort_indices := ascendingIndices
  schema_name := fun schema => schema

/-- A schema has an entry in `key_field_path_`. -/
def Seen {σ α κ : Type} [DecidableEq σ] (st : sort_state σ α κ) (schema : σ) : Prop :=
  (st.key_field_path_.find? (fun kv => kv.1 = schema)).isSome = true

end SortOp

namespace EvalBinary

/-! ### The specializations for `and_` on booleans and for `eq`/`neq` on strings -/

/-- The function `arrow::bit_util::GetBit(bits, i)` of the Arrow library on a
buffer of bytes: bit `i % 8` of byte `i / 8`. -/
def GetBit (bits : List Nat) (i : Nat) : Bool :=
  (bits.getD (i / 8) 0).testBit (i % 8)

/-- An `arrow::BooleanArray` as the evaluator sees it: `length()`, `offset()`,
the bytes of `values()` and the bytes of `null_bitmap()`, if there is one. -/
structure BooleanArray where
  length : Nat
  offset : Nat
  values : List Nat
  null_bitmap : Option (List Nat)

/-- The member `BooleanArray::Value(i)` of the Arrow library. -/
def BooleanArray.Value (a : BooleanArray) (i : Nat) : Bool :=
  GetBit a.values (i + a.offset)

/-- The member `Array::IsNull(i)` of the Arrow library: the array has a null
bitmap and the bit of the row is not set. -/
def BooleanArray.IsNull (a : BooleanArray) (i : Nat) : Bool :=
  match a.null_bitmap with
  | none => false
  | some bitmap => !GetBit bitmap (i + a.offset)

/-- The cells of an array: null, or the value of the row. -/
def BooleanArray.cells (a : BooleanArray) : List (Option Bool) :=
  (List.range a.length).map (fun i => if a.IsNull i = true then none else some (a.Value i))

/-- An array is well formed when its buffers hold the bits of all its rows. -/
def BooleanArray.WellFormed (a : BooleanArray) : Prop :=
  a.length + a.offset ≤ 8 * a.values.length ∧
  ∀ bitmap, a.null_bitmap = some bitmap → a.length + a.offset ≤ 8 * bitmap.length

/-- The bitmap path of `EvalBinOp<and_, bool_type, bool_type>::eval`: the
array made of the bytes `l_ptr[i] & r_ptr[i]`; `none` when one of the two
assertions on the sizes of the buffers fails. -/
def and_bitmap (l r : BooleanArray) : Option BooleanArray :=
  let size := (l.length + 7) / 8
  if size ≤ l.values.length ∧ size ≤ r.values.length then
    some ⟨l.length, 0,
      (List.range size).map (fun i => l.values.getD i 0 &&& r.values.getD i 0), none⟩
  else
    none

/-- One iteration of the row-by-row loop of
`EvalBinOp<and_, bool_type, bool_type>::eval`: the cell that is appended. -/
def and_row (l r : BooleanArray) (i : Nat) : Option Bool :=
  let lv := l.Value i
  let rv := r.Value i
  let ln := l.IsNull i
  let rn := r.IsNull i
  let lt := !ln && lv
  let lf := !ln && !lv
  let rt := !rn && rv
  let rf := !rn && !rv
  if (lt && rt) = true then some true
  else if (lf || rf) = true then some false
  else none

/-- The row-by-row loop of `EvalBinOp<and_, bool_type, bool_type>::eval`. -/
def and_rows (l r : BooleanArray) : List (Option Bool) :=
  (List.range l.length).map (and_row l r)

/-- The function `EvalBinOp<and_, bool_type, bool_type>::eval(l, r, _)`: the
cells of the array it returns, or `none` when an assertion fails. -/
def eval_and (l r : BooleanArray) : Option (List (Option Bool)) :=
  let has_null := l.null_bitmap.isSome || r.null_bitmap.isSome
  let has_offset := l.offset != 0 || r.offset != 0
  if (!has_null && !has_offset) = true then
    (and_bitmap l r).map BooleanArray.cells
  else
    some (and_rows l r)

/-- Kleene conjunction of cells, as the specification states it: true when
both are non-null true, false when at least one is non-null false, null
otherwise. -/
def kleene_and : Option Bool → Option Bool → Option Bool
  | some true, some true => some true
  | some false, _ => some false
  | _, some false => some false
  | _, _ => none

/-- The loop of `EvalBinOp<Op, string_type, string_type>::eval` for `eq` and
`neq` over the rows of the two arrays; `invert` is `Op == neq`, a null cell is
`none`. Every row appends a non-null boolean. -/
def eval_string_eq (invert : Bool) : List (Option String × Option String) → List (Option Bool)
  | [] => []
  | (lc, rc) :: rows =>
    let ln := lc.isNone
    let rn := rc.isNone
    let equal : Bool :=
      if ln != rn then false
      else if ln && rn then true
      else
        match lc, rc with
        | some lv, some rv => lv == rv
        | _, _ => false
    some (equal != invert) :: eval_string_eq invert rows

/-- The kernel `BinOpKernel<Op, L, R>::evaluate` of the relational operators
`eq` (`l == r`) and `neq` (`l != r`). -/
def eq_kernel {V : Type} [BEq V] (invert : Bool) (l r : V) : Except String Bool :=
  if invert = true then .ok (l != r) else .ok (l == r)

/-- The operator of the specialization: `neq` when `invert` holds, else `eq`. -/
def eq_op (invert : Bool) : binary_op := if invert = true then .neq else .eq

end EvalBinary

namespace Decapsulate

/-! ## The `decapsulate` operator (decapsulate.cpp): frames, packets, segments

A function that reads the bytes returns `none` when a read or a slice leaves
the bytes it was given (undefined behaviour in the code), and `some r`
otherwise, where `r` is the `std::optional` that the code returns. -/

/-- The slice `bytes.subspan<off, cnt>()`, defined when it lies within the
bytes. -/
def subspan_fixed (bytes : List Nat) (off cnt : Nat) : Option (List Nat) :=
  if off + cnt ≤ bytes.length then some ((bytes.drop off).take cnt) else none

/-- The slice `bytes.subspan(off)`, defined when `off` is at most the size. -/
def subspan_from (bytes : List Nat) (off : Nat) : Option (List Nat) :=
  if off ≤ bytes.length then some (bytes.drop off) else none

/-- The function `to_uint16(bytes)`: the two bytes in network order. -/
def to_uint16 (bytes : List Nat) : Nat :=
  (bytes.getD 0 0 % 256) * 256 + bytes.getD 1 0 % 256

/-- The enum `frame_type`, of which `frame::make` handles `ethernet`. -/
inductive frame_type where
  | ethernet
  | other (id : Nat)
  deriving DecidableEq, Repr

/-- The enum `ether_type`, with the values that the code names. -/
inductive ether_type where
  | invalid
  | ipv4
  | ipv6
  | ieee_802_1aq
  | ieee_802_1q_db
  | other (value : Nat)
  deriving DecidableEq, Repr

/-- The struct `frame`. -/
structure frame where
  dst : List Nat
  src : List Nat
  outer_vid : Option Nat
  inner_vid : Option Nat
  type : ether_type
  payload : List Nat
  deriving DecidableEq, Repr

/-- The function `frame::make(bytes, type)`; `as_ether_type` is the function
of that name, which is not part of the sources. -/
def frame.make (as_ether_type : List Nat → ether_type) (bytes : List Nat) :
    frame_type → Option (Option frame)
  | .ethernet =>
    -- Need at least 2 MAC addresses and the 2-byte EtherType.
    if bytes.length < 14 then some none
    else
      match subspan_fixed bytes 0 6, subspan_fixed bytes 6 6, subspan_fixed bytes 12 2 with
      | some dst, some src, some tag =>
        match as_ether_type tag with
        | .ieee_802_1aq =>
          if bytes.length < 18 then some none
          else
            match subspan_fixed bytes 14 2, subspan_fixed bytes 16 2, subspan_from bytes 18 with
            | some outer, some tag2, some payload =>
              -- Keep going for QinQ frames (TPID = 0x8100).
              if as_ether_type tag2 = .ieee_802_1aq then
                if bytes.length < 22 then some none
                else
                  match subspan_fixed bytes 18 2, subspan_fixed bytes 20 2,
                    subspan_from bytes 22 with
                  | some inner, some tag3, some payload2 =>
                    some (some ⟨dst, src, some (to_uint16 outer &&& 0x0FFF),
                      some (to_uint16 inner &&& 0x0FFF), as_ether_type tag3, payload2⟩)
                  | _, _, _ => none
              else
                some (some ⟨dst, src, some (to_uint16 outer &&& 0x0FFF), none,
                  as_ether_type tag2, payload⟩)
            | _, _, _ => none
        | .ieee_802_1q_db =>
          if bytes.length < 22 then some none
          else
            match subspan_fixed bytes 14 2, subspan_fixed bytes 18 2, subspan_fixed bytes 20 2,
              subspan_from bytes 22 with
            | some outer, some inner, some tag2, some payload =>
              some (some ⟨dst, src, some (to_uint16 outer &&& 0x0FFF),
                some (to_uint16 inner &&& 0x0FFF), as_ether_type tag2, payload⟩)
            | _, _, _, _ => none
        | type =>
          match subspan_from bytes 14 with
          | some payload => some (some ⟨dst, src, none, none, type, payload⟩)
          | none => none
      | _, _, _ => none
  | .other _ => some none

/-- The struct `packet`; the addresses are kept as their bytes. -/
structure packet where
  src : List Nat
  dst : List Nat
  type : Nat
  payload : List Nat
  deriving DecidableEq, Repr

/-- The length `(std::to_integer<uint8_t>(bytes[0]) & 0x0f) * 4` of the IPv4
header, for the first byte `b0`. -/
def ipv4_header_length (b0 : Nat) : Nat := (b0 % 256 &&& 0x0f) * 4

/-- The function `packet::make(bytes, type)`. -/
def packet.make (bytes : List Nat) : ether_type → Option (Option packet)
  | .ipv4 =>
    if bytes.length < 20 then some none
    else
      match bytes[0]? with
      | none => none
      | some b0 =>
        let header_length := ipv4_header_length b0
        if bytes.length < header_length then some none
        else
          match subspan_fixed bytes 12 4, subspan_fixed bytes 16 4, bytes[9]?,
            subspan_from bytes header_length with
          | some src, some dst, some type, some payload =>
            some (some ⟨src, dst, type % 256, payload⟩)
          | _, _, _, _ => none
  | .ipv6 =>
    if bytes.length < 40 then some none
    else
      match subspan_fixed bytes 8 16, subspan_fixed bytes 24 16, bytes[6]?,
        subspan_from bytes 40 with
      | some src, some dst, some type, some payload =>
        some (some ⟨src, dst, type % 256, payload⟩)
      | _, _, _, _ => none
  | _ => some none

/-- The enum `port_type`. -/
inductive port_type where
  | icmp | tcp | udp | icmp6 | sctp | unknown
  deriving DecidableEq, Repr

/-- The struct `segment`. -/
structure segment where
  src : Nat
  dst : Nat
  type : port_type
  payload : List Nat
  deriving DecidableEq, Repr

/-- The constant `IPPROTO_ICMP`. -/
def IPPROTO_ICMP : Nat := 1

/-- The constant `IPPROTO_TCP`. -/
def IPPROTO_TCP : Nat := 6

/-- The constant `IPPROTO_UDP`. -/
def IPPROTO_UDP : Nat := 17

/-- The size `(std::to_integer<uint8_t>(bytes[12]) >> 4) * 4` of the TCP
header, for the byte `b12`. -/
def tcp_data_offset (b12 : Nat) : Nat := (b12 % 256 >>> 4) * 4

/-- The function `segment::make(bytes, type)`. -/
def segment.make (bytes : List Nat) (type : Nat) : Option (Option segment) :=
  if type = IPPROTO_TCP then
    if bytes.length < 20 then some none
    else
      match subspan_fixed bytes 0 2, subspan_fixed bytes 2 2, bytes[12]? with
      | some src, some dst, some b12 =>
        let data_offset := tcp_data_offset b12
        if bytes.length < data_offset then some none
        else
          match subspan_from bytes data_offset with
          | some payload => some (some ⟨to_uint16 src, to_uint16 dst, .tcp, payload⟩)
          | none => none
      | _, _, _ => none
  else if type = IPPROTO_UDP then
    if bytes.length < 8 then some none
    else
      match subspan_fixed bytes 0 2, subspan_fixed bytes 2 2, subspan_from bytes 8 with
      | some src, some dst, some payload =>
        some (some ⟨to_uint16 src, to_uint16 dst, .udp, payload⟩)
      | _, _, _ => none
  else if type = IPPROTO_ICMP then
    if bytes.length < 8 then some none
    else
      match bytes[0]?, bytes[1]?, subspan_from bytes 8 with
      | some message_type, some message_code, some payload =>
        some (some ⟨message_type % 256, message_code % 256, .icmp, payload⟩)
      | _, _, _ => none
  else some none

/-- A sample `as_ether_type`: the two bytes in network order, with the values
`0x0800`, `0x86DD`, `0x8100` and `0x88A8` of IPv4, IPv6, 802.1Q and 802.1ad. -/
def sample_as_ether_type (tag : List Nat) : ether_type :=
  if to_uint16 tag = 0x0800 then .ipv4
  else if to_uint16 tag = 0x86DD then .ipv6
  else if to_uint16 tag = 0x8100 then .ieee_802_1aq
  else if to_uint16 tag = 0x88A8 then .ieee_802_1q_db
  else .other (to_uint16 tag)

end Decapsulate

namespace Index

/-! ## The stream stage of the index (libvast, system/index.cpp, lines 448-528) -/

/-- The members of `index_state::active_partition` that the handler uses:
whether `actor` is set, and `capacity`. -/
structure active_partition_state where
  actor : Bool
  capacity : Nat
  deriving DecidableEq, Repr

/-- The state of the index before the first slice: no active partition. -/
def initial : active_partition_state := ⟨false, 0⟩

/-- The lambda `create_active_partition`: a new partition is spawned and its
capacity is `partition_capacity`. -/
def create_active_partition (partition_capacity : Nat) (_ : active_partition_state) :
    active_partition_state :=
  ⟨true, partition_capacity⟩

/-- The lambda `decomission_active_partition`, as far as the active partition
goes: `std::swap(actor, active.actor)` with a null actor. -/
def decomission_active_partition (active : active_partition_state) : active_partition_state :=
  { active with actor := false }

/-- The process handler of the stream stage for a slice with `rows` rows:
the state of the active partition afterwards, or `none` when
`VAST_ASSERT(active.capacity >= x->rows())` fails. -/
def process (partition_capacity : Nat) (active : active_partition_state) (rows : Nat) :
    Option active_partition_state :=
  let active1 :=
    if active.actor = false then
      create_active_partition partition_capacity active
    else if rows > active.capacity then
      create_active_partition partition_capacity (decomission_active_partition active)
    else active
  if active1.capacity = partition_capacity ∧ rows > active1.capacity then
    some { active1 with capacity := 0 }
  else if active1.capacity ≥ rows then
    some { active1 with capacity := active1.capacity - rows }
  else
    none

/-- The handler applied to the slices of a stream, given by their numbers of
rows: the states after each slice, or `none` when the assertion fails. -/
def process_all (partition_capacity : Nat) :
    active_partition_state → List Nat → Option (List active_partition_state)
  | _, [] => some []
  | active, rows :: stream =>
    match process partition_capacity active rows with
    | none => none
    | some active1 =>
      match process_all partition_capacity active1 stream with
      | none => none
      | some states => some (active1 :: states)

end Index

namespace Velociraptor

/-! ## The `velociraptor` operator (plugins/velociraptor/src/plugin.cpp) -/

/-- How `velociraptor_operator::operator()` goes on after it has read its
configuration: it emits an error diagnostic and returns, it dereferences a
null pointer, or it sets up the gRPC channel to `api_connection_string` with
the three credentials. -/
inductive outcome where
  | error (message : String)
  | null_dereference
  | connect (api_connection_string pem_root_certs pem_private_key pem_cert_chain : String)
  deriving DecidableEq, Repr

/-- The start of `velociraptor_operator::operator()(ctrl)`, lines 181-219;
`config key` is the pointer `get_if<std::string>(&config_, key)`, with `none`
for `nullptr`. -/
def operator_start (config : String → Option String) : outcome :=
  let ca_certificate := config "ca_certificate"
  if ca_certificate = none then
    .error "no 'ca_certificate' found in config file"
  else
    let client_private_key := config "client_private_key"
    if client_private_key = none then
      .error "no 'client_private_key' found in config file"
    else
      let client_cert := config "client_cert"
      if client_private_key = none then
        .error "no 'client_cert' found in config file"
      else
        let api_connection_string := config "api_connection_string"
        if api_connection_string = none then
          .error "no 'api_connection_string' found in config file"
        else
          match api_connection_string, ca_certificate, client_private_key, client_cert with
          | some api, some ca, some key, some cert => .connect api ca key cert
          | _, _, _, _ => .null_dereference

/-- A configuration given by its entries. -/
def config_of (entries : List (String × String)) (key : String) : Option String :=
  entries.lookup key

end Velociraptor

namespace Json

/-! ### The flags of the JSON printer (json.cpp, lines 790-929) -/

/-- The struct `printer_args`; a flag that was given holds the place where it
was given. -/
structure printer_args where
  compact_output : Option Nat
  color_output : Option Nat
  monochrome_output : Option Nat
  omit_empty : Option Nat
  omit_nulls : Option Nat
  omit_empty_objects : Option Nat
  omit_empty_lists : Option Nat
  deriving DecidableEq, Repr

/-- The value `printer_args{}`. -/
def printer_args.init : printer_args := ⟨none, none, none, none, none, none, none⟩

/-- The styles that `json_printer::instantiate` chooses from. -/
inductive json_style where
  | default_style
  | no_style
  | jq_style
  deriving DecidableEq, Repr

/-- The choice of the style in `json_printer::instantiate`. -/
def instantiate_style (args_ : printer_args) : json_style :=
  if args_.monochrome_output.isSome then json_style.no_style
  else if args_.color_output.isSome then json_style.jq_style
  else json_style.default_style

/-- Modelled from the spec: the class `argument_parser` is not part of the
sources; command-line parsing is an external collaborator. A call
`parser.add(names, target)` binds the flag names, separated by commas, to a
target, and `parser.parse(p)` stores the place of every flag that is given in
the target bound to its name. A binding is the names with the function that
stores a place in the target. -/
abbrev flag_binding := List String × (printer_args → Nat → printer_args)

/-- Modelled from the spec: one flag of the command line, at the place
`place`, is stored in the target of the first binding that has its name. -/
def parse_flag (bindings : List flag_binding) (args : printer_args) (flag : String)
    (place : Nat) : printer_args :=
  match bindings.find? (fun b => b.1.contains flag) with
  | some b => b.2 args place
  | none => args

/-- Modelled from the spec: `parser.parse(p)` over the flags of the command
line, numbered by their place. -/
def parse_flags (bindings : List flag_binding) : printer_args → List String → Nat → printer_args
  | args, [], _ => args
  | args, flag :: flags, place =>
    parse_flags bindings (parse_flag bindings args flag place) flags (place + 1)

/-- The bindings that `plugin::parse_printer` makes with `parser.add`, in
order. -/
def printer_bindings : List flag_binding :=
  [(["-c", "--compact-output"], fun args place => { args with compact_output := some place }),
   (["-C", "--color-output"], fun args place => { args with color_output := some place }),
   (["-M", "--monochrome-output"], fun args place => { args with color_output := some place }),
   (["--omit-empty"], fun args place => { args with omit_empty := some place }),
   (["--omit-nulls"], fun args place => { args with omit_nulls := some place }),
   (["--omit-empty-objects"],
     fun args place => { args with omit_empty_objects := some place }),
   (["--omit-empty-lists"], fun args place => { args with omit_empty_lists := some place })]

/-- The function `plugin::parse_printer(p)`: the arguments of the printer for
the flags of the command line. -/
def parse_printer (flags : List String) : printer_args :=
  parse_flags printer_bindings printer_args.init flags 0

/-- The style of the printer that `parse_printer` and `instantiate` give for
the flags of the command line. -/
def printer_style (flags : List String) : json_style :=
  instantiate_style (parse_printer flags)

end Json

namespace Vast

/-! ## The order of offsets (libvast, offset.cpp) -/

/-- The values of `std::strong_ordering`; `equal` is the same value as
`equivalent`. -/
inductive strong_ordering where
  | less
  | equivalent
  | greater
  deriving DecidableEq, Repr

/-- The value `std::strong_ordering::equal`. -/
def strong_ordering.equal : strong_ordering := strong_ordering.equivalent

/-- The function `std::mismatch(first1, last1, first2, last2)` of the standard
library: what is left of the two ranges from the first position on where they
differ or one of them ends. -/
def mismatch : List Nat → List Nat → List Nat × List Nat
  | l :: lhs, r :: rhs => if l = r then mismatch lhs rhs else (l :: lhs, r :: rhs)
  | lhs, rhs => (lhs, rhs)

/-- The function `operator<=>(const offset& lhs, const offset& rhs)`;
`same_object` is the test `&lhs == &rhs`. -/
def compare (same_object : Bool) (lhs rhs : List Nat) : strong_ordering :=
  if same_object = true then strong_ordering.equal
  else
    match mismatch lhs rhs with
    | ([], []) => strong_ordering.equivalent
    | ([], _ :: _) => strong_ordering.less
    | (_ :: _, []) => strong_ordering.greater
    | (l :: _, r :: _) => if l < r then strong_ordering.less else strong_ordering.greater

/-- The lexicographic order on index sequences, as the specification states
it: `a` is a proper initial part of `b`, or `a` has the smaller element at the
first position where they differ. -/
def lex_less (a b : List Nat) : Prop :=
  (∃ c, c ≠ [] ∧ b = a ++ c) ∨
  (∃ (p : List Nat) (x y : Nat) (s t : List Nat), a = p ++ x :: s ∧ b = p ++ y :: t ∧ x < y)

end Vast

/-! # Theorems -/

namespace Json

theorem nonNull_cons_some (l : List Char) (ys : List Yielded) :
    nonNull (some l :: ys) = l :: nonNull ys := by
  simp [nonNull]

theorem nonNull_cons_none (ys : List Yielded) :
    nonNull (none :: ys) = nonNull ys := by
  simp [nonNull]

theorem nonNull_append (xs ys : List Yielded) :
    nonNull (xs ++ ys) = nonNull xs ++ nonNull ys := by
  simp [nonNull]

theorem splitLinesFrom_other (cur : List Char) (c : Char) (rest : List Char)
    (h1 : c ≠ '\n') (h2 : c ≠ '\r') :
    splitLinesFrom cur (c :: rest) = splitLinesFrom (cur ++ [c]) rest := by
  cases rest <;> simp [splitLinesFrom, h1, h2]

theorem splitLinesFrom_lf (cur rest : List Char) :
    splitLinesFrom cur ('\n' :: rest) = cur :: splitLinesFrom [] rest := by
  cases rest <;> simp [splitLinesFrom]

theorem splitLinesFrom_cr (cur rest : List Char) :
    splitLinesFrom cur ('\r' :: rest) = cur :: splitLinesFrom [] (dropLF true rest) := by
  cases rest with
  | nil => simp [splitLinesFrom, dropLF]
  | cons n rest1 =>
    by_cases hn : n = '\n'
    · simp [splitLinesFrom, dropLF, hn]
    · simp [splitLinesFrom, dropLF, hn]

theorem scanChunk_spec (pad : Nat) (more : List Char) :
    ∀ (k : Nat) (data buffer seg : List Char), data.length ≤ k →
      nonNull (scanChunk pad buffer seg data).1 ++
          splitLinesFrom (scanChunk pad buffer seg data).2.1
            (dropLF (scanChunk pad buffer seg data).2.2 more)
        = splitLinesFrom (buffer ++ seg) (data ++ more) := by
  intro k
  induction k with
  | zero =>
    intro data buffer seg h
    have : data = [] := List.length_eq_zero.mp (Nat.le_zero.mp h)
    subst this
    simp [scanChunk, dropLF, nonNull]
  | succ k ih =>
    intro data buffer seg h
    cases data with
    | nil => simp [scanChunk, dropLF, nonNull]
    | cons c rest =>
      have hrest : rest.length ≤ k := by simpa using h
      have hline : (if buffer = [] ∧ seg.length + (c :: rest).length ≥ seg.length + pad
          then seg else buffer ++ seg) = buffer ++ seg := by
        split
        · rename_i hb; simp [hb.1]
        · rfl
      have hbuf : (if buffer = [] ∧ seg.length + (c :: rest).length ≥ seg.length + pad
          then buffer else []) = [] := by
        split
        · rename_i hb; exact hb.1
        · rfl
      by_cases hc : c ≠ '\n' ∧ c ≠ '\r'
      · have e1 := ih rest buffer (seg ++ [c]) hrest
        rw [scanChunk, if_pos hc]
        rw [List.cons_append, splitLinesFrom_other _ _ _ hc.1 hc.2, List.append_assoc]
        exact e1
      · rw [scanChunk, if_neg hc]
        simp only [hline, hbuf]
        by_cases hr : c = '\r'
        · subst hr
          cases rest with
          | nil =>
            simp only [if_true, nonNull_cons_some, List.cons_append, List.nil_append,
              splitLinesFrom_cr]
            simp [nonNull]
          | cons n rest1 =>
            have hrest1 : rest1.length ≤ k := by
              simp at hrest; omega
            by_cases hn : n = '\n'
            · have e1 := ih rest1 [] [] hrest1
              subst hn
              simp only [if_true, nonNull_cons_some, List.cons_append, splitLinesFrom_cr]
              simpa [dropLF] using e1
            · have e1 := ih (n :: rest1) [] [] hrest
              simp only [if_true, if_neg hn, nonNull_cons_some, List.cons_append,
                splitLinesFrom_cr]
              simpa [dropLF, hn] using e1
        · have hl : c = '\n' := by
            by_contra hl
            exact hc ⟨hl, hr⟩
          have e1 := ih rest [] [] hrest
          subst hl
          simp only [if_neg hr, nonNull_cons_some, List.cons_append, splitLinesFrom_lf]
          simpa using e1

theorem toPaddedLinesFrom_spec (pad : Nat) :
    ∀ (input : List Chunk) (buffer : List Char) (eol : Bool),
      nonNull (toPaddedLinesFrom pad input buffer eol)
        = splitLinesFrom buffer (dropLF eol (concatChunks input)) := by
  intro input
  induction input with
  | nil =>
    intro buffer eol
    cases eol <;> by_cases hb : buffer = [] <;>
      simp [toPaddedLinesFrom, concatChunks, dropLF, splitLinesFrom, nonNull, hb]
  | cons chunk input ih =>
    intro buffer eol
    cases chunk with
    | none => simp [toPaddedLinesFrom, concatChunks, nonNull_cons_none, ih]
    | some bs =>
      cases bs with
      | nil => simp [toPaddedLinesFrom, concatChunks, nonNull_cons_none, ih]
      | cons b bs =>
        have hdrop : dropLF eol (concatChunks (some (b :: bs) :: input))
            = (if eol = true ∧ b = '\n' then bs else b :: bs) ++ concatChunks input := by
          cases eol <;> by_cases hb : b = '\n' <;> simp [dropLF, concatChunks, hb]
        rw [hdrop]
        simp only [toPaddedLinesFrom, nonNull_append, nonNull_cons_none, ih]
        have e := scanChunk_spec pad (concatChunks input) _
          (if eol = true ∧ b = '\n' then bs else b :: bs) buffer [] (Nat.le_refl _)
        simpa using e

/-- Sanity check of the reference splitter on a text using all three
terminators and an unterminated remainder. -/
theorem splitLines_example :
    splitLines "a\r\nb\n\nc\rd".toList
      = ["a".toList, "b".toList, [], "c".toList, "d".toList] := by
  decide

/-- C1: the non-null values yielded by `to_padded_lines` are exactly the lines
of the concatenated input, split at `\r\n`, `\n` and bare `\r` and followed by
the non-empty unterminated remainder; hence two chunkings of the same bytes
(null and empty chunks included) yield the same line sequence. -/
theorem to_padded_lines_eq_splitLines (pad : Nat) (input : List Chunk) :
    nonNull (to_padded_lines pad input) = splitLines (concatChunks input) ∧
    ∀ input2 : List Chunk, concatChunks input2 = concatChunks input →
      nonNull (to_padded_lines pad input2) = nonNull (to_padded_lines pad input) := by
  have key : ∀ inp : List Chunk,
      nonNull (to_padded_lines pad inp) = splitLines (concatChunks inp) := by
    intro inp
    simpa [to_padded_lines, splitLines, dropLF] using toPaddedLinesFrom_spec pad inp [] false
  refine ⟨key input, ?_⟩
  intro input2 h
  rw [key input2, key input, h]

/-- Witness for C1: a `\r\n` pair split over two chunks, with a null and an
empty chunk in between, against the same bytes in one chunk. -/
theorem to_padded_lines_eq_splitLines_witness :
    nonNull (to_padded_lines 64
        [some "ab\r".toList, none, some [], some "\ncd\n\re".toList])
      = nonNull (to_padded_lines 64 [some "ab\r\ncd\n\re".toList]) :=
  (to_padded_lines_eq_splitLines 64 [some "ab\r\ncd\n\re".toList]).2
    [some "ab\r".toList, none, some [], some "\ncd\n\re".toList] (by decide)

end Json

namespace Tql

/-- When the configuration has an entry for the operator name, the loop is
left at the `break` and the operators collected so far are returned. -/
theorem parseLoop_alias {α : Type} (env : Env α) (fuel : Nat)
    (repr operator_name rest defn : String) (recursed : List String)
    (ops : List (Operator α)) (hne : repr ≠ "")
    (hname : env.parse_operator_name repr = some (operator_name, rest))
    (hconfig : env.try_get_only (config_key operator_name) = .ok (some defn)) :
    parseLoop env (fuel + 1) repr recursed ops = some (.ok ops, recursed) := by
  rw [parseLoop]
  simp [hne, hname, hconfig]

/-- One iteration of the loop through a plugin. -/
theorem parseLoop_plugin {α : Type} (env : Env α) (fuel : Nat)
    (repr operator_name rest tail : String) (op : α)
    (make_operator : String → String × Except Error α)
    (recursed : List String) (ops : List (Operator α)) (hne : repr ≠ "")
    (hname : env.parse_operator_name repr = some (operator_name, rest))
    (hplugin : env.find_plugin operator_name = some make_operator)
    (hconfig : env.try_get_only (config_key operator_name) = .ok none)
    (hmake : make_operator rest = (tail, .ok op)) :
    parseLoop env (fuel + 1) repr recursed ops
      = parseLoop env fuel tail recursed (ops ++ [Operator.plugin op]) := by
  conv => lhs; rw [parseLoop]
  simp [hne, hname, hconfig, hplugin, hmake]

/-- An operator name that is neither a plugin nor an alias. -/
theorem parseLoop_unknown {α : Type} (env : Env α) (fuel : Nat)
    (repr operator_name rest : String)
    (recursed : List String) (ops : List (Operator α)) (hne : repr ≠ "")
    (hname : env.parse_operator_name repr = some (operator_name, rest))
    (hplugin : env.find_plugin operator_name = none)
    (hconfig : env.try_get_only (config_key operator_name) = .ok none) :
    parseLoop env (fuel + 1) repr recursed ops
      = some (.error ⟨ec.syntax_error,
          "failed to parse pipeline '" ++ repr ++ "': operator '" ++
            operator_name ++ "' does not exist"⟩, recursed) := by
  rw [parseLoop]
  simp [hne, hname, hconfig, hplugin]

/-- C2 (code at the failing input): with the aliases `foo = bar` and
`bar = foo`, parsing the pipeline text `foo` returns the empty pipeline and no
error, whatever the fuel: the loop is left at the `break` before the recursion
guard is reached. -/
theorem parse_query_recursive_alias (fuel : Nat) :
    parse_query recursiveAliasEnv (fuel + 1) "foo" = some (.ok []) := by
  have h := parseLoop_alias recursiveAliasEnv fuel "foo" "foo" "" "bar" [] []
    (by decide) (by decide) rfl
  simp [parse_query, parse, h]

/-- C3 (code at the failing input): with `pass` registered as an operator
plugin and also defined as the alias `tenzir.operators.pass`, parsing the
pipeline text `pass` returns the empty pipeline and no error. -/
theorem parse_query_shadowed_plugin (fuel : Nat) :
    parse_query shadowedPluginEnv (fuel + 1) "pass" = some (.ok []) ∧
    (shadowedPluginEnv.find_plugin "pass").isSome = true ∧
    shadowedPluginEnv.try_get_only (config_key "pass") = .ok (some "pass") := by
  have h := parseLoop_alias shadowedPluginEnv fuel "pass" "pass" "" "pass" [] []
    (by decide) (by decide) rfl
  refine ⟨?_, rfl, rfl⟩
  simp [parse_query, parse, h]

theorem parseLoop_pluginRun {α : Type} (env : Env α) (repr : String) (ops : List α)
    (h : PluginRun env repr ops) :
    ∀ (fuel : Nat) (recursed : List String) (acc : List (Operator α)),
      ops.length ≤ fuel →
      parseLoop env fuel repr recursed acc
        = some (.ok (acc ++ ops.map Operator.plugin), recursed) := by
  induction h with
  | done =>
    intro fuel recursed acc _
    cases fuel <;> simp [parseLoop]
  | step repr operator_name rest tail op ops make_operator hne hname hplugin hconfig hmake
      _ ih =>
    intro fuel recursed acc hfuel
    cases fuel with
    | zero => simp at hfuel
    | succ fuel =>
      rw [parseLoop_plugin env fuel repr operator_name rest tail op make_operator recursed acc
        hne hname hplugin hconfig hmake]
      rw [ih fuel recursed (acc ++ [Operator.plugin op]) (by simpa using hfuel)]
      simp

/-- C4: for a pipeline string that consists only of plugin operators (no
alias is configured for any of the names and every plugin builds its operator),
`parse` returns, for every fuel of at least one unit per operator, the pipeline
of exactly the operators built by the plugins in left-to-right order, each
plugin being handed the text after its name and parsing resuming at the tail it
returned; the set `recursed` is left as it was. The empty string yields the
empty pipeline. -/
theorem parse_plugins_only {α : Type} (env : Env α) (repr : String) (ops : List α)
    (h : PluginRun env repr ops) (fuel : Nat) (hfuel : ops.length ≤ fuel)
    (recursed : List String) :
    parse env fuel repr recursed = some (.ok (ops.map Operator.plugin), recursed) ∧
    parse env fuel "" recursed = some (.ok [], recursed) := by
  constructor
  · simpa [parse] using parseLoop_pluginRun env repr ops h fuel recursed [] hfuel
  · simpa [parse] using parseLoop_pluginRun env "" [] PluginRun.done fuel recursed []
      (Nat.zero_le _)

/-- The text `pass | head` is a run of the plugins `pass` and `head`. -/
theorem pluginRun_sample : PluginRun pluginsOnlyEnv "pass | head" ["pass", "head"] :=
  PluginRun.step "pass | head" "pass" " | head" " head" "pass" ["head"]
    (sampleMakeOperator "pass") (by decide) (by decide) rfl rfl rfl
    (PluginRun.step " head" "head" "" "" "head" []
      (sampleMakeOperator "head") (by decide) (by decide) rfl rfl rfl
      PluginRun.done)

/-- Witness for C4: the pipeline text `pass | head`. -/
theorem parse_plugins_only_witness :
    parse pluginsOnlyEnv 2 "pass | head" []
        = some (.ok [Operator.plugin "pass", Operator.plugin "head"], []) ∧
    parse pluginsOnlyEnv 2 "" [] = some (.ok [], []) :=
  parse_plugins_only pluginsOnlyEnv "pass | head" ["pass", "head"] pluginRun_sample 2
    (by decide) []

/-- C5 (counterexample): the operator name `nosuch` is neither a plugin nor an
alias, and `parse` fails with an error whose kind is `syntax_error`, not
`lookup_error`. -/
theorem parse_unknown_operator_not_lookup_error :
    pluginsOnlyEnv.find_plugin "nosuch" = none ∧
    pluginsOnlyEnv.try_get_only (config_key "nosuch") = .ok none ∧
    ¬ ∃ (message : String) (recursed : List String),
        parse pluginsOnlyEnv 1 "nosuch" []
          = some (.error ⟨ec.lookup_error, message⟩, recursed) := by
  refine ⟨rfl, rfl, ?_⟩
  have h := parseLoop_unknown pluginsOnlyEnv 0 "nosuch" "nosuch" "" [] []
    (by decide) (by decide) rfl rfl
  rintro ⟨message, recursed, hm⟩
  rw [parse, h] at hm
  simp at hm

/-- C5 (amended): for every non-empty pipeline string whose next operator name
is neither a registered operator plugin nor a configured alias, `parse` fails
with an error of kind `syntax_error` that names the operator. -/
theorem parse_unknown_operator {α : Type} (env : Env α) (fuel : Nat)
    (repr operator_name rest : String) (recursed : List String) (hne : repr ≠ "")
    (hname : env.parse_operator_name repr = some (operator_name, rest))
    (hplugin : env.find_plugin operator_name = none)
    (hconfig : env.try_get_only (config_key operator_name) = .ok none) :
    ∃ message : String,
      parse env (fuel + 1) repr recursed
        = some (.error ⟨ec.syntax_error, message⟩, recursed) ∧
      message = "failed to parse pipeline '" ++ repr ++ "': operator '" ++
            operator_name ++ "' does not exist" := by
  refine ⟨_, ?_, rfl⟩
  rw [parse, parseLoop_unknown env fuel repr operator_name rest recursed [] hne hname
    hplugin hconfig]

/-- Witness for C5 (amended): the unknown operator `nosuch`. -/
theorem parse_unknown_operator_witness :
    ∃ message : String,
      parse pluginsOnlyEnv 1 "nosuch" []
        = some (.error ⟨ec.syntax_error, message⟩, []) ∧
      message = "failed to parse pipeline '" ++ "nosuch" ++ "': operator '" ++
            "nosuch" ++ "' does not exist" :=
  parse_unknown_operator pluginsOnlyEnv 0 "nosuch" "nosuch" "" []
    (by decide) (by decide) rfl rfl

end Tql

namespace Exec

theorem accepts_eq_true_iff (pipe : Pipeline) (t : operator_type) :
    accepts pipe t = true ↔ ∃ out, infer_type pipe t = .ok out := by
  unfold accepts
  cases h : infer_type pipe t <;> simp

/-- What `add_implicit_sink` returns. -/
theorem add_implicit_sink_eq_ok_iff (ipo : String → Except Error Operator)
    (pipe result : Pipeline) :
    add_implicit_sink ipo pipe = .ok result ↔
      ∃ (out : operator_type) (post : List Operator),
        infer_type pipe operator_type.void = .ok out ∧ ImplicitSink ipo out post ∧
        result = pipe ++ post ∧ is_closed result = true := by
  constructor
  · intro h
    unfold add_implicit_sink at h
    cases hout : infer_type pipe operator_type.void with
    | error e => simp [hout] at h
    | ok out =>
      simp only [hout] at h
      cases out with
      | void =>
        simp only at h
        cases hc : is_closed pipe with
        | false => simp [hc] at h
        | true =>
          simp only [hc, Bool.true_eq_false, if_false, Except.ok.injEq] at h
          subst h
          exact ⟨_, [], rfl, ImplicitSink.void, by simp, hc⟩
      | bytes =>
        simp only at h
        cases hop : ipo "save file -" with
        | error e => simp [hop] at h
        | ok op =>
          simp only [hop] at h
          cases hc : is_closed (pipe ++ [op]) with
          | false => simp [hc] at h
          | true =>
            simp only [hc, Bool.true_eq_false, if_false, Except.ok.injEq] at h
            subst h
            exact ⟨_, [op], rfl, ImplicitSink.bytes op hop, rfl, hc⟩
      | events =>
        simp only at h
        cases hop : ipo "to stdout write json" with
        | error e => simp [hop] at h
        | ok op =>
          simp only [hop] at h
          cases hc : is_closed (pipe ++ [op]) with
          | false => simp [hc] at h
          | true =>
            simp only [hc, Bool.true_eq_false, if_false, Except.ok.injEq] at h
            subst h
            exact ⟨_, [op], rfl, ImplicitSink.events op hop, rfl, hc⟩
  · rintro ⟨out, post, hout, hsink, rfl, hc⟩
    unfold add_implicit_sink
    cases hsink with
    | void =>
      simp only [List.append_nil] at hc
      simp [hout, hc]
    | bytes op hop => simp [hout, hop, hc]
    | events op hop => simp [hout, hop, hc]

/-- C6: for a pipeline that accepts one of `void`, bytes and events,
`add_implicit_source_and_sink` returns a pipeline `result` exactly when
`result` is `pre ++ pipe ++ post`, where `pre` is the implicit source (nothing
if `pipe` accepts `void`, else `load file -` if it accepts bytes, else
`from stdin read json` if it accepts events), `post` is the implicit sink for
the output type of `pre ++ pipe` on `void` (nothing for `void`, `save file -`
for bytes, `to stdout write json` for events), and `result` is closed. In
particular every pipeline it returns for such an input is closed. -/
theorem add_implicit_source_and_sink_spec (ipo : String → Except Error Operator)
    (pipe result : Pipeline)
    (hwt : accepts pipe operator_type.void = true ∨ accepts pipe operator_type.bytes = true ∨
      accepts pipe operator_type.events = true) :
    (add_implicit_source_and_sink ipo pipe = .ok result ↔
      ∃ (pre : List Operator) (out : operator_type) (post : List Operator),
        ImplicitSource ipo pipe pre ∧
        infer_type (pre ++ pipe) operator_type.void = .ok out ∧
        ImplicitSink ipo out post ∧
        result = pre ++ pipe ++ post ∧ is_closed result = true) ∧
    (add_implicit_source_and_sink ipo pipe = .ok result → is_closed result = true) := by
  have main : add_implicit_source_and_sink ipo pipe = .ok result ↔
      ∃ (pre : List Operator) (out : operator_type) (post : List Operator),
        ImplicitSource ipo pipe pre ∧
        infer_type (pre ++ pipe) operator_type.void = .ok out ∧
        ImplicitSink ipo out post ∧
        result = pre ++ pipe ++ post ∧ is_closed result = true := by
    unfold add_implicit_source_and_sink
    cases hv : accepts pipe operator_type.void with
    | true =>
      simp only [if_true]
      rw [add_implicit_sink_eq_ok_iff]
      constructor
      · rintro ⟨out, post, hout, hsink, hres, hc⟩
        exact ⟨[], out, post, ImplicitSource.void hv, by simpa using hout, hsink,
          by simpa using hres, hc⟩
      · rintro ⟨pre, out, post, hsrc, hout, hsink, hres, hc⟩
        cases hsrc with
        | void _ => exact ⟨out, post, by simpa using hout, hsink, by simpa using hres, hc⟩
        | bytes op h0 _ _ => simp [hv] at h0
        | events op h0 _ _ _ => simp [hv] at h0
    | false =>
      simp only [Bool.false_eq_true, if_false]
      cases hb : accepts pipe operator_type.bytes with
      | true =>
        simp only [if_true]
        constructor
        · intro h
          cases hop : ipo "load file -" with
          | error e => simp [hop] at h
          | ok op =>
            simp only [hop] at h
            obtain ⟨out, post, hout, hsink, hres, hc⟩ :=
              (add_implicit_sink_eq_ok_iff ipo (op :: pipe) result).mp h
            exact ⟨[op], out, post, ImplicitSource.bytes op hv hb hop, by simpa using hout,
              hsink, by simpa using hres, hc⟩
        · rintro ⟨pre, out, post, hsrc, hout, hsink, hres, hc⟩
          cases hsrc with
          | void h => simp [hv] at h
          | bytes op _ _ hop =>
            simp only [hop]
            exact (add_implicit_sink_eq_ok_iff ipo (op :: pipe) result).mpr
              ⟨out, post, by simpa using hout, hsink, by simpa using hres, hc⟩
          | events op _ h1 _ _ => simp [hb] at h1
      | false =>
        simp only [Bool.false_eq_true, if_false]
        have he : accepts pipe operator_type.events = true := by
          rcases hwt with h | h | h
          · simp [hv] at h
          · simp [hb] at h
          · exact h
        simp only [he, if_true]
        constructor
        · intro h
          cases hop : ipo "from stdin read json" with
          | error e => simp [hop] at h
          | ok op =>
            simp only [hop] at h
            obtain ⟨out, post, hout, hsink, hres, hc⟩ :=
              (add_implicit_sink_eq_ok_iff ipo (op :: pipe) result).mp h
            exact ⟨[op], out, post, ImplicitSource.events op hv hb he hop,
              by simpa using hout, hsink, by simpa using hres, hc⟩
        · rintro ⟨pre, out, post, hsrc, hout, hsink, hres, hc⟩
          cases hsrc with
          | void h => simp [hv] at h
          | bytes op _ h _ => simp [hb] at h
          | events op _ _ _ hop =>
            simp only [hop]
            exact (add_implicit_sink_eq_ok_iff ipo (op :: pipe) result).mpr
              ⟨out, post, by simpa using hout, hsink, by simpa using hres, hc⟩
  refine ⟨main, ?_⟩
  intro h
  obtain ⟨_, _, _, _, _, _, _, hc⟩ := main.mp h
  exact hc

/-- Witness for C6: the pipeline `read json` accepts bytes and yields events;
it is completed to `load file - | read json | to stdout write json`. -/
theorem add_implicit_source_and_sink_spec_witness :
    add_implicit_source_and_sink sampleParseAsOperator [readJson]
      = .ok ([loadFile] ++ [readJson] ++ [toStdout]) :=
  (add_implicit_source_and_sink_spec sampleParseAsOperator [readJson]
      ([loadFile] ++ [readJson] ++ [toStdout]) (Or.inr (Or.inl rfl))).1.mpr
    ⟨[loadFile], operator_type.events, [toStdout],
      ImplicitSource.bytes loadFile rfl rfl rfl, rfl, ImplicitSink.events toStdout rfl,
      rfl, rfl⟩

/-- C7 (counterexample): the pipeline `save file - | read json` accepts none
of `void`, bytes and events, and `add_implicit_source_and_sink` returns it
unchanged instead of an error. -/
theorem add_implicit_source_and_sink_ill_typed_returns :
    accepts [saveFile, readJson] operator_type.void = false ∧
    accepts [saveFile, readJson] operator_type.bytes = false ∧
    accepts [saveFile, readJson] operator_type.events = false ∧
    add_implicit_source_and_sink sampleParseAsOperator [saveFile, readJson]
      = .ok [saveFile, readJson] ∧
    ¬ ∃ e : Error,
      add_implicit_source_and_sink sampleParseAsOperator [saveFile, readJson] = .error e := by
  refine ⟨rfl, rfl, rfl, rfl, ?_⟩
  rintro ⟨e, he⟩
  have h : add_implicit_source_and_sink sampleParseAsOperator [saveFile, readJson]
      = .ok [saveFile, readJson] := rfl
  rw [h] at he
  cases he

/-- C7 (amended): for every pipeline that accepts none of `void`, bytes and
events, `add_implicit_source_and_sink` adds neither source nor sink and returns
the pipeline unchanged, without an error. -/
theorem add_implicit_source_and_sink_ill_typed (ipo : String → Except Error Operator)
    (pipe : Pipeline)
    (hv : accepts pipe operator_type.void = false)
    (hb : accepts pipe operator_type.bytes = false)
    (he : accepts pipe operator_type.events = false) :
    add_implicit_source_and_sink ipo pipe = .ok pipe := by
  simp [add_implicit_source_and_sink, hv, hb, he]

/-- Witness for C7 (amended): the pipeline `save file - | read json`. -/
theorem add_implicit_source_and_sink_ill_typed_witness :
    add_implicit_source_and_sink sampleParseAsOperator [saveFile, readJson]
      = .ok [saveFile, readJson] :=
  add_implicit_source_and_sink_ill_typed sampleParseAsOperator [saveFile, readJson]
    rfl rfl rfl

end Exec

namespace Json

theorem get_schema_name_absent (sel : selector) (members : List (String × JValue))
    (h : find_field members sel.selector_field = .error simdjson_error.NO_SUCH_FIELD) :
    get_schema_name members sel = .ok "" := by
  simp [get_schema_name, h]

theorem find_schema_none (schemas : List String) (name : String) (h : name ∉ schemas) :
    schemas.find? (fun schema => schema = name) = none := by
  rw [List.find?_eq_none]
  intro x hx
  simp only [decide_eq_true_eq]
  rintro rfl
  exact h hx

/-- Without type inference, a valid line that lacks the selector field is
skipped with one warning and the state is left as it was. -/
theorem ndjson_parse_absent_no_infer (p : parser_base) (sel : selector) (line : Line)
    (state : parser_state) (hsel : p.selector_ = some sel) (hschemas : "" ∉ p.schemas)
    (hinfer : p.infer_types = false) (hline : LacksSelector sel line) :
    ndjson_parse p line state
      = ⟨[], [⟨ec.parse_error, "json parser failed to find schema for '" ++ "" ++
          "' and skips the JSON object '" ++ line.text ++ "'"⟩], state⟩ := by
  obtain ⟨hvalid, habsent⟩ := hline
  simp [ndjson_parse, hvalid, handle_selector, hsel, handle_known_schema,
    get_schema_name_absent sel line.members habsent, handle_schema_name_found,
    find_schema_none p.schemas "" hschemas, handle_no_matching_schema_found, hinfer]

/-- With type inference, the selector handling of a line that lacks the
selector field emits no warning, does not skip the line, and leaves
`last_used_builder` pointing to the unknown-schema builder under the empty
schema name. -/
theorem handle_selector_absent_infer (p : parser_base) (sel : selector) (line : Line)
    (state : parser_state) (hsel : p.selector_ = some sel) (hschemas : "" ∉ p.schemas)
    (hinfer : p.infer_types = true) (hline : LacksSelector sel line)
    (hstate : NameTracksBuilder state) :
    (handle_selector p line state).action ≠ parser_action.skip ∧
    ((handle_selector p line state).action = parser_action.yield →
      ∃ slice, (handle_selector p line state).slice = some slice) ∧
    (handle_selector p line state).warnings = [] ∧
    (handle_selector p line state).state.last_used_builder = some BuilderRef.unknown ∧
    (handle_selector p line state).state.last_used_schema_name = "" ∧
    (handle_selector p line state).state.unknown_schema_builder.schema = none := by
  obtain ⟨hvalid, habsent⟩ := hline
  obtain ⟨hunk, hname⟩ := hstate
  by_cases hn : state.last_used_schema_name = ""
  · have hlast := hname hn
    simp [handle_selector, hsel, handle_known_schema,
      get_schema_name_absent sel line.members habsent, handle_schema_name_found,
      find_schema_none p.schemas "" hschemas, handle_no_matching_schema_found, hinfer, hn,
      hlast, hunk]
  · simp only [handle_selector, hsel, handle_known_schema,
      get_schema_name_absent sel line.members habsent, handle_schema_name_found,
      find_schema_none p.schemas "" hschemas, handle_no_matching_schema_found, hinfer, hn,
      Bool.true_eq_false, if_false]
    cases hl : state.last_used_builder with
    | none => simp [Builder.empty]
    | some last =>
      by_cases hrows : (state.finish last state.last_used_schema_name).1.rows.length > 0
      · simp [hrows, Builder.empty]
      · simp [hrows, Builder.empty]

/-- Pushing a row and checking the row limit, for a state whose
`last_used_builder` is the unknown-schema builder under the empty name: the
row ends up last in that builder, or last in the slice that `handle_max_rows`
takes from it. -/
theorem push_row_unknown (p : parser_base) (state : parser_state) (row : Row)
    (hlast : state.last_used_builder = some BuilderRef.unknown)
    (hname : state.last_used_schema_name = "")
    (hunk : state.unknown_schema_builder.schema = none) :
    (handle_max_rows p (push_row state row false)).2.last_used_builder
      = some BuilderRef.unknown ∧
    (handle_max_rows p (push_row state row false)).2.last_used_schema_name = "" ∧
    (handle_max_rows p (push_row state row false)).2.unknown_schema_builder.schema = none ∧
    (((handle_max_rows p (push_row state row false)).1 = none ∧
        (handle_max_rows p (push_row state row false)).2.unknown_schema_builder.rows
          = state.unknown_schema_builder.rows ++ [row]) ∨
      (handle_max_rows p (push_row state row false)).1
          = some ⟨"", state.unknown_schema_builder.rows ++ [row]⟩) := by
  by_cases hfull : (state.unknown_schema_builder.rows ++ [row]).length < p.max_table_slice_rows
  · simp [handle_max_rows, push_row, hlast, hname, hunk, parser_state.assign,
      parser_state.deref, hfull]
    simp at hfull
    simp [hfull]
  · cases hs : p.selector_ with
    | none =>
      simp [handle_max_rows, push_row, hlast, hname, hunk, parser_state.assign,
        parser_state.deref, parser_state.finish, Builder.finish, hs, Builder.empty]
      simp at hfull
      simp [Nat.not_lt.mpr hfull]
    | some sel =>
      simp [handle_max_rows, push_row, hlast, hname, hunk, parser_state.assign,
        parser_state.deref, parser_state.finish, Builder.finish, hs]
      simp at hfull
      simp [Nat.not_lt.mpr hfull, hunk]

/-- With type inference, a valid line that lacks the selector field and
holds a single object is parsed into the unknown-schema builder, and the only
warnings are those of `doc_parser` about the values of the object. -/
theorem ndjson_parse_absent_infer (p : parser_base) (sel : selector) (line : Line)
    (state : parser_state) (hsel : p.selector_ = some sel) (hschemas : "" ∉ p.schemas)
    (hinfer : p.infer_types = true) (hline : LacksSelector sel line)
    (hstate : NameTracksBuilder state) (hmore : line.more = false) :
    (ndjson_parse p line state).warnings = line.doc_warnings ∧
    (ndjson_parse p line state).state.last_used_builder = some BuilderRef.unknown ∧
    NameTracksBuilder (ndjson_parse p line state).state ∧
    ((∃ before : List Row,
        (ndjson_parse p line state).state.unknown_schema_builder.rows
          = before ++ [line.members]) ∨
      (∃ before : List Row,
        (ndjson_parse p line state).slices.getLast? = some ⟨"", before ++ [line.members]⟩)) := by
  obtain ⟨hact, _, hwarn, hlast, hname, hunk⟩ :=
    handle_selector_absent_infer p sel line state hsel hschemas hinfer hline hstate
  obtain ⟨hvalid, _⟩ := hline
  obtain ⟨m1, m2, m3, m4⟩ :=
    push_row_unknown p (handle_selector p line state).state line.members hlast hname hunk
  have hparse : ndjson_parse p line state
      = ⟨(match (handle_selector p line state).action,
            (handle_selector p line state).slice with
          | parser_action.yield, some slice => [slice]
          | _, _ => []) ++
          (handle_max_rows p
            (push_row (handle_selector p line state).state line.members false)).1.toList,
        line.doc_warnings,
        (handle_max_rows p
            (push_row (handle_selector p line state).state line.members false)).2⟩ := by
    unfold ndjson_parse
    simp only [hvalid, hmore]
    cases ha : (handle_selector p line state).action with
    | skip => exact absurd ha hact
    | yield => simp [hwarn]
    | parse => simp [hwarn]
  rw [hparse]
  refine ⟨rfl, m1, ⟨m3, fun _ => m1⟩, ?_⟩
  rcases m4 with ⟨_, hrows⟩ | hslice
  · exact Or.inl ⟨_, hrows⟩
  · refine Or.inr ⟨(handle_selector p line state).state.unknown_schema_builder.rows, ?_⟩
    simp [hslice]

theorem handle_empty_chunk_initial (args : parser_args) (hschema : args.schema = none)
    (has_selector : Bool) :
    handle_empty_chunk (initial_state args) has_selector = (⟨"", []⟩, initial_state args) := by
  cases has_selector <;>
    simp [handle_empty_chunk, initial_state, hschema, parser_state.init, parser_state.finish,
      parser_state.deref, parser_state.assign, Builder.finish, Builder.empty]

theorem unflatten_if_needed_rows_nil (args : parser_args) (slice : Slice)
    (h : slice.rows = []) : (unflatten_if_needed args slice).rows = [] := by
  unfold unflatten_if_needed unflatten
  split <;> simp [h]

theorem rows_nil_of_mem_ite {c : Prop} [Decidable c] {u slice : Slice} (hu : u.rows = [])
    (h : slice ∈ (if c then [u] else [])) : slice.rows = [] := by
  split at h
  · rw [List.mem_singleton.mp h]; exact hu
  · simp at h

theorem after_slices_rows_nil (out : Output) (ys : List Slice) (ws : List Error)
    (hys : ∀ slice ∈ ys, slice.rows = []) (hout : ∀ slice ∈ out.slices, slice.rows = []) :
    ∀ slice ∈ (out.after ys ws).slices, slice.rows = [] := by
  intro slice h
  rcases List.mem_append.mp h with h | h
  · exact hys slice h
  · exact hout slice h

theorem after_warnings_length (out : Output) (ys : List Slice) (ws : List Error) :
    (out.after ys ws).warnings.length = ws.length + out.warnings.length := by
  simp [Output.after]

theorem countLines_cons_none (now : Nat) (input : List (Nat × Option Line)) :
    countLines ((now, none) :: input) = countLines input := by
  simp [countLines]

theorem countLines_cons_some (now : Nat) (line : Line) (input : List (Nat × Option Line)) :
    countLines ((now, some line) :: input)
      = (if line.text.length = 0 then 0 else 1) + countLines input := by
  by_cases h : line.text.length = 0
  · simp [countLines, h]
  · simp [countLines, h]
    omega

/-- Without type inference, an input in which every line lacks the selector
field leaves the parser in its initial state: every yielded slice is empty and
there is one warning per line. -/
theorem make_parser_loop_absent_no_infer (args : parser_args) (p : parser_base)
    (sel : selector) (hsel : p.selector_ = some sel) (hschemas : "" ∉ p.schemas)
    (hinfer : p.infer_types = false) (hschema : args.schema = none) :
    ∀ (input : List (Nat × Option Line)) (last_finish : Nat),
      (∀ x ∈ input, ∀ line, x.2 = some line → LacksSelector sel line) →
      (∀ slice ∈ (make_parser_loop args (fun line => line.text.length) (ndjson_parse p)
          input (initial_state args) last_finish).slices, slice.rows = []) ∧
      (make_parser_loop args (fun line => line.text.length) (ndjson_parse p)
          input (initial_state args) last_finish).warnings.length = countLines input := by
  intro input
  induction input with
  | nil =>
    intro last_finish _
    simp [make_parser_loop, finalize, initial_state, hschema, parser_state.init,
      parser_state.finish, parser_state.deref, Builder.finish, Builder.empty, countLines]
  | cons x input ih =>
    intro last_finish hall
    obtain ⟨now, chnk⟩ := x
    have hrest : ∀ x ∈ input, ∀ line, x.2 = some line → LacksSelector sel line :=
      fun x hx => hall x (List.mem_cons_of_mem _ hx)
    have hu : (unflatten_if_needed args ⟨"", []⟩).rows = [] :=
      unflatten_if_needed_rows_nil args _ rfl
    have hab : (initial_state args).abort_requested = false := by
      simp [initial_state, hschema, parser_state.init]
    cases chnk with
    | none =>
      simp only [make_parser_loop, handle_empty_chunk_initial args hschema, ite_self]
      refine ⟨after_slices_rows_nil _ _ _ ?_ (ih _ hrest).1, ?_⟩
      · intro slice hslice
        rcases List.mem_append.mp hslice with h | h
        · exact rows_nil_of_mem_ite hu h
        · exact rows_nil_of_mem_ite hu h
      · rw [after_warnings_length, (ih _ hrest).2, countLines_cons_none]
        simp
    | some line =>
      have hl := hall (now, some line) (List.mem_cons_self _ _) line rfl
      by_cases hsize : line.text.length = 0
      · simp only [make_parser_loop, handle_empty_chunk_initial args hschema, ite_self, hsize,
          if_true]
        refine ⟨after_slices_rows_nil _ _ _ ?_ (ih _ hrest).1, ?_⟩
        · intro slice hslice
          exact rows_nil_of_mem_ite hu hslice
        · rw [after_warnings_length, (ih _ hrest).2, countLines_cons_some, if_pos hsize]
          simp
      · simp only [make_parser_loop, handle_empty_chunk_initial args hschema, ite_self, hsize,
          if_false, ndjson_parse_absent_no_infer p sel line (initial_state args) hsel hschemas
            hinfer hl, hab, Bool.false_eq_true]
        refine ⟨after_slices_rows_nil _ _ _ ?_ (ih _ hrest).1, ?_⟩
        · intro slice hslice
          simp only [List.map_nil, List.append_nil] at hslice
          exact rows_nil_of_mem_ite hu hslice
        · rw [after_warnings_length, (ih _ hrest).2, countLines_cons_some, if_neg hsize]
          simp

/-! ### The relation `NameTracksBuilder` holds in every state of a parser with
a selector -/

theorem nameTracksBuilder_initial (args : parser_args) (hschema : args.schema = none) :
    NameTracksBuilder (initial_state args) := by
  simp [NameTracksBuilder, initial_state, hschema, parser_state.init, Builder.empty]

theorem finish_keeps (state : parser_state) (ref : BuilderRef) (name : String) :
    (state.finish ref name).2.last_used_builder = state.last_used_builder ∧
    (state.finish ref name).2.last_used_schema_name = state.last_used_schema_name ∧
    (state.finish ref name).2.unknown_schema_builder.schema
      = state.unknown_schema_builder.schema := by
  cases ref <;>
    simp [parser_state.finish, parser_state.assign, parser_state.deref, Builder.finish]

theorem handle_builder_change_keeps (ref : BuilderRef) (state : parser_state)
    (hunk : state.unknown_schema_builder.schema = none) :
    (handle_builder_change ref state).2.unknown_schema_builder.schema = none := by
  unfold handle_builder_change
  cases hl : state.last_used_builder with
  | none => simpa using hunk
  | some last =>
    have hf := (finish_keeps state last state.last_used_schema_name).2.2
    simp only
    split
    · split
      · split
        · simp [Builder.empty]
        · simp [hf, hunk]
      · simp [hf, hunk]
    · simpa using hunk

theorem handle_empty_chunk_keeps (state : parser_state) (has_selector : Bool)
    (hstate : NameTracksBuilder state) :
    NameTracksBuilder (handle_empty_chunk state has_selector).2 := by
  obtain ⟨hunk, hname⟩ := hstate
  unfold handle_empty_chunk
  cases has_selector with
  | false => exact ⟨by simp [Builder.empty], by simpa using hname⟩
  | true =>
    cases hl : state.last_used_builder with
    | none => exact ⟨by simpa using hunk, by simpa [hl] using hname⟩
    | some last =>
      obtain ⟨h1, h2, h3⟩ := finish_keeps state last state.last_used_schema_name
      refine ⟨by simpa [h3] using hunk, ?_⟩
      simp only [if_true, h1, h2]
      simpa [hl] using hname

theorem handle_known_schema_keeps (p : parser_base) (sel : selector) (line : Line)
    (state : parser_state) (hschemas : "" ∉ p.schemas) (hstate : NameTracksBuilder state) :
    NameTracksBuilder (handle_known_schema p sel line state).state := by
  obtain ⟨hunk, hname⟩ := hstate
  unfold handle_known_schema
  cases hg : get_schema_name line.members sel with
  | error e =>
    simp only
    split
    · exact ⟨hunk, hname⟩
    · have hk := handle_builder_change_keeps BuilderRef.unknown state hunk
      split
      · exact ⟨by simpa using hk, fun _ => rfl⟩
      · exact ⟨by simpa using hk, fun _ => rfl⟩
  | ok schema_name =>
    have key : NameTracksBuilder
        (handle_schema_name_found p schema_name line.text state).2 := by
      unfold handle_schema_name_found
      cases hf : p.schemas.find? (fun schema => schema = schema_name) with
      | none =>
        simp only
        unfold handle_no_matching_schema_found
        split
        · exact ⟨hunk, hname⟩
        · split
          · exact ⟨hunk, hname⟩
          · exact ⟨by simp [Builder.empty], fun _ => rfl⟩
      | some schema =>
        have hmem : schema ∈ p.schemas := List.mem_of_find?_eq_some hf
        have hne : schema ≠ "" := fun h => hschemas (h ▸ hmem)
        simp only [handle_schema_found]
        refine ⟨?_, fun h => absurd h hne⟩
        apply handle_builder_change_keeps
        split
        · exact hunk
        · exact hunk
    simp only
    split
    · next h => rw [h] at key; exact key
    · next h => rw [h] at key; exact key
    · next h => rw [h] at key; exact key

theorem push_row_keeps (state : parser_state) (row : Row) (cancel : Bool)
    (hstate : NameTracksBuilder state) : NameTracksBuilder (push_row state row cancel) := by
  obtain ⟨hunk, hname⟩ := hstate
  unfold push_row
  cases hl : state.last_used_builder with
  | none => exact ⟨hunk, hname⟩
  | some last =>
    cases cancel with
    | true => exact ⟨hunk, hname⟩
    | false =>
      cases last with
      | unknown =>
        exact ⟨by simpa [parser_state.assign, parser_state.deref] using hunk,
          fun _ => by simp [parser_state.assign, hl]⟩
      | per_schema name =>
        exact ⟨by simpa [parser_state.assign] using hunk,
          fun h => by simpa [parser_state.assign, hl] using hname h⟩

theorem handle_max_rows_keeps (p : parser_base) (state : parser_state)
    (hstate : NameTracksBuilder state) : NameTracksBuilder (handle_max_rows p state).2 := by
  obtain ⟨hunk, hname⟩ := hstate
  unfold handle_max_rows
  cases hl : state.last_used_builder with
  | none => exact ⟨hunk, by simpa [hl] using hname⟩
  | some last =>
    obtain ⟨h1, h2, h3⟩ := finish_keeps state last state.last_used_schema_name
    simp only
    split
    · exact ⟨hunk, by simpa [hl] using hname⟩
    · split
      · exact ⟨by simp [Builder.empty], by simpa [h1, h2, hl] using hname⟩
      · exact ⟨by simpa [h3] using hunk, by simpa [h1, h2, hl] using hname⟩

/-- Every call of `ndjson_parser::parse` of a parser with a selector keeps
the relation. -/
theorem ndjson_parse_keeps (p : parser_base) (sel : selector) (line : Line)
    (state : parser_state) (hsel : p.selector_ = some sel) (hschemas : "" ∉ p.schemas)
    (hstate : NameTracksBuilder state) :
    NameTracksBuilder (ndjson_parse p line state).state := by
  have hk := handle_known_schema_keeps p sel line state hschemas hstate
  unfold ndjson_parse
  cases line.value_error with
  | some err => exact hstate
  | none =>
    simp only [handle_selector, hsel]
    split
    · exact hk
    · exact handle_max_rows_keeps p _ (push_row_keeps _ _ _ hk)

/-- The selector scenario of the specification: the lines
`{"event_type":"flow",...}` and `{"event_type":"alert",...}` read with the
selector `event_type:suricata` give the batches `suricata.flow` and
`suricata.alert`, in that order, with one row each. -/
theorem read_suricata_example :
    (read_ndjson suricataArgs suricataParser 0
        [(0, some flowLine), (0, none), (0, some alertLine), (0, none)]).slices
      = [⟨"suricata.flow", [flowLine.members]⟩, ⟨"suricata.alert", [alertLine.members]⟩] := by
  rfl

/-- C8 (code at the failing input): for the lines `{"event_type":"flow",...}`,
`{"event_type":1}` and `{"event_type":"alert",...}` read with the selector
`event_type:suricata` and type inference allowed, the row whose selector field
holds `flow` is emitted, together with the row of the second line, in a batch
whose schema name is empty instead of `suricata.flow`; no batch is named
`suricata.flow`. -/
theorem read_suricata_non_string_selector :
    (read_ndjson suricataArgs suricataParser 0
        [(0, some flowLine), (0, none), (0, some numberLine), (0, none),
          (0, some alertLine), (0, none)]).slices
      = [⟨"", [flowLine.members, numberLine.members]⟩,
          ⟨"suricata.alert", [alertLine.members]⟩] ∧
    get_schema_name flowLine.members suricataSelector = .ok "suricata.flow" := by
  constructor <;> rfl

/-- C9: let a selector be configured, and let no schema known to the parser
have the empty name. For a line whose object lacks the selector field:
with type inference, the line is not skipped, the selector handling emits no
warning (the warnings are those of `doc_parser` about the values), and the
row is added to the unknown-schema builder, where it is the last row of that
builder or of the slice taken from it when the row limit is reached; without
type inference, no slice is yielded, exactly one warning is emitted and the
state, hence every builder, is unchanged. Consequently, without type
inference an input in which every line lacks the selector field yields only
slices without rows and one warning per line. -/
theorem selector_field_absent (args : parser_args) (p : parser_base) (sel : selector)
    (hsel : p.selector_ = some sel) (hschemas : "" ∉ p.schemas)
    (hschema : args.schema = none) :
    (p.infer_types = true → ∀ (line : Line) (state : parser_state),
      LacksSelector sel line → line.more = false → NameTracksBuilder state →
        (ndjson_parse p line state).warnings = line.doc_warnings ∧
        (ndjson_parse p line state).state.last_used_builder = some BuilderRef.unknown ∧
        NameTracksBuilder (ndjson_parse p line state).state ∧
        ((∃ before : List Row,
            (ndjson_parse p line state).state.unknown_schema_builder.rows
              = before ++ [line.members]) ∨
          (∃ before : List Row,
            (ndjson_parse p line state).slices.getLast?
              = some ⟨"", before ++ [line.members]⟩))) ∧
    (p.infer_types = false → ∀ (line : Line) (state : parser_state),
      LacksSelector sel line →
        (ndjson_parse p line state).slices = [] ∧
        (ndjson_parse p line state).warnings.length = 1 ∧
        (ndjson_parse p line state).state = state) ∧
    (p.infer_types = false → ∀ (start : Nat) (input : List (Nat × Option Line)),
      (∀ x ∈ input, ∀ line, x.2 = some line → LacksSelector sel line) →
        (∀ slice ∈ (read_ndjson args p start input).slices, slice.rows = []) ∧
        (read_ndjson args p start input).warnings.length = countLines input) := by
  refine ⟨?_, ?_, ?_⟩
  · intro hinfer line state hline hmore hstate
    exact ndjson_parse_absent_infer p sel line state hsel hschemas hinfer hline hstate hmore
  · intro hinfer line state hline
    rw [ndjson_parse_absent_no_infer p sel line state hsel hschemas hinfer hline]
    exact ⟨rfl, rfl, rfl⟩
  · intro hinfer start input hall
    exact make_parser_loop_absent_no_infer args p sel hsel hschemas hinfer hschema input
      start hall

/-- Witness for C9: two lines without the field `event_type`, read with the
selector `event_type:suricata` and without type inference. -/
theorem selector_field_absent_witness :
    (∀ slice ∈ (read_ndjson suricataArgs suricataParserNoInfer 0
        [(0, some plainLine), (0, none), (5, some plainLine)]).slices, slice.rows = []) ∧
    (read_ndjson suricataArgs suricataParserNoInfer 0
        [(0, some plainLine), (0, none), (5, some plainLine)]).warnings.length
      = countLines [(0, some plainLine), (0, none), (5, some plainLine)] :=
  (selector_field_absent suricataArgs suricataParserNoInfer suricataSelector rfl
      (List.not_mem_nil _) rfl).2.2 rfl 0
    [(0, some plainLine), (0, none), (5, some plainLine)]
    (by
      intro x hx line hline
      simp only [List.mem_cons, List.mem_singleton, List.not_mem_nil, or_false] at hx
      rcases hx with rfl | rfl | rfl
      · cases hline; exact ⟨rfl, rfl⟩
      · cases hline
      · cases hline; exact ⟨rfl, rfl⟩)

end Json

namespace Json

theorem split_length (sep : Char) (x : List Char) :
    (split sep x).length = x.count sep + 1 := by
  induction x with
  | nil => simp [split]
  | cons c cs ih =>
    by_cases hc : c = sep
    · subst hc
      simp [split, ih]
    · have hne : (c == sep) = false := by simpa using hc
      cases hs : split sep cs with
      | nil => simp [hs] at ih
      | cons part parts =>
        rw [hs] at ih
        simp only [split, hc, if_false, hs, List.count_cons, hne]
        simpa using ih

theorem split_headD (sep : Char) (x : List Char) :
    (split sep x).headD [] = x.takeWhile (fun c => c ≠ sep) := by
  induction x with
  | nil => simp [split]
  | cons c cs ih =>
    by_cases hc : c = sep
    · subst hc
      simp [split]
    · cases hs : split sep cs with
      | nil =>
        have := split_length sep cs
        simp [hs] at this
      | cons part parts =>
        rw [hs] at ih
        simp only [split, hc, if_false, hs, List.headD_cons]
        simp only [List.headD_cons] at ih
        simp [List.takeWhile_cons, hc, ih]

theorem split_second (sep : Char) (x : List Char) (h : x.count sep = 1) :
    (split sep x).getD 1 [] = (x.dropWhile (fun c => c ≠ sep)).drop 1 := by
  induction x with
  | nil => simp at h
  | cons c cs ih =>
    by_cases hc : c = sep
    · subst hc
      have h0 : cs.count c = 0 := by simpa using h
      have hall : ∀ a ∈ cs, (fun d => decide (d ≠ c)) a = true := by
        intro a ha
        have : a ≠ c := by
          rintro rfl
          exact (List.count_pos_iff.mpr ha).ne' h0
        simpa using this
      have ht : cs.takeWhile (fun d => decide (d ≠ c)) = cs :=
        List.takeWhile_eq_self_iff.mpr hall
      have hh := split_headD c cs
      cases hs : split c cs with
      | nil =>
        have := split_length c cs
        simp [hs] at this
      | cons part parts =>
        rw [hs] at hh
        simp only [List.headD_cons] at hh
        simp only [split, if_true, hs, List.getD_cons_succ, List.getD_cons_zero,
          List.dropWhile_cons, ne_eq, not_true_eq_false, decide_False, Bool.false_eq_true,
          if_false, List.drop_succ_cons, List.drop_zero]
        rw [hh]
        exact ht
    · have hne : (c == sep) = false := by simpa using hc
      have h1 : cs.count sep = 1 := by
        simpa [List.count_cons, hne] using h
      have ih1 := ih h1
      cases hs : split sep cs with
      | nil =>
        have := split_length sep cs
        simp [hs] at this
      | cons part parts =>
        rw [hs] at ih1
        simp only [split, hc, if_false, hs]
        simp only [List.dropWhile_cons, ne_eq, hc, not_false_eq_true, decide_True, if_true]
        simpa using ih1

theorem afterColon_of_count_zero (x : List Char) (h : x.count ':' = 0) :
    afterColon x = [] := by
  have hall : ∀ a ∈ x, (fun c => decide (c ≠ ':')) a = true := by
    intro a ha
    have : a ≠ ':' := by
      rintro rfl
      exact (List.count_pos_iff.mpr ha).ne' h
    simpa using this
  have hd : x.dropWhile (fun c => decide (c ≠ ':')) = [] :=
    List.dropWhile_eq_nil_iff.mpr hall
  unfold afterColon
  rw [hd]
  rfl

/-- What `parse_selector` computes, in terms of the number of `:` in `x`. -/
theorem parse_selector_eq (x : List Char) (hx : x ≠ []) :
    parse_selector x =
      if x.count ':' > 1 ∨ beforeColon x = [] then
        .error ("invalid selector `" ++ String.mk x ++
          "`: must contain at most one `:` and field name must not be empty")
      else .ok ⟨String.mk (afterColon x), String.mk (beforeColon x)⟩ := by
  have hlen := split_length ':' x
  have hhead : (split ':' x).headD [] = beforeColon x := split_headD ':' x
  unfold parse_selector
  simp only [hx, if_false, hlen, hhead]
  by_cases hbad : x.count ':' > 1 ∨ beforeColon x = []
  · have hbad2 : x.count ':' + 1 > 2 ∨ beforeColon x = [] := by
      rcases hbad with h | h
      · exact Or.inl (by omega)
      · exact Or.inr h
    rw [if_pos hbad, if_pos hbad2]
  · have hbad2 : ¬ (x.count ':' + 1 > 2 ∨ beforeColon x = []) := by
      rintro (h | h)
      · exact hbad (Or.inl (by omega))
      · exact hbad (Or.inr h)
    rw [if_neg hbad, if_neg hbad2]
    have hle : x.count ':' ≤ 1 := by
      by_contra hgt
      exact hbad (Or.inl (by omega))
    by_cases h1 : x.count ':' = 1
    · have hsec : (split ':' x).getD 1 [] = afterColon x := split_second ':' x h1
      rw [h1, hsec]
      simp
    · have h0 : x.count ':' = 0 := by omega
      simp [h0, afterColon_of_count_zero x h0]

/-- C10: for every non-empty `x`, `parse_selector(x)` fails with the error
diagnostic if and only if `x` contains more than one `:` or the part before the
first `:` is empty; otherwise it returns the selector whose field is the part
of `x` before the `:` (all of `x` when there is none) and whose prefix is the
part after the `:` (the empty string when there is none). -/
theorem parse_selector_spec (x : List Char) (hx : x ≠ []) :
    ((∃ message : String, parse_selector x = .error message) ↔
      (x.count ':' > 1 ∨ beforeColon x = [])) ∧
    (¬ (x.count ':' > 1 ∨ beforeColon x = []) →
      parse_selector x = .ok ⟨String.mk (afterColon x), String.mk (beforeColon x)⟩) ∧
    (x.count ':' = 0 → beforeColon x = x ∧ afterColon x = []) := by
  have heq := parse_selector_eq x hx
  refine ⟨⟨?_, ?_⟩, ?_, ?_⟩
  · rintro ⟨message, hm⟩
    by_contra hbad
    rw [heq, if_neg hbad] at hm
    cases hm
  · intro hbad
    rw [heq, if_pos hbad]
    exact ⟨_, rfl⟩
  · intro hbad
    rw [heq, if_neg hbad]
  · intro h0
    refine ⟨?_, afterColon_of_count_zero x h0⟩
    have hall : ∀ a ∈ x, (fun c => decide (c ≠ ':')) a = true := by
      intro a ha
      have : a ≠ ':' := by
        rintro rfl
        exact (List.count_pos_iff.mpr ha).ne' h0
      simpa using this
    exact List.takeWhile_eq_self_iff.mpr hall

/-- Witness for C10: the selector `event_type:suricata` of `read suricata`. -/
theorem parse_selector_spec_witness :
    parse_selector "event_type:suricata".toList = .ok ⟨"suricata", "event_type"⟩ :=
  (parse_selector_spec "event_type:suricata".toList (by decide)).2.1 (by decide)

end Json

namespace Json

/-! ### The parser without selector and schema -/

theorem initial_state_eq_accState (args : parser_args) (hschema : args.schema = none) :
    initial_state args = accState [] := by
  simp [initial_state, hschema, parser_state.init, accState, Builder.empty]

/-- Without a selector, a line with a single object is added to the
unknown-schema builder, whatever its members; the builder is flushed when it
reaches the row limit. -/
theorem ndjson_parse_plain (p : parser_base) (line : Line) (acc : List Row)
    (hsel : p.selector_ = none) (hline : SingleObject line) :
    ndjson_parse p line (accState acc) =
      if acc.length + 1 < p.max_table_slice_rows then
        ⟨[], line.doc_warnings, accState (acc ++ [line.members])⟩
      else
        ⟨[⟨"", acc ++ [line.members]⟩], line.doc_warnings, accState []⟩ := by
  obtain ⟨hvalid, hmore, _⟩ := hline
  by_cases hlt : acc.length + 1 < p.max_table_slice_rows
  · simp [ndjson_parse, hvalid, hmore, handle_selector, hsel, push_row, accState,
      handle_max_rows, parser_state.assign, parser_state.deref, hlt]
  · simp [ndjson_parse, hvalid, hmore, handle_selector, hsel, push_row, accState,
      handle_max_rows, parser_state.assign, parser_state.deref, hlt, parser_state.finish,
      Builder.finish, Builder.empty]

end Json

namespace Json

theorem after_after (out : Output) (s1 s2 : List Slice) (w1 w2 : List Error) :
    (out.after s2 w2).after s1 w1 = out.after (s1 ++ s2) (w1 ++ w2) := by
  simp [Output.after]

/-- Rows that arrive without a null chunk, a timeout or a full builder in
between are collected in the unknown-schema builder and nothing is yielded. -/
theorem make_parser_loop_rows (args : parser_args) (p : parser_base)
    (hsel : p.selector_ = none) (hmax : p.max_table_slice_rows = args.table_slice_size)
    (last_finish : Nat) (rest : List (Nat × Option Line)) :
    ∀ (rows : List (Nat × Line)) (acc : List Row),
      (∀ x ∈ rows, SingleObject x.2 ∧ ¬ (last_finish + args.batch_timeout < x.1)) →
      acc.length + rows.length < args.table_slice_size →
      make_parser_loop args (fun line => line.text.length) (ndjson_parse p)
          (lineInput rows ++ rest) (accState acc) last_finish
        = (make_parser_loop args (fun line => line.text.length) (ndjson_parse p) rest
            (accState (acc ++ rows.map (fun x => x.2.members))) last_finish).after []
            (rows.flatMap (fun x => x.2.doc_warnings)) := by
  intro rows
  induction rows with
  | nil =>
    intro acc _ _
    simp [lineInput, Output.after]
  | cons x rows ih =>
    intro acc hall hlen
    obtain ⟨now, line⟩ := x
    obtain ⟨hline, htime⟩ := hall (now, line) (List.mem_cons_self _ _)
    have hrest : ∀ x ∈ rows, SingleObject x.2 ∧ ¬ (last_finish + args.batch_timeout < x.1) :=
      fun x hx => hall x (List.mem_cons_of_mem _ hx)
    simp only [List.length_cons] at hlen
    have hfull : ¬ (acc.length ≥ args.table_slice_size) := by omega
    have hlt : acc.length + 1 < p.max_table_slice_rows := by omega
    have hstep := ndjson_parse_plain p line acc hsel hline
    rw [if_pos hlt] at hstep
    have hsize : line.text.length ≠ 0 := hline.2.2
    have ih1 := ih (acc ++ [line.members]) hrest (by simp; omega)
    simp only [lineInput, List.map_cons, List.cons_append, make_parser_loop]
    simp only [lineInput] at ih1
    simp only [accState, parser_state.deref] at hfull ⊢
    simp only [hfull, htime, decide_False, Bool.or_self, Bool.false_eq_true, if_false, hsize]
    simp only [accState] at hstep ih1
    rw [hstep]
    simp only [Bool.false_eq_true, if_false, List.map_nil, List.append_nil, List.append_eq,
      ih1, after_after]
    simp

end Json

namespace Json

theorem handle_empty_chunk_accState (acc : List Row) :
    handle_empty_chunk (accState acc) false = (⟨"", acc⟩, accState []) := by
  simp [handle_empty_chunk, accState, Builder.finish, Builder.empty]

theorem finalize_accState (acc : List Row) :
    finalize (accState acc) = if acc.length > 0 then some ⟨"", acc⟩ else none := by
  simp [finalize, accState, parser_state.finish, parser_state.deref, Builder.finish]

theorem unflatten_if_needed_rows_length (args : parser_args) (slice : Slice) :
    (unflatten_if_needed args slice).rows.length = slice.rows.length := by
  unfold unflatten_if_needed unflatten
  split <;> simp

theorem nonEmptySlices_after_cons (out : Output) (slice : Slice) (ws : List Error)
    (h : slice.rows.length ≠ 0) :
    nonEmptySlices (out.after [slice] ws) = slice :: nonEmptySlices out := by
  have hne : slice.rows.isEmpty = false := by
    cases hr : slice.rows with
    | nil => simp [hr] at h
    | cons _ _ => rfl
  simp [nonEmptySlices, Output.after, List.filter_cons, hne]

theorem nonEmptySlices_after_nil (out : Output) (ws : List Error) :
    nonEmptySlices (out.after [] ws) = nonEmptySlices out := by
  simp [nonEmptySlices, Output.after]

theorem nonEmptySlices_eq_nil (out : Output) (h : ∀ slice ∈ out.slices, slice.rows = []) :
    nonEmptySlices out = [] := by
  unfold nonEmptySlices
  rw [List.filter_eq_nil_iff]
  intro slice hs
  simp [h slice hs]

/-- Null chunks that reach a parser whose builder is empty yield only slices
without rows. -/
theorem make_parser_loop_nulls (args : parser_args) (p : parser_base)
    (hschema : args.schema = none) :
    ∀ (ticks : List Nat) (last_finish : Nat),
      ∀ slice ∈ (make_parser_loop args (fun line => line.text.length) (ndjson_parse p)
          (nullInput ticks) (accState []) last_finish).slices, slice.rows = [] := by
  have hu : (unflatten_if_needed args ⟨"", []⟩).rows = [] :=
    unflatten_if_needed_rows_nil args _ rfl
  have he : ∀ b, handle_empty_chunk (accState []) b = (⟨"", []⟩, accState []) := by
    intro b
    rw [← initial_state_eq_accState args hschema]
    exact handle_empty_chunk_initial args hschema b
  intro ticks
  induction ticks with
  | nil =>
    intro last_finish
    simp [nullInput, make_parser_loop, finalize_accState]
  | cons t ticks ih =>
    intro last_finish
    simp only [nullInput, List.map_cons, make_parser_loop, he, ite_self]
    refine after_slices_rows_nil _ _ _ ?_ (ih _)
    intro slice hslice
    rcases List.mem_append.mp hslice with h | h
    · exact rows_nil_of_mem_ite hu h
    · exact rows_nil_of_mem_ite hu h

/-- Rows that fill the builder exactly to the row limit, with no null chunk or
timeout in between, are yielded as one slice by `handle_max_rows`. -/
theorem make_parser_loop_full (args : parser_args) (p : parser_base)
    (hsel : p.selector_ = none) (hmax : p.max_table_slice_rows = args.table_slice_size)
    (last_finish : Nat) (rest : List (Nat × Option Line)) :
    ∀ (rows : List (Nat × Line)) (acc : List Row),
      (∀ x ∈ rows, SingleObject x.2 ∧ ¬ (last_finish + args.batch_timeout < x.1)) →
      rows ≠ [] →
      acc.length + rows.length = args.table_slice_size →
      make_parser_loop args (fun line => line.text.length) (ndjson_parse p)
          (lineInput rows ++ rest) (accState acc) last_finish
        = (make_parser_loop args (fun line => line.text.length) (ndjson_parse p) rest
            (accState []) last_finish).after
            [unflatten_if_needed args ⟨"", acc ++ rows.map (fun x => x.2.members)⟩]
            (rows.flatMap (fun x => x.2.doc_warnings)) := by
  intro rows
  induction rows with
  | nil => intro acc _ hne; exact absurd rfl hne
  | cons x rows ih =>
    intro acc hall _ hlen
    obtain ⟨now, line⟩ := x
    obtain ⟨hline, htime⟩ := hall (now, line) (List.mem_cons_self _ _)
    have hrest : ∀ x ∈ rows, SingleObject x.2 ∧ ¬ (last_finish + args.batch_timeout < x.1) :=
      fun x hx => hall x (List.mem_cons_of_mem _ hx)
    have hfull : ¬ (acc.length ≥ args.table_slice_size) := by
      simp only [List.length_cons] at hlen
      omega
    have hsize : line.text.length ≠ 0 := hline.2.2
    have hstep := ndjson_parse_plain p line acc hsel hline
    cases rows with
    | nil =>
      have hlt : ¬ (acc.length + 1 < p.max_table_slice_rows) := by
        simp only [List.length_cons, List.length_nil] at hlen
        omega
      rw [if_neg hlt] at hstep
      simp only [lineInput, List.map_cons, List.map_nil, List.cons_append, List.nil_append,
        make_parser_loop]
      simp only [accState, parser_state.deref] at hfull hstep ⊢
      simp only [hfull, htime, decide_False, Bool.or_self, Bool.false_eq_true, if_false, hsize]
      rw [hstep]
      simp
    | cons y rows =>
      have hlt : acc.length + 1 < p.max_table_slice_rows := by
        simp only [List.length_cons] at hlen
        omega
      rw [if_pos hlt] at hstep
      have ih1 := ih (acc ++ [line.members]) hrest (List.cons_ne_nil _ _)
        (by simp only [List.length_append, List.length_cons, List.length_nil] at hlen ⊢
            omega)
      generalize y :: rows = more at ih1 ⊢
      simp only [lineInput, List.map_cons, List.cons_append, make_parser_loop]
      simp only [lineInput, List.map_cons, List.cons_append] at ih1
      simp only [accState, parser_state.deref] at hfull hstep ih1 ⊢
      simp only [hfull, htime, decide_False, Bool.or_self, Bool.false_eq_true, if_false, hsize]
      rw [hstep]
      simp only [Bool.false_eq_true, if_false, List.map_nil, List.append_nil, List.append_eq,
        ih1, after_after]
      simp

end Json

namespace Json

/-- The last null chunk of an input flushes the rows collected so far as one
slice, be it through the timeout, through the null chunk itself, or through
`finalize`. -/
theorem make_parser_loop_last_null (args : parser_args) (p : parser_base)
    (htry : args.try_find_schema = false) (acc : List Row) (hacc : acc ≠ [])
    (hlen : acc.length < args.table_slice_size) (t last_finish : Nat) :
    (make_parser_loop args (fun line => line.text.length) (ndjson_parse p)
        [(t, none)] (accState acc) last_finish).slices
      = [unflatten_if_needed args ⟨"", acc⟩] := by
  have hfull : ¬ (acc.length ≥ args.table_slice_size) := by omega
  have hpos : acc.length > 0 := List.length_pos.mpr hacc
  have hlast : (accState acc).last_used_builder = some BuilderRef.unknown := rfl
  have hderef : ((accState acc).deref BuilderRef.unknown).rows = acc := rfl
  have hfin0 : finalize (accState []) = none := by
    rw [finalize_accState]; rfl
  have hfin1 : finalize (accState acc) = some ⟨"", acc⟩ := by
    rw [finalize_accState, if_pos hpos]
  simp only [make_parser_loop, htry, handle_empty_chunk_accState, hlast, hderef, hfull,
    decide_False, Bool.false_or]
  by_cases hto : last_finish + args.batch_timeout < t
  · simp [hto, Output.after, hfin0, handle_empty_chunk_accState]
  · by_cases heq : last_finish = t
    · simp [hto, heq, Output.after, hfin1, handle_empty_chunk_accState]
    · simp [hto, heq, Output.after, hfin0, handle_empty_chunk_accState]

/-- C11 (counterexample): for the lines `{"a":1,"b":"x"}` and
`{"a":2,"b":"y","c":true}` of one chunk, parsed without selector and schema,
the parser yields one non-empty batch, which holds both rows, and not two. -/
theorem read_ndjson_mixed_fields_one_batch :
    nonEmptySlices (read_ndjson (plainArgs 65536) (plainParser 65536) 0
        [(1, some lineAB), (2, some lineABC), (3, none)])
      = [⟨"", [lineAB.members, lineABC.members]⟩] ∧
    (nonEmptySlices (read_ndjson (plainArgs 65536) (plainParser 65536) 0
        [(1, some lineAB), (2, some lineABC), (3, none)])).length ≠ 2 := by
  constructor
  · rfl
  · decide

/-- C11 (amended): without selector and schema, the rows of the lines that
arrive before a null chunk, with no timeout in between and fewer than the row
limit, are added to the same builder whatever their members, and are yielded
as one batch that holds all of them in order; in particular the two lines of
the scenario give one batch with both rows. -/
theorem read_ndjson_rows_one_batch (args : parser_args) (p : parser_base)
    (hsel : p.selector_ = none) (hschema : args.schema = none)
    (htry : args.try_find_schema = false)
    (hmax : p.max_table_slice_rows = args.table_slice_size)
    (rows : List (Nat × Line)) (start t : Nat) (hne : rows ≠ [])
    (hlen : rows.length < args.table_slice_size)
    (hrows : ∀ x ∈ rows, SingleObject x.2 ∧ ¬ (start + args.batch_timeout < x.1)) :
    nonEmptySlices (read_ndjson args p start (lineInput rows ++ [(t, none)]))
      = [unflatten_if_needed args ⟨"", rows.map (fun x => x.2.members)⟩] := by
  have hloop := make_parser_loop_rows args p hsel hmax start [(t, none)] rows [] hrows
    (by simpa using hlen)
  have hne2 : rows.map (fun x => x.2.members) ≠ [] := by simpa using hne
  have hlast := make_parser_loop_last_null args p htry (rows.map (fun x => x.2.members)) hne2
    (by simpa using hlen) t start
  unfold read_ndjson
  rw [initial_state_eq_accState args hschema, hloop, nonEmptySlices_after_nil]
  simp only [List.nil_append]
  unfold nonEmptySlices
  rw [hlast]
  have hrl := unflatten_if_needed_rows_length args ⟨"", rows.map (fun x => x.2.members)⟩
  have hpos : (rows.map (fun x => x.2.members)).length ≠ 0 := by
    simpa using hne
  have hne3 : (unflatten_if_needed args ⟨"", rows.map (fun x => x.2.members)⟩).rows.isEmpty
      = false := by
    cases hr : (unflatten_if_needed args ⟨"", rows.map (fun x => x.2.members)⟩).rows with
    | nil =>
      rw [hr] at hrl
      have h0 : rows.length = 0 := by simpa using hrl.symm
      exact absurd (List.length_eq_zero.mp h0) hne
    | cons _ _ => rfl
  simp [List.filter_cons, hne3]

/-- Witness for C11 (amended): the two lines of the scenario. -/
theorem read_ndjson_rows_one_batch_witness :
    nonEmptySlices (read_ndjson (plainArgs 65536) (plainParser 65536) 0
        (lineInput [(1, lineAB), (2, lineABC)] ++ [(3, none)]))
      = [unflatten_if_needed (plainArgs 65536)
          ⟨"", [(1, lineAB), (2, lineABC)].map (fun x => x.2.members)⟩] :=
  read_ndjson_rows_one_batch (plainArgs 65536) (plainParser 65536) rfl rfl rfl rfl
    [(1, lineAB), (2, lineABC)] 0 3 (by simp) (by decide)
    (by
      intro x hx
      simp only [List.mem_cons, List.mem_singleton, List.not_mem_nil, or_false] at hx
      rcases hx with rfl | rfl
      · exact ⟨⟨rfl, rfl, by decide⟩, by decide⟩
      · exact ⟨⟨rfl, rfl, by decide⟩, by decide⟩)

end Json

namespace Json

/-- C12 (counterexample): with a row limit of two, two rows that arrive in two
chunks (`to_padded_lines` yields a null value after each chunk) and without
any timeout are yielded as two non-empty batches of one row each. -/
theorem read_ndjson_two_chunks_two_batches :
    nonEmptySlices (read_ndjson (plainArgs 2) (plainParser 2) 0
        [(1, some lineAB), (2, none), (3, some lineAB), (4, none)])
      = [⟨"", [lineAB.members]⟩, ⟨"", [lineAB.members]⟩] ∧
    ¬ (0 + (plainArgs 2).batch_timeout < 4) := by
  constructor
  · rfl
  · decide

/-- C12 (amended): for exactly `table_slice_size` lines, each with one valid
object, that reach the parser with no null chunk between them and with no
batch timeout expiring, followed by any number of null chunks, the parser
without selector and schema yields exactly one non-empty batch, and that batch
holds all the rows in order. -/
theorem read_ndjson_full_batch (args : parser_args) (p : parser_base)
    (hsel : p.selector_ = none) (hschema : args.schema = none)
    (hmax : p.max_table_slice_rows = args.table_slice_size)
    (rows : List (Nat × Line)) (ticks : List Nat) (start : Nat)
    (hlen : rows.length = args.table_slice_size) (hpos : 0 < args.table_slice_size)
    (hrows : ∀ x ∈ rows, SingleObject x.2 ∧ ¬ (start + args.batch_timeout < x.1)) :
    nonEmptySlices (read_ndjson args p start (lineInput rows ++ nullInput ticks))
      = [unflatten_if_needed args ⟨"", rows.map (fun x => x.2.members)⟩] := by
  have hne : rows ≠ [] := by
    intro h
    rw [h] at hlen
    simp at hlen
    omega
  have hloop := make_parser_loop_full args p hsel hmax start (nullInput ticks) rows [] hrows
    hne (by simpa using hlen)
  have htail := make_parser_loop_nulls args p hschema ticks start
  have hrl := unflatten_if_needed_rows_length args ⟨"", rows.map (fun x => x.2.members)⟩
  have hpos2 : (unflatten_if_needed args ⟨"", rows.map (fun x => x.2.members)⟩).rows.length
      ≠ 0 := by
    rw [hrl]
    simp only [List.length_map]
    omega
  unfold read_ndjson
  rw [initial_state_eq_accState args hschema, hloop, List.nil_append,
    nonEmptySlices_after_cons _ _ _ hpos2, nonEmptySlices_eq_nil _ htail]

/-- Witness for C12 (amended): two rows in one chunk with a row limit of two. -/
theorem read_ndjson_full_batch_witness :
    nonEmptySlices (read_ndjson (plainArgs 2) (plainParser 2) 0
        (lineInput [(1, lineAB), (2, lineAB)] ++ nullInput [3]))
      = [unflatten_if_needed (plainArgs 2)
          ⟨"", [(1, lineAB), (2, lineAB)].map (fun x => x.2.members)⟩] :=
  read_ndjson_full_batch (plainArgs 2) (plainParser 2) rfl rfl rfl
    [(1, lineAB), (2, lineAB)] [3] 0 rfl (by decide)
    (by
      intro x hx
      simp only [List.mem_cons, List.mem_singleton, List.not_mem_nil, or_false] at hx
      rcases hx with rfl | rfl
      · exact ⟨⟨rfl, rfl, by decide⟩, by decide⟩
      · exact ⟨⟨rfl, rfl, by decide⟩, by decide⟩)

/-- C14 (counterexample): the line `{"a":1} {"a":2}` holds two top-level
values; the parser emits one warning and yields no batch at all, so the row of
the first object is not added to the builder. -/
theorem read_ndjson_two_objects_no_row :
    nonEmptySlices (read_ndjson (plainArgs 65536) (plainParser 65536) 0
        [(1, some twoObjectsLine), (2, none)]) = [] ∧
    (read_ndjson (plainArgs 65536) (plainParser 65536) 0
        [(1, some twoObjectsLine), (2, none)]).warnings.length = 1 ∧
    (ndjson_parse (plainParser 65536) twoObjectsLine (accState [])).state = accState [] := by
  refine ⟨rfl, rfl, rfl⟩

/-- C14 (amended): for every valid line that holds more than one top-level
JSON value and that the selector handling does not skip, `ndjson_parser::parse`
cancels the row of the first object, so that no row is added to any builder
(the state is the one left by the selector handling, followed by the row-limit
check), and emits exactly one warning about the line after the warnings of the
selector handling and of `doc_parser`. -/
theorem ndjson_parse_more_than_one_object (p : parser_base) (line : Line)
    (state : parser_state) (hvalid : line.value_error = none) (hmore : line.more = true)
    (hact : (handle_selector p line state).action ≠ parser_action.skip) :
    push_row (handle_selector p line state).state line.members line.more
      = (handle_selector p line state).state ∧
    (ndjson_parse p line state).state
      = (handle_max_rows p (handle_selector p line state).state).2 ∧
    (ndjson_parse p line state).warnings
      = (handle_selector p line state).warnings ++ line.doc_warnings ++
        [⟨ec.parse_error, "more than one JSON object in a single line for NDJSON mode " ++
            "(while parsing '" ++ line.text ++ "')"⟩] := by
  have hpush : push_row (handle_selector p line state).state line.members line.more
      = (handle_selector p line state).state := by
    rw [hmore]
    unfold push_row
    cases (handle_selector p line state).state.last_used_builder <;> simp
  refine ⟨hpush, ?_, ?_⟩
  · unfold ndjson_parse
    simp only [hvalid]
    cases ha : (handle_selector p line state).action with
    | skip => exact absurd ha hact
    | yield => simp only [hpush]
    | parse => simp only [hpush]
  · unfold ndjson_parse
    simp only [hvalid]
    cases ha : (handle_selector p line state).action with
    | skip => exact absurd ha hact
    | yield => simp [hmore]
    | parse => simp [hmore]

/-- Witness for C14 (amended): the line `{"a":1} {"a":2}`. -/
theorem ndjson_parse_more_than_one_object_witness :
    (ndjson_parse (plainParser 65536) twoObjectsLine (accState [])).state
      = (handle_max_rows (plainParser 65536)
          (handle_selector (plainParser 65536) twoObjectsLine (accState [])).state).2 :=
  (ndjson_parse_more_than_one_object (plainParser 65536) twoObjectsLine (accState [])
    rfl rfl (by decide)).2.1

end Json

namespace Json

/-! ### `doc_parser` -/

theorem nestList_pos (x : JValue) (xs : List JValue) : 1 ≤ nestList (x :: xs) := by
  simp only [nestList]
  omega

theorem nestMembers_pos (m : String × JValue) (ms : List (String × JValue)) :
    1 ≤ nestMembers (m :: ms) := by
  obtain ⟨k, v⟩ := m
  simp only [nestMembers]
  omega

mutual

/-- When no field is rejected, `parse_impl` at depth `d` ends in `die` exactly
when `d` plus twice the nesting depth of the value exceeds the cap. -/
theorem parse_impl_none_iff (dp : doc_parser_members) (hv : ∀ path, dp.field_validator path = true) :
    ∀ (v : JValue) (path : List String) (d : Nat),
      parse_impl dp v path d = none ↔ d + 2 * nest v > dp.max_recursion
  | .null, path, d => by
    by_cases h : d > dp.max_recursion <;> simp [parse_impl, nest, h]
  | .bool b, path, d => by
    by_cases h : d > dp.max_recursion <;> simp [parse_impl, nest, h]
  | .number n, path, d => by
    by_cases h : d > dp.max_recursion <;> simp [parse_impl, nest, h]
  | .string s, path, d => by
    by_cases h : d > dp.max_recursion
    · simp [parse_impl, nest, h]
    · cases hc : dp.classify s <;> simp [parse_impl, nest, h, hc]
  | .array xs, path, d => by
    have ih := parse_array_none_iff dp hv xs path (d + 1)
    by_cases h : d > dp.max_recursion
    · simp only [parse_impl, h, if_true, nest, true_iff]
      omega
    · simp only [parse_impl, h, if_false, nest]
      cases hp : parse_array dp xs path (d + 1) with
      | none =>
        have := ih.mp hp
        simp only [true_iff]
        omega
      | some elements =>
        simp only [false_iff, reduceCtorEq]
        intro hgt
        cases xs with
        | nil => simp only [nestList] at hgt; omega
        | cons x xs =>
          have := ih.mpr ⟨List.cons_ne_nil _ _, by omega⟩
          rw [hp] at this
          cases this
  | .object members, path, d => by
    have ih := parse_object_none_iff dp hv members path (d + 1)
    by_cases h : d > dp.max_recursion
    · simp only [parse_impl, h, if_true, nest, true_iff]
      omega
    · simp only [parse_impl, h, if_false, nest]
      cases hp : parse_object dp members path (d + 1) with
      | none =>
        have := ih.mp hp
        simp only [true_iff]
        omega
      | some fields =>
        simp only [false_iff, reduceCtorEq]
        intro hgt
        cases members with
        | nil => simp only [nestMembers] at hgt; omega
        | cons m ms =>
          have := ih.mpr ⟨List.cons_ne_nil _ _, by omega⟩
          rw [hp] at this
          cases this

theorem parse_array_none_iff (dp : doc_parser_members) (hv : ∀ path, dp.field_validator path = true) :
    ∀ (xs : List JValue) (path : List String) (d : Nat),
      parse_array dp xs path d = none ↔
        (xs ≠ [] ∧ d + 2 * nestList xs > dp.max_recursion + 1)
  | [], path, d => by simp [parse_array]
  | x :: rest, path, d => by
    have ih1 := parse_impl_none_iff dp hv x path (d + 1)
    have ih2 := parse_array_none_iff dp hv rest path d
    simp only [parse_array, nestList, ne_eq, List.cons_ne_nil, not_false_eq_true, true_and]
    cases h1 : parse_impl dp x path (d + 1) with
    | none =>
      have := ih1.mp h1
      simp only [true_iff]
      omega
    | some added =>
      have hn1 : ¬ (d + 1 + 2 * nest x > dp.max_recursion) := by
        intro hgt
        have := ih1.mpr hgt
        rw [h1] at this
        cases this
      cases h2 : parse_array dp rest path d with
      | none =>
        have := (ih2.mp h2).2
        simp only [true_iff]
        omega
      | some more =>
        simp only [false_iff, reduceCtorEq]
        intro hgt
        have hrest : d + 2 * nestList rest > dp.max_recursion + 1 := by omega
        cases rest with
        | nil => simp only [nestList] at hrest; omega
        | cons y ys =>
          have := ih2.mpr ⟨List.cons_ne_nil _ _, hrest⟩
          rw [h2] at this
          cases this

theorem parse_object_none_iff (dp : doc_parser_members) (hv : ∀ path, dp.field_validator path = true) :
    ∀ (members : List (String × JValue)) (path : List String) (d : Nat),
      parse_object dp members path d = none ↔
        (members ≠ [] ∧ d + 2 * nestMembers members > dp.max_recursion + 1)
  | [], path, d => by simp [parse_object]
  | (key, val) :: rest, path, d => by
    have ih1 := parse_impl_none_iff dp hv val (path ++ [key]) (d + 1)
    have ih2 := parse_object_none_iff dp hv rest path d
    simp only [parse_object, hv, Bool.true_eq_false, if_false, nestMembers, ne_eq,
      List.cons_ne_nil, not_false_eq_true, true_and]
    cases h1 : parse_impl dp val (path ++ [key]) (d + 1) with
    | none =>
      have := ih1.mp h1
      simp only [true_iff]
      omega
    | some added =>
      have hn1 : ¬ (d + 1 + 2 * nest val > dp.max_recursion) := by
        intro hgt
        have := ih1.mpr hgt
        rw [h1] at this
        cases this
      cases h2 : parse_object dp rest path d with
      | none =>
        have := (ih2.mp h2).2
        simp only [true_iff]
        omega
      | some more =>
        simp only [false_iff, reduceCtorEq]
        intro hgt
        have hrest : d + 2 * nestMembers rest > dp.max_recursion + 1 := by omega
        cases rest with
        | nil => simp only [nestMembers] at hrest; omega
        | cons y ys =>
          have := ih2.mpr ⟨List.cons_ne_nil _ _, hrest⟩
          rw [h2] at this
          cases this

end

end Json

namespace Json

mutual

/-- A value that is nested shallowly enough is parsed without `die`, whatever
the validator; `null` adds nothing to the pusher and every other value adds
one cell. -/
theorem parse_impl_some (dp : doc_parser_members) :
    ∀ (v : JValue) (path : List String) (d : Nat),
      d + 2 * nest v ≤ dp.max_recursion →
      ∃ cells, parse_impl dp v path d = some cells ∧
        cells.length = (if v.isNull = true then 0 else 1)
  | .null, path, d, h => by
    have hd : ¬ d > dp.max_recursion := by omega
    exact ⟨[], by simp [parse_impl, hd], by simp [JValue.isNull]⟩
  | .bool b, path, d, h => by
    have hd : ¬ d > dp.max_recursion := by omega
    exact ⟨[Cell.bool b], by simp [parse_impl, hd], by simp [JValue.isNull]⟩
  | .number n, path, d, h => by
    have hd : ¬ d > dp.max_recursion := by omega
    exact ⟨[Cell.number n], by simp [parse_impl, hd], by simp [JValue.isNull]⟩
  | .string s, path, d, h => by
    have hd : ¬ d > dp.max_recursion := by omega
    cases hc : dp.classify s with
    | none => exact ⟨[Cell.string s], by simp [parse_impl, hd, hc], by simp [JValue.isNull]⟩
    | some kind =>
      exact ⟨[Cell.parsed kind s], by simp [parse_impl, hd, hc], by simp [JValue.isNull]⟩
  | .array xs, path, d, h => by
    simp only [nest] at h
    have hd : ¬ d > dp.max_recursion := by omega
    obtain ⟨elements, he, _⟩ := parse_array_some dp xs path (d + 1) (Or.inr (by omega))
    exact ⟨[Cell.list elements], by simp [parse_impl, hd, he], by simp [JValue.isNull]⟩
  | .object members, path, d, h => by
    simp only [nest] at h
    have hd : ¬ d > dp.max_recursion := by omega
    obtain ⟨fields, hf⟩ := parse_object_some dp members path (d + 1) (Or.inr (by omega))
    exact ⟨[Cell.record fields], by simp [parse_impl, hd, hf], by simp [JValue.isNull]⟩

/-- The list built from an array has one element for every element of the
array that is not `null`. -/
theorem parse_array_some (dp : doc_parser_members) :
    ∀ (xs : List JValue) (path : List String) (d : Nat),
      (xs = [] ∨ d + 2 * nestList xs ≤ dp.max_recursion + 1) →
      ∃ elements, parse_array dp xs path d = some elements ∧
        elements.length = (xs.filter (fun x => !x.isNull)).length
  | [], path, d, _ => ⟨[], by simp [parse_array], by simp⟩
  | x :: rest, path, d, h => by
    have h' : d + 2 * nestList (x :: rest) ≤ dp.max_recursion + 1 := by
      rcases h with h | h
      · cases h
      · exact h
    simp only [nestList] at h'
    obtain ⟨added, ha, hal⟩ := parse_impl_some dp x path (d + 1) (by omega)
    have hrest : rest = [] ∨ d + 2 * nestList rest ≤ dp.max_recursion + 1 := Or.inr (by omega)
    obtain ⟨more, hm, hml⟩ := parse_array_some dp rest path d hrest
    refine ⟨added ++ more, by simp [parse_array, ha, hm], ?_⟩
    cases hx : x.isNull with
    | true =>
      simp only [hx, if_true] at hal
      simp [List.filter_cons, hx, hal, hml]
    | false =>
      simp only [hx, Bool.false_eq_true, if_false] at hal
      simp [List.filter_cons, hx, hal, hml]
      omega

theorem parse_object_some (dp : doc_parser_members) :
    ∀ (members : List (String × JValue)) (path : List String) (d : Nat),
      (members = [] ∨ d + 2 * nestMembers members ≤ dp.max_recursion + 1) →
      ∃ fields, parse_object dp members path d = some fields
  | [], path, d, _ => ⟨[], by simp [parse_object]⟩
  | (key, val) :: rest, path, d, h => by
    have h' : d + 2 * nestMembers ((key, val) :: rest) ≤ dp.max_recursion + 1 := by
      rcases h with h | h
      · cases h
      · exact h
    simp only [nestMembers] at h'
    obtain ⟨added, ha, _⟩ := parse_impl_some dp val (path ++ [key]) (d + 1) (by omega)
    have hrest : rest = [] ∨ d + 2 * nestMembers rest ≤ dp.max_recursion + 1 :=
      Or.inr (by omega)
    obtain ⟨more, hm⟩ := parse_object_some dp rest path d hrest
    by_cases hval : dp.field_validator (path ++ [key]) = false
    · exact ⟨more, by simp [parse_object, hval, hm]⟩
    · exact ⟨(key, added.headD Cell.null) :: more, by simp [parse_object, hval, ha, hm]⟩

end

end Json

namespace Json

/-- C13 (counterexample): for the object `{"a":[1,null,2]}`, the list built
from the array of three elements has the two elements `1` and `2`; no null
element is added for the `null` of the array. -/
theorem parse_object_array_with_null :
    parse_object (plainDocParser 100) [("a", .array [.number 1, .null, .number 2])] [] 0
      = some [("a", Cell.list [Cell.number 1, Cell.number 2])] ∧
    [Cell.number 1, Cell.number 2].length ≠ [JValue.number 1, .null, .number 2].length := by
  constructor
  · rfl
  · decide

/-- C13 (amended): a `null` object member yields a null field (when the
validator accepts the field), while a `null` array element adds nothing to the
list: the list built from a JSON array has one element for each element of the
array that is not `null`. Both hold for every document that is nested
shallowly enough not to reach the recursion cap. -/
theorem doc_parser_null (dp : doc_parser_members) :
    (∀ (key : String) (rest : List (String × JValue)) (path : List String) (d : Nat),
      dp.field_validator (path ++ [key]) = true →
      d + 2 * nestMembers ((key, JValue.null) :: rest) ≤ dp.max_recursion + 1 →
      ∃ more, parse_object dp ((key, JValue.null) :: rest) path d
        = some ((key, Cell.null) :: more)) ∧
    (∀ (xs : List JValue) (path : List String) (d : Nat),
      d + 2 * nest (.array xs) ≤ dp.max_recursion →
      ∃ elements, parse_impl dp (.array xs) path d = some [Cell.list elements] ∧
        elements.length = (xs.filter (fun x => !x.isNull)).length) := by
  constructor
  · intro key rest path d hval h
    have h' := h
    simp only [nestMembers] at h'
    have hrest : rest = [] ∨ d + 2 * nestMembers rest ≤ dp.max_recursion + 1 :=
      Or.inr (by omega)
    obtain ⟨more, hm⟩ := parse_object_some dp rest path d hrest
    have hd : ¬ d + 1 > dp.max_recursion := by
      simp only [nest] at h'
      omega
    exact ⟨more, by simp [parse_object, hval, parse_impl, hd, hm]⟩
  · intro xs path d h
    simp only [nest] at h
    have hd : ¬ d > dp.max_recursion := by omega
    obtain ⟨elements, he, hl⟩ := parse_array_some dp xs path (d + 1) (Or.inr (by omega))
    exact ⟨elements, by simp [parse_impl, hd, he], hl⟩

/-- Witness for C13 (amended): the array `[1,null,2]` at the depth of an
object member. -/
theorem doc_parser_null_witness :
    ∃ elements,
      parse_impl (plainDocParser 100) (.array [.number 1, .null, .number 2]) ["a"] 1
        = some [Cell.list elements] ∧
      elements.length
        = ([JValue.number 1, .null, .number 2].filter (fun x => !x.isNull)).length :=
  (doc_parser_null (plainDocParser 100)).2 [.number 1, .null, .number 2] ["a"] 1 (by decide)

theorem nest_deepArray (n : Nat) : nest (deepArray n) = n := by
  induction n with
  | zero => simp [deepArray, nest]
  | succ n ih =>
    simp only [deepArray, nest, nestList, ih]
    omega

/-- C15 (counterexample): with the cap `100`, the object `{"a": [[...[0]...]]}`
with 50 nested arrays has the nesting depth 51, which does not exceed the cap,
and `doc_parser` ends in `die`. -/
theorem parse_object_dies_below_cap :
    nest (.object [("a", deepArray 50)]) = 51 ∧
    parse_object (plainDocParser 100) [("a", deepArray 50)] [] 0 = none := by
  constructor
  · rw [show nest (.object [("a", deepArray 50)]) = max (1 + nest (deepArray 50)) 0 from rfl,
      nest_deepArray]
    rfl
  · rfl

/-- C15 (amended): every level of nesting costs two levels of `depth`
(`parse_impl` and `parse_array` or `parse_object` each add one), so a value
with `k` enclosing arrays and objects is parsed at depth `2 * k - 1`. When no
field is rejected by the validator, `doc_parser` ends in `die` if and only if
`2 * k - 1` exceeds `defaults::max_recursion` for the nesting depth `k` of the
document; and with every validator, a document with `2 * k - 1` at most the
cap is parsed without `die`. -/
theorem doc_parser_abort_iff (dp : doc_parser_members) (members : List (String × JValue)) :
    ((∀ path, dp.field_validator path = true) →
      (parse_object dp members [] 0 = none ↔
        2 * nest (.object members) > dp.max_recursion + 1)) ∧
    (2 * nest (.object members) ≤ dp.max_recursion + 1 →
      ∃ fields, parse_object dp members [] 0 = some fields) := by
  constructor
  · intro hv
    rw [parse_object_none_iff dp hv members [] 0]
    simp only [nest, Nat.zero_add]
    constructor
    · rintro ⟨_, h⟩; exact h
    · intro h
      refine ⟨?_, h⟩
      rintro rfl
      simp only [nestMembers] at h
      omega
  · intro h
    simp only [nest] at h
    exact parse_object_some dp members [] 0 (Or.inr (by omega))

/-- Witness for C15 (amended): with the cap `100`, the object with 49 nested
arrays (nesting depth 50) is parsed. -/
theorem doc_parser_abort_iff_witness :
    ∃ fields, parse_object (plainDocParser 100) [("a", deepArray 49)] [] 0 = some fields :=
  (doc_parser_abort_iff (plainDocParser 100) [("a", deepArray 49)]).2
    (by
      rw [show nest (.object [("a", deepArray 49)]) = max (1 + nest (deepArray 49)) 0 from rfl,
        nest_deepArray]
      decide)

end Json

namespace SortOp

/-! ### `sort_state` -/

theorem offsets_ne_nil (base : Nat) (ns : List Nat) : offsets base ns ≠ [] := by
  cases ns <;> simp [offsets]

theorem offsets_head (base : Nat) (ns : List Nat) : (offsets base ns)[0]? = some base := by
  cases ns <;> simp [offsets]

theorem offsets_getLastD (ns : List Nat) :
    ∀ base : Nat, (offsets base ns).getLastD 0 = base + ns.sum := by
  induction ns with
  | nil => intro base; simp [offsets]
  | cons n ns ih =>
    intro base
    have h := ih (base + n)
    cases hs : offsets (base + n) ns with
    | nil => exact absurd hs (offsets_ne_nil _ _)
    | cons x xs =>
      rw [hs] at h
      simp only [offsets, hs, List.sum_cons]
      simp only [List.getLastD_cons] at h ⊢
      rw [h]
      omega

theorem offsets_append (ns : List Nat) (n : Nat) :
    ∀ base : Nat, offsets base (ns ++ [n]) = offsets base ns ++ [base + ns.sum + n] := by
  induction ns with
  | nil => intro base; simp [offsets]
  | cons m ns ih =>
    intro base
    have h := ih (base + m)
    have e : base + m + ns.sum + n = base + (m + ns.sum) + n := by omega
    simp only [List.cons_append, offsets, List.sum_cons, List.append_eq]
    rw [h, e]

theorem offsets_ge (ns : List Nat) :
    ∀ (base k x : Nat), (offsets base ns)[k]? = some x → base ≤ x := by
  induction ns with
  | nil =>
    intro base k x h
    cases k with
    | zero => simp [offsets] at h; omega
    | succ k => simp [offsets] at h
  | cons n ns ih =>
    intro base k x h
    cases k with
    | zero => simp [offsets] at h; omega
    | succ k =>
      simp only [offsets, List.getElem?_cons_succ] at h
      have := ih (base + n) k x h
      omega

theorem consistent_init {σ α κ : Type} : Consistent (sort_state.init : sort_state σ α κ) := by
  simp [Consistent, sort_state.init, offsets]

theorem find_or_create_path_cache {σ α κ : Type} [DecidableEq σ] (env : Env σ α κ)
    (key : String) (st : sort_state σ α κ) (schema : σ) :
    (find_or_create_path env key st schema).state.cache_ = st.cache_ ∧
    (find_or_create_path env key st schema).state.offset_table_ = st.offset_table_ := by
  unfold find_or_create_path
  split
  · exact ⟨rfl, rfl⟩
  · simp only
    split
    · split <;> exact ⟨rfl, rfl⟩
    · split <;> exact ⟨rfl, rfl⟩

theorem try_add_consistent {σ α κ : Type} [DecidableEq σ] [Inhabited σ] (env : Env σ α κ)
    (key : String) (st : sort_state σ α κ) (slice : table_slice σ α) (h : Consistent st) :
    Consistent (try_add env key st slice).state := by
  obtain ⟨hc, ho⟩ := find_or_create_path_cache env key st slice.schema
  unfold try_add
  split
  · exact h
  · simp only
    split
    · simp only [Consistent, hc, ho]
      exact h
    · simp only [Consistent, hc, ho, List.map_append, List.map_cons, List.map_nil]
      unfold Consistent at h
      rw [offsets_append, h, offsets_getLastD]

theorem add_all_consistent {σ α κ : Type} [DecidableEq σ] [Inhabited σ] (env : Env σ α κ)
    (key : String) :
    ∀ (input : List (table_slice σ α)) (st : sort_state σ α κ),
      Consistent st → Consistent (add_all env key input st).state := by
  intro input
  induction input with
  | nil => intro st h; exact h
  | cons slice input ih =>
    intro st h
    exact ih _ (try_add_consistent env key st slice h)

end SortOp

namespace SortOp

theorem upper_bound_cons (x : Nat) (table : List Nat) (value : Nat) :
    upper_bound (x :: table) value = if x ≤ value then upper_bound table value + 1 else 0 := by
  unfold upper_bound
  by_cases h : x ≤ value <;> simp [List.takeWhile_cons, h]

/-- For a sort index inside the cached rows, `std::upper_bound` on the offset
table, followed by `std::prev`, finds the one cache entry whose rows contain
the index. -/
theorem locate {σ α : Type} :
    ∀ (cache : List (table_slice σ α)) (base i : Nat),
      base ≤ i → i < base + total_rows cache →
      ∃ (k off : Nat) (slice : table_slice σ α),
        upper_bound (offsets base (cache.map (fun s => s.rows.length))) i = k + 1 ∧
        (offsets base (cache.map (fun s => s.rows.length)))[k]? = some off ∧
        (offsets base (cache.map (fun s => s.rows.length)))[k + 1]?
          = some (off + slice.rows.length) ∧
        cache[k]? = some slice ∧ off ≤ i ∧ i < off + slice.rows.length ∧
        (∀ (k' o' n' : Nat),
          (offsets base (cache.map (fun s => s.rows.length)))[k']? = some o' →
          (offsets base (cache.map (fun s => s.rows.length)))[k' + 1]? = some n' →
          o' ≤ i → i < n' → k' = k) := by
  intro cache
  induction cache with
  | nil =>
    intro base i h1 h2
    simp [total_rows] at h2
    omega
  | cons s rest ih =>
    intro base i h1 h2
    simp only [total_rows, List.map_cons, List.sum_cons] at h2
    simp only [List.map_cons, offsets, upper_bound_cons, h1, if_true]
    by_cases hlt : i < base + s.rows.length
    · refine ⟨0, base, s, ?_, by simp, ?_, by simp, h1, hlt, ?_⟩
      · have hh := offsets_head (base + s.rows.length) (rest.map (fun s => s.rows.length))
        cases ho : offsets (base + s.rows.length) (rest.map (fun s => s.rows.length)) with
        | nil => exact absurd ho (offsets_ne_nil _ _)
        | cons x xs =>
          rw [ho] at hh
          simp only [List.getElem?_cons_zero, Option.some.injEq] at hh
          subst hh
          have hx : ¬ (base + s.rows.length ≤ i) := by omega
          simp [upper_bound_cons, hx]
      · simpa using offsets_head (base + s.rows.length) (rest.map (fun s => s.rows.length))
      · intro k' o' n' ho' _ hle _
        cases k' with
        | zero => rfl
        | succ k' =>
          simp only [List.getElem?_cons_succ] at ho'
          have := offsets_ge _ _ _ _ ho'
          omega
    · have hge : base + s.rows.length ≤ i := by omega
      obtain ⟨k, off, slice, hub, hoff, hnext, hcache, hle, hlt2, huniq⟩ :=
        ih (base + s.rows.length) i hge (by simp only [total_rows]; omega)
      refine ⟨k + 1, off, slice, by rw [hub], by simpa using hoff, by simpa using hnext,
        by simpa using hcache, hle, hlt2, ?_⟩
      intro k' o' n' ho' hn' hle' hlt'
      cases k' with
      | zero =>
        simp only [List.getElem?_cons_zero, Option.some.injEq] at ho'
        simp only [Nat.zero_add, List.getElem?_cons_succ] at hn'
        have hh := offsets_head (base + s.rows.length) (rest.map (fun s => s.rows.length))
        rw [hh] at hn'
        simp only [Option.some.injEq] at hn'
        omega
      | succ k' =>
        simp only [List.getElem?_cons_succ] at ho' hn'
        rw [huniq k' o' n' ho' hn' hle' hlt']

/-- In a consistent state, the iteration of `sorted()` for a sort index inside
the cached rows yields the one-row subslice of the cache entry that contains
the index. -/
theorem sorted_at_spec {σ α κ : Type} (st : sort_state σ α κ) (hst : Consistent st)
    (i : Nat) (hi : i < total_rows st.cache_) :
    ∃ (k off : Nat) (slice : table_slice σ α),
      st.offset_table_[k]? = some off ∧
      st.offset_table_[k + 1]? = some (off + slice.rows.length) ∧
      st.cache_[k]? = some slice ∧ off ≤ i ∧ i < off + slice.rows.length ∧
      (∀ (k' o' n' : Nat), st.offset_table_[k']? = some o' →
        st.offset_table_[k' + 1]? = some n' → o' ≤ i → i < n' → k' = k) ∧
      sorted_at st i = some (subslice slice (i - off) (i - off + 1)) ∧
      (subslice slice (i - off) (i - off + 1)).rows.length = 1 := by
  obtain ⟨k, off, slice, hub, hoff, hnext, hcache, hle, hlt, huniq⟩ :=
    locate st.cache_ 0 i (Nat.zero_le _) (by simpa using hi)
  unfold Consistent at hst
  rw [← hst] at hub hoff hnext huniq
  have hlen : (subslice slice (i - off) (i - off + 1)).rows.length = 1 := by
    simp only [subslice, List.length_take, List.length_drop]
    omega
  refine ⟨k, off, slice, hoff, hnext, hcache, hle, hlt, huniq, ?_, hlen⟩
  unfold sorted_at
  rw [hub]
  simp only [List.get?_eq_getElem?, hoff, hcache, hlen, if_true]

end SortOp

namespace SortOp

theorem sorted_loop_spec {σ α κ : Type} (st : sort_state σ α κ) (hst : Consistent st) :
    ∀ indices : List Nat, (∀ i ∈ indices, i < total_rows st.cache_) →
      ∃ out, sorted_loop st indices = some out ∧ out.length = indices.length ∧
        ∀ (j i : Nat), indices[j]? = some i → out[j]? = sorted_at st i := by
  intro indices
  induction indices with
  | nil => intro _; exact ⟨[], rfl, rfl, by simp⟩
  | cons i indices ih =>
    intro h
    obtain ⟨out, hout, hlen, hget⟩ := ih (fun x hx => h x (List.mem_cons_of_mem _ hx))
    obtain ⟨k, off, slice, _, _, _, _, _, _, hat, _⟩ :=
      sorted_at_spec st hst i (h i (List.mem_cons_self _ _))
    refine ⟨subslice slice (i - off) (i - off + 1) :: out, by simp [sorted_loop, hat, hout],
      by simp [hlen], ?_⟩
    intro j x hj
    cases j with
    | zero =>
      simp only [List.getElem?_cons_zero, Option.some.injEq] at hj
      subst hj
      simp [hat]
    | succ j =>
      simp only [List.getElem?_cons_succ] at hj ⊢
      exact hget j x hj

/-- The sort scenario of the specification: events with `t = 3, 1, 2` sorted
in ascending order are yielded as single-row slices in the order `1, 2, 3`. -/
theorem sorted_example :
    sorted sampleEnv (add_all sampleEnv "t" sampleInput sort_state.init).state
      = some [⟨"B", [1]⟩, ⟨"A", [2]⟩, ⟨"A", [3]⟩] := by
  rfl

/-- C16: after any sequence of `try_add` calls, if the sort indices lie in
`[0, total cached rows)`, then `sorted()` yields one slice per sort index, in
the order of the sort indices, and the slice for the index `i` is the one-row
subslice at row `i - offset_table[k]` of `cache[k]`, where `k` is the unique
position with `offset_table[k] <= i < offset_table[k+1]`. -/
theorem sorted_spec {σ α κ : Type} [DecidableEq σ] [Inhabited σ] (env : Env σ α κ)
    (key : String) (input : List (table_slice σ α)) (st : sort_state σ α κ)
    (hst : st = (add_all env key input sort_state.init).state)
    (hidx : ∀ i ∈ env.sort_indices st.sort_keys_, i < total_rows st.cache_) :
    ∃ out, sorted env st = some out ∧
      out.length = (env.sort_indices st.sort_keys_).length ∧
      ∀ (j i : Nat), (env.sort_indices st.sort_keys_)[j]? = some i →
        ∃ (k off : Nat) (slice : table_slice σ α),
          st.offset_table_[k]? = some off ∧
          st.offset_table_[k + 1]? = some (off + slice.rows.length) ∧
          st.cache_[k]? = some slice ∧ off ≤ i ∧ i < off + slice.rows.length ∧
          (∀ (k' o' n' : Nat), st.offset_table_[k']? = some o' →
            st.offset_table_[k' + 1]? = some n' → o' ≤ i → i < n' → k' = k) ∧
          out[j]? = some (subslice slice (i - off) (i - off + 1)) ∧
          (subslice slice (i - off) (i - off + 1)).rows.length = 1 := by
  have hcons : Consistent st := by
    rw [hst]
    exact add_all_consistent env key input _ consistent_init
  obtain ⟨out, hout, hlen, hget⟩ :=
    sorted_loop_spec st hcons (env.sort_indices st.sort_keys_) hidx
  have hmain : ∀ (j i : Nat), (env.sort_indices st.sort_keys_)[j]? = some i →
      ∃ (k off : Nat) (slice : table_slice σ α),
        st.offset_table_[k]? = some off ∧
        st.offset_table_[k + 1]? = some (off + slice.rows.length) ∧
        st.cache_[k]? = some slice ∧ off ≤ i ∧ i < off + slice.rows.length ∧
        (∀ (k' o' n' : Nat), st.offset_table_[k']? = some o' →
          st.offset_table_[k' + 1]? = some n' → o' ≤ i → i < n' → k' = k) ∧
        out[j]? = some (subslice slice (i - off) (i - off + 1)) ∧
        (subslice slice (i - off) (i - off + 1)).rows.length = 1 := by
    intro j i hj
    have hi : i < total_rows st.cache_ := hidx i (List.getElem?_mem hj)
    obtain ⟨k, off, slice, h1, h2, h3, h4, h5, h6, hat, h7⟩ := sorted_at_spec st hcons i hi
    exact ⟨k, off, slice, h1, h2, h3, h4, h5, h6, by rw [hget j i hj, hat], h7⟩
  by_cases hempty : st.cache_.length = 0
  · have hnil : env.sort_indices st.sort_keys_ = [] := by
      cases hs : env.sort_indices st.sort_keys_ with
      | nil => rfl
      | cons i rest =>
        have := hidx i (by rw [hs]; exact List.mem_cons_self _ _)
        have hc : st.cache_ = [] := List.length_eq_zero.mp hempty
        simp [hc, total_rows] at this
    refine ⟨[], by simp [sorted, hempty], by simp [hnil], ?_⟩
    intro j i hj
    rw [hnil] at hj
    simp at hj
  · refine ⟨out, by simp [sorted, hempty, hout], hlen, hmain⟩

/-- Witness for C16: the sort scenario, with the sort indices `1, 2, 0`. -/
theorem sorted_spec_witness :
    ∃ out, sorted sampleEnv (add_all sampleEnv "t" sampleInput sort_state.init).state
        = some out ∧
      out.length = (sampleEnv.sort_indices
        (add_all sampleEnv "t" sampleInput sort_state.init).state.sort_keys_).length := by
  obtain ⟨out, h1, h2, _⟩ := sorted_spec sampleEnv "t" sampleInput
    (add_all sampleEnv "t" sampleInput sort_state.init).state rfl (by decide)
  exact ⟨out, h1, h2⟩

end SortOp

namespace SortOp

/-! ### The rebatching loop -/

theorem split_all {σ α : Type} :
    ∀ (slices : List (table_slice σ α)) (n : Nat), total_rows slices ≤ n →
      split slices n = (slices, []) := by
  intro slices
  induction slices with
  | nil => intro n _; rfl
  | cons s rest ih =>
    intro n h
    simp only [total_rows, List.map_cons, List.sum_cons] at h
    have hs : s.rows.length ≤ n := by omega
    have hr := ih (n - s.rows.length) (by simp only [total_rows]; omega)
    simp [split, hs, hr]

theorem total_rows_single {σ α : Type} (events : List (σ × α)) :
    total_rows (events.map single) = events.length := by
  induction events with
  | nil => rfl
  | cons e rest ih =>
    simp only [total_rows, List.map_cons, List.sum_cons, List.length_cons] at ih ⊢
    rw [ih]
    simp [single]
    omega

theorem concatenate_single_rows {σ α : Type} [Inhabited σ] (events : List (σ × α)) :
    (concatenate (events.map single)).rows = events.map (fun e => e.2) := by
  cases events with
  | nil => rfl
  | cons e rest =>
    simp only [List.map_cons, concatenate, single]
    induction rest with
    | nil => simp
    | cons x xs ih => simp [List.flatMap_cons, single] at ih ⊢; exact ih

theorem concatenate_single_schema {σ α : Type} [Inhabited σ] (e : σ × α)
    (events : List (σ × α)) : (concatenate ((e :: events).map single)).schema = e.1 := by
  simp [concatenate, single]

theorem sub64_self (a : Nat) (h : a < 2 ^ 64) : sub64 a a = 0 := by
  unfold sub64
  rw [Nat.mod_eq_of_lt h]
  have : a + 2 ^ 64 - a = 2 ^ 64 := by omega
  rw [this]
  simp

theorem add64_one (a : Nat) (h : a + 1 < 2 ^ 64) : add64 a 1 = a + 1 := by
  unfold add64
  exact Nat.mod_eq_of_lt h

theorem getLast?_map_single {σ α : Type} (buf : List (σ × α)) :
    (buf.map single).getLast? = buf.getLast?.map single := by
  simp [List.getLast?_map]

/-- The loop that runs at a change of schema yields the buffered events as
one batch when they are at most `size`. -/
theorem flush_all_step {σ α : Type} [Inhabited σ] (size fuel : Nat) (h64 : size < 2 ^ 64)
    (buf : List (σ × α)) (hne : buf ≠ []) (hlen : buf.length ≤ size) :
    flush_all size (fuel + 1) (buf.map single) buf.length
      = some ([concatenate (buf.map single)], 0) := by
  cases buf with
  | nil => exact absurd rfl hne
  | cons b bs =>
    have hsplit := split_all ((b :: bs).map single) size
      (by rw [total_rows_single]; exact hlen)
    have hrows : (concatenate ((b :: bs).map single)).rows.length = (b :: bs).length := by
      rw [concatenate_single_rows]; simp
    have hsub : sub64 (b :: bs).length (b :: bs).length = 0 := sub64_self _ (by omega)
    simp only [List.map_cons] at hsplit hrows ⊢
    simp only [flush_all, hsplit, hrows, hsub]

/-- The loop that runs when the buffer is full yields nothing for fewer than
`size` buffered events and one batch for exactly `size`. -/
theorem flush_full_step {σ α : Type} [Inhabited σ] (size fuel : Nat) (hsize : 0 < size)
    (h64 : size < 2 ^ 64) (buf : List (σ × α)) (hlen : buf.length ≤ size) :
    flush_full size (fuel + 1) (buf.map single) buf.length
      = if buf.length < size then some ([], buf.map single, buf.length)
        else some ([concatenate (buf.map single)], [], 0) := by
  by_cases hlt : buf.length < size
  · rw [if_pos hlt]
    unfold flush_full
    simp [hlt]
  · rw [if_neg hlt]
    have hsplit := split_all (buf.map single) size (by rw [total_rows_single]; exact hlen)
    have hrows : (concatenate (buf.map single)).rows.length = buf.length := by
      rw [concatenate_single_rows]; simp
    have hsub : sub64 buf.length buf.length = 0 := sub64_self _ (by omega)
    have hdone : flush_full size fuel ([] : List (table_slice σ α)) 0 = some ([], [], 0) := by
      unfold flush_full
      simp [hsize]
    rw [flush_full]
    simp only [hlt, if_false, hsplit, hrows, hsub, hdone]

end SortOp

namespace SortOp

/-- On single-row slices the rebatching loop yields, block by block, the
concatenation of the blocks of `blocks`. -/
theorem rebatch_eq_blocks {σ α : Type} [DecidableEq σ] [Inhabited σ] (size fuel : Nat)
    (hsize : 0 < size) (h64 : size < 2 ^ 64) :
    ∀ (events buf : List (σ × α)), buf.length < size →
      rebatch size (fuel + 1) (events.map single) (buf.map single) buf.length
        = some ((blocks size buf events).map (fun b => concatenate (b.map single))) := by
  intro events
  induction events with
  | nil =>
    intro buf _
    cases buf with
    | nil => simp [rebatch, blocks]
    | cons b bs => simp [rebatch, blocks]
  | cons e rest ih =>
    intro buf hbuf
    simp only [List.map_cons, rebatch, blocks, getLast?_map_single]
    cases hlast : buf.getLast? with
    | none =>
      have hnil : buf = [] := by
        cases buf with
        | nil => rfl
        | cons b bs => simp [List.getLast?_cons] at hlast
      subst hnil
      have hstep := flush_full_step size fuel hsize h64 [e] (by simp; omega)
      simp only [List.map_cons, List.map_nil, List.length_singleton] at hstep
      have hadd : add64 0 (single e).rows.length = 1 := by simp [add64, single]
      simp only [Option.map_none', Bool.false_eq_true, if_false, List.length_nil, hadd,
        List.map_nil, List.nil_append, hstep, List.length_singleton, ge_iff_le]
      by_cases h1 : 1 < size
      · have hle : ¬ size ≤ 1 := by omega
        have ih1 := ih [e] (by simpa using h1)
        simp only [List.map_cons, List.map_nil, List.length_singleton] at ih1
        simp [h1, hle, ih1]
      · have hle : size ≤ 1 := by omega
        have ih1 := ih [] (by simpa using hsize)
        simp only [List.map_nil, List.length_nil] at ih1
        simp [h1, hle, ih1]
    | some back =>
      have hne : buf ≠ [] := by
        rintro rfl
        simp at hlast
      simp only [Option.map_some', single]
      by_cases hch : back.1 ≠ e.1
      · have hfa := flush_all_step size fuel h64 buf hne (by omega)
        have hstep := flush_full_step size fuel hsize h64 [e] (by simp; omega)
        simp only [List.map_cons, List.map_nil, List.length_singleton] at hstep
        have hadd : add64 0 1 = 1 := by simp [add64]
        simp only [single] at hstep hfa
        simp only [hch, ne_eq, not_false_eq_true, decide_True, if_true, hfa,
          List.nil_append, List.length_singleton, hadd, hstep, ge_iff_le]
        by_cases h1 : 1 < size
        · have hle : ¬ size ≤ 1 := by omega
          have ih1 := ih [e] (by simpa using h1)
          simp only [List.map_cons, List.map_nil, List.length_singleton, single] at ih1
          simp [h1, hle, ih1, single]
        · have hle : size ≤ 1 := by omega
          have ih1 := ih [] (by simpa using hsize)
          simp only [List.map_nil, List.length_nil] at ih1
          simp [h1, hle, ih1, single]
      · have heq : back.1 = e.1 := by
          by_contra h
          exact hch h
        have hstep := flush_full_step size fuel hsize h64 (buf ++ [e])
          (by simp; omega)
        have hadd : add64 buf.length (single e).rows.length = buf.length + 1 := by
          simp only [single, List.length_singleton]
          exact add64_one _ (by omega)
        simp only [List.map_append, List.map_cons, List.map_nil, List.length_append,
          List.length_singleton, single] at hstep hadd
        simp only [heq, ne_eq, not_true_eq_false, decide_False, Bool.false_eq_true, if_false,
          hadd, hstep, List.nil_append, List.length_append, List.length_singleton, ge_iff_le]
        by_cases h1 : buf.length + 1 < size
        · have hle : ¬ size ≤ buf.length + 1 := by omega
          have ih1 := ih (buf ++ [e]) (by simpa using h1)
          simp only [List.map_append, List.map_cons, List.map_nil, List.length_append,
            List.length_singleton, single] at ih1
          simp [h1, hle, ih1, single]
        · have hle : size ≤ buf.length + 1 := by omega
          have ih1 := ih [] (by simpa using hsize)
          simp only [List.map_nil, List.length_nil] at ih1
          simp [h1, hle, ih1, single]

end SortOp

namespace SortOp

theorem blocks_cons_nil {σ α : Type} [DecidableEq σ] (size : Nat) (e : σ × α)
    (rest : List (σ × α)) :
    blocks size [] (e :: rest)
      = if size ≤ 1 then [e] :: blocks size [] rest else blocks size [e] rest := by
  simp [blocks]

theorem blocks_cons_same {σ α : Type} [DecidableEq σ] (size : Nat) (buf : List (σ × α))
    (back e : σ × α) (rest : List (σ × α)) (hlast : buf.getLast? = some back)
    (hsame : back.1 = e.1) :
    blocks size buf (e :: rest)
      = if size ≤ (buf ++ [e]).length then (buf ++ [e]) :: blocks size [] rest
        else blocks size (buf ++ [e]) rest := by
  simp [blocks, hlast, hsame]

theorem blocks_cons_changed {σ α : Type} [DecidableEq σ] (size : Nat) (buf : List (σ × α))
    (back e : σ × α) (rest : List (σ × α)) (hlast : buf.getLast? = some back)
    (hch : back.1 ≠ e.1) :
    blocks size buf (e :: rest) = buf :: blocks size [] (e :: rest) := by
  by_cases h1 : size ≤ 1 <;> simp [blocks, hlast, hch, h1]

theorem blocks_nil_right {σ α : Type} [DecidableEq σ] (size : Nat) (buf : List (σ × α))
    (hne : buf ≠ []) : blocks size buf [] = [buf] := by
  cases buf with
  | nil => exact absurd rfl hne
  | cons b bs => simp [blocks]

/-- The blocks, put together, are the buffered events followed by the input. -/
theorem blocks_flatten {σ α : Type} [DecidableEq σ] (size : Nat) :
    ∀ (events buf : List (σ × α)), (blocks size buf events).flatten = buf ++ events := by
  intro events
  induction events with
  | nil =>
    intro buf
    cases buf <;> simp [blocks]
  | cons e rest ih =>
    have hnil : (blocks size [] (e :: rest)).flatten = e :: rest := by
      rw [blocks_cons_nil]
      split
      · simp [ih]
      · simp [ih]
    intro buf
    cases hlast : buf.getLast? with
    | none =>
      have hb : buf = [] := List.getLast?_eq_none_iff.mp hlast
      subst hb
      simpa using hnil
    | some back =>
      by_cases hsame : back.1 = e.1
      · rw [blocks_cons_same size buf back e rest hlast hsame]
        split
        · simp [ih]
        · simp [ih]
      · rw [blocks_cons_changed size buf back e rest hlast hsame]
        simp [hnil]

theorem sameSchema_append_singleton {σ α : Type} (buf : List (σ × α)) (back e : σ × α)
    (hs : SameSchema buf) (hlast : buf.getLast? = some back) (hsame : back.1 = e.1) :
    SameSchema (buf ++ [e]) := by
  have hback : back ∈ buf := List.mem_of_getLast?_eq_some hlast
  have key : ∀ x ∈ buf ++ [e], x.1 = e.1 := by
    intro x hx
    rcases List.mem_append.mp hx with h | h
    · rw [hs x h back hback, hsame]
    · rw [List.mem_singleton.mp h]
  intro x hx y hy
  rw [key x hx, key y hy]

theorem sameSchema_singleton {σ α : Type} (e : σ × α) : SameSchema [e] := by
  intro x hx y hy
  rw [List.mem_singleton.mp hx, List.mem_singleton.mp hy]

/-- Every block is non-empty, has at most `size` events, and holds events of
one schema. -/
theorem blocks_wellformed {σ α : Type} [DecidableEq σ] (size : Nat) (hsize : 0 < size) :
    ∀ (events buf : List (σ × α)), buf.length < size → SameSchema buf →
      ∀ b ∈ blocks size buf events, b ≠ [] ∧ b.length ≤ size ∧ SameSchema b := by
  intro events
  induction events with
  | nil =>
    intro buf hlen hs b hb
    cases buf with
    | nil => simp [blocks] at hb
    | cons x xs =>
      simp only [blocks, List.isEmpty_cons, Bool.false_eq_true, if_false,
        List.mem_singleton] at hb
      subst hb
      exact ⟨List.cons_ne_nil _ _, by omega, hs⟩
  | cons e rest ih =>
    have hnil : ∀ b ∈ blocks size [] (e :: rest), b ≠ [] ∧ b.length ≤ size ∧ SameSchema b := by
      intro b hb
      rw [blocks_cons_nil] at hb
      split at hb
      · rcases List.mem_cons.mp hb with h | h
        · subst h
          exact ⟨List.cons_ne_nil _ _, by simp; omega, sameSchema_singleton e⟩
        · exact ih [] (by simpa using hsize) (by intro x hx; simp at hx) b h
      · exact ih [e] (by simp; omega) (sameSchema_singleton e) b hb
    intro buf hlen hs b hb
    cases hlast : buf.getLast? with
    | none =>
      have hbuf : buf = [] := List.getLast?_eq_none_iff.mp hlast
      subst hbuf
      exact hnil b hb
    | some back =>
      by_cases hsame : back.1 = e.1
      · rw [blocks_cons_same size buf back e rest hlast hsame] at hb
        have hs2 := sameSchema_append_singleton buf back e hs hlast hsame
        split at hb
        · rcases List.mem_cons.mp hb with h | h
          · subst h
            exact ⟨by simp, by simp; omega, hs2⟩
          · exact ih [] (by simpa using hsize) (by intro x hx; simp at hx) b h
        · rename_i hfull
          exact ih (buf ++ [e]) (by omega) hs2 b hb
      · rw [blocks_cons_changed size buf back e rest hlast hsame] at hb
        rcases List.mem_cons.mp hb with h | h
        · subst h
          have hne : b ≠ [] := by
            rintro rfl
            simp at hlast
          exact ⟨hne, by omega, hs⟩
        · exact hnil b h

end SortOp

namespace SortOp

/-- At a change of schema the blocks of the events before it and the blocks
of the events from it on are independent. -/
theorem blocks_append_of_change {σ α : Type} [DecidableEq σ] (size : Nat) (e : σ × α)
    (tail : List (σ × α)) :
    ∀ (a buf : List (σ × α)),
      (∀ z, (buf ++ a).getLast? = some z → z.1 ≠ e.1) →
      blocks size buf (a ++ e :: tail) = blocks size buf a ++ blocks size [] (e :: tail) := by
  intro a
  induction a with
  | nil =>
    intro buf h
    simp only [List.append_nil, List.nil_append] at h ⊢
    cases hlast : buf.getLast? with
    | none =>
      have hb : buf = [] := List.getLast?_eq_none_iff.mp hlast
      subst hb
      simp [blocks]
    | some back =>
      have hne : buf ≠ [] := by
        rintro rfl
        simp at hlast
      rw [blocks_cons_changed size buf back e tail hlast (h back hlast),
        blocks_nil_right size buf hne]
      rfl
  | cons x a ih =>
    have hnil : (∀ z, (x :: a).getLast? = some z → z.1 ≠ e.1) →
        blocks size [] (x :: a ++ e :: tail)
          = blocks size [] (x :: a) ++ blocks size [] (e :: tail) := by
      intro h
      rw [List.cons_append, blocks_cons_nil, blocks_cons_nil]
      split
      · rw [ih [] (by
          intro z hz
          simp only [List.nil_append] at hz
          apply h z
          cases a with
          | nil => simp at hz
          | cons y ys => simpa using hz)]
        rfl
      · rw [ih [x] (by simpa using h)]
    intro buf h
    cases hlast : buf.getLast? with
    | none =>
      have hb : buf = [] := List.getLast?_eq_none_iff.mp hlast
      subst hb
      exact hnil (by simpa using h)
    | some back =>
      have hxa : ∀ z, (x :: a).getLast? = some z → z.1 ≠ e.1 := by
        intro z hz
        apply h z
        rw [List.getLast?_append, hz]
        rfl
      by_cases hsame : back.1 = x.1
      · rw [List.cons_append, blocks_cons_same size buf back x _ hlast hsame,
          blocks_cons_same size buf back x _ hlast hsame]
        split
        · rw [ih [] (by
            intro z hz
            simp only [List.nil_append] at hz
            apply hxa z
            cases a with
            | nil => simp at hz
            | cons y ys => simpa using hz)]
          rfl
        · rw [ih (buf ++ [x]) (by
            intro z hz
            apply h z
            simpa using hz)]
      · rw [List.cons_append, blocks_cons_changed size buf back x _ hlast hsame,
          blocks_cons_changed size buf back x _ hlast hsame]
        have := hnil hxa
        rw [List.cons_append] at this
        rw [this]
        rfl

/-- Events of one schema that are fewer than `size` form one block. -/
theorem blocks_run {σ α : Type} [DecidableEq σ] (size : Nat) :
    ∀ (run buf : List (σ × α)), SameSchema (buf ++ run) → (buf ++ run).length < size →
      buf ++ run ≠ [] → blocks size buf run = [buf ++ run] := by
  intro run
  induction run with
  | nil =>
    intro buf _ _ hne
    simp only [List.append_nil] at hne ⊢
    exact blocks_nil_right size buf hne
  | cons r run ih =>
    intro buf hs hlen _
    have hlen' : (buf ++ [r] ++ run).length < size := by simpa using hlen
    have hs' : SameSchema (buf ++ [r] ++ run) := by simpa using hs
    have hnot : ¬ size ≤ (buf ++ [r]).length := by
      simp only [List.length_append, List.length_singleton] at hlen' ⊢
      omega
    cases hlast : buf.getLast? with
    | none =>
      have hb : buf = [] := List.getLast?_eq_none_iff.mp hlast
      subst hb
      have h1 : ¬ size ≤ 1 := by simpa using hnot
      rw [blocks_cons_nil, if_neg h1, ih [r] (by simpa using hs') (by simpa using hlen')
        (by simp)]
      simp
    | some back =>
      have hback : back ∈ buf := List.mem_of_getLast?_eq_some hlast
      have hsame : back.1 = r.1 :=
        hs back (List.mem_append_left _ hback) r
          (List.mem_append_right _ (List.mem_cons_self _ _))
      rw [blocks_cons_same size buf back r run hlast hsame, if_neg hnot,
        ih (buf ++ [r]) hs' hlen' (by simp)]
      simp

/-- A maximal run of events of one schema that is shorter than `size` is one
of the blocks. -/
theorem blocks_maximal_run {σ α : Type} [DecidableEq σ] (size : Nat)
    (pre run post : List (σ × α)) (sch : σ) (hne : run ≠ []) (hlen : run.length < size)
    (hrun : ∀ e ∈ run, e.1 = sch)
    (hpre : ∀ z, pre.getLast? = some z → z.1 ≠ sch)
    (hpost : ∀ z, post.head? = some z → z.1 ≠ sch) :
    run ∈ blocks size [] (pre ++ run ++ post) := by
  have hsame : SameSchema ([] ++ run) := by
    intro x hx y hy
    simp only [List.nil_append] at hx hy
    rw [hrun x hx, hrun y hy]
  have hblock : blocks size [] run = [run] := by
    have := blocks_run size run [] hsame (by simpa using hlen) (by simpa using hne)
    simpa using this
  obtain ⟨r, run', rfl⟩ := List.exists_cons_of_ne_nil hne
  have hr : r.1 = sch := hrun r (List.mem_cons_self _ _)
  have h1 : blocks size [] (pre ++ (r :: run') ++ post)
      = blocks size [] pre ++ blocks size [] (r :: run' ++ post) := by
    have := blocks_append_of_change size r (run' ++ post) pre []
      (by
        intro z hz
        rw [hr]
        exact hpre z (by simpa using hz))
    simpa [List.append_assoc] using this
  rw [h1]
  apply List.mem_append_right
  cases post with
  | nil =>
    simp only [List.append_nil]
    rw [hblock]
    exact List.mem_singleton_self _
  | cons q post' =>
    have hq : q.1 ≠ sch := hpost q rfl
    have h2 := blocks_append_of_change size q post' (r :: run') []
      (by
        intro z hz
        simp only [List.nil_append] at hz
        have hz' : z ∈ r :: run' := List.mem_of_getLast?_eq_some hz
        rw [hrun z hz']
        exact fun h => hq h.symm)
    rw [h2, hblock]
    simp

end SortOp

namespace SortOp

theorem flatMap_rows_blocks {σ α : Type} [Inhabited σ] (bs : List (List (σ × α))) :
    (bs.map (fun b => concatenate (b.map single))).flatMap (fun s => s.rows)
      = bs.flatten.map (fun e => e.2) := by
  induction bs with
  | nil => rfl
  | cons b bs ih =>
    simp only [List.map_cons, List.flatMap_cons, List.flatten_cons, List.map_append, ih,
      concatenate_single_rows]

/-- C17: for `0 < table_slice_size < 2^64` and one unit of fuel or more, the
rebatching loop applied to single-row slices (the events, each with its
schema) yields the batches of a sequence of blocks of the events such that:
the blocks put together are the events, so the rows of the batches in emission
order are the input rows in the same order; every block is non-empty, has at
most `table_slice_size` events and holds events of a single schema; and a
maximal run of adjacent events of one schema that is shorter than
`table_slice_size` is one of the blocks, that is, it is emitted as one
batch. -/
theorem rebatch_spec {σ α : Type} [DecidableEq σ] [Inhabited σ] (size fuel : Nat)
    (hsize : 0 < size) (h64 : size < 2 ^ 64) (events : List (σ × α)) :
    ∃ bs : List (List (σ × α)),
      rebatch size (fuel + 1) (events.map single) [] 0
        = some (bs.map (fun b => concatenate (b.map single))) ∧
      bs.flatten = events ∧
      (bs.map (fun b => concatenate (b.map single))).flatMap (fun s => s.rows)
        = events.map (fun e => e.2) ∧
      (∀ b ∈ bs, b ≠ [] ∧ b.length ≤ size ∧ SameSchema b) ∧
      (∀ (pre run post : List (σ × α)) (sch : σ),
        events = pre ++ run ++ post → run ≠ [] → run.length < size →
        (∀ e ∈ run, e.1 = sch) →
        (∀ z, pre.getLast? = some z → z.1 ≠ sch) →
        (∀ z, post.head? = some z → z.1 ≠ sch) →
        run ∈ bs) := by
  have hflat : (blocks size [] events).flatten = events := by
    simpa using blocks_flatten size events []
  refine ⟨blocks size [] events, ?_, hflat, ?_, ?_, ?_⟩
  · have := rebatch_eq_blocks size fuel hsize h64 events [] (by simpa using hsize)
    simpa using this
  · rw [flatMap_rows_blocks, hflat]
  · exact blocks_wellformed size hsize events [] (by simpa using hsize)
      (by intro x hx; simp at hx)
  · intro pre run post sch hev hne hlen hrun hpre hpost
    rw [hev]
    exact blocks_maximal_run size pre run post sch hne hlen hrun hpre hpost

/-- Witness for C17: the sorted events of the scenario, `t = 1` of schema `B`
and `t = 2, 3` of schema `A`, give one batch of one row and one batch of two
rows. -/
theorem rebatch_spec_witness :
    ∃ bs : List (List (String × Int)),
      rebatch 65536 1 ([("B", 1), ("A", 2), ("A", 3)].map single) [] 0
        = some (bs.map (fun b => concatenate (b.map single))) ∧
      bs.flatten = [("B", 1), ("A", 2), ("A", 3)] ∧
      [("A", (2 : Int)), ("A", 3)] ∈ bs := by
  obtain ⟨bs, h1, h2, _, _, h5⟩ :=
    rebatch_spec 65536 0 (by decide) (by decide) [("B", (1 : Int)), ("A", 2), ("A", 3)]
  exact ⟨bs, h1, h2,
    h5 [("B", 1)] [("A", 2), ("A", 3)] [] "A" rfl (by simp) (by decide)
      (by
        intro e he
        simp only [List.mem_cons, List.mem_singleton, List.not_mem_nil, or_false] at he
        rcases he with rfl | rfl <;> rfl)
      (by
        intro z hz
        simp only [List.getLast?_singleton, Option.some.injEq] at hz
        subst hz
        decide)
      (by intro z hz; simp at hz)⟩

end SortOp

namespace EvalBinary

/-! ### `EvalBinOp::eval` and the kernels -/

theorem eval_loop_cells {L R Res : Type} (both_null : Option Res)
    (kernel : L → R → Except String Res) :
    ∀ (rows : List (Option L × Option R)) (warnings : List String),
      (eval_loop both_null kernel rows warnings).1 = rows.map (cell_of both_null kernel) := by
  intro rows
  induction rows with
  | nil => intro w; rfl
  | cons row rows ih =>
    intro w
    obtain ⟨ln, rn⟩ := row
    cases ln with
    | none => cases rn <;> simp [eval_loop, cell_of, ih]
    | some lv =>
      cases rn with
      | none => simp [eval_loop, cell_of, ih]
      | some rv =>
        cases hk : kernel lv rv <;> simp [eval_loop, cell_of, ih, hk]

theorem eval_loop_warnings_mono {L R Res : Type} (both_null : Option Res)
    (kernel : L → R → Except String Res) :
    ∀ (rows : List (Option L × Option R)) (warnings : List String) (e : String),
      e ∈ warnings → e ∈ (eval_loop both_null kernel rows warnings).2 := by
  intro rows
  induction rows with
  | nil => intro w e h; exact h
  | cons row rows ih =>
    intro w e h
    obtain ⟨ln, rn⟩ := row
    cases ln with
    | none => cases rn <;> simp only [eval_loop] <;> exact ih w e h
    | some lv =>
      cases rn with
      | none => simp only [eval_loop]; exact ih w e h
      | some rv =>
        cases hk : kernel lv rv with
        | ok res => simp only [eval_loop, hk]; exact ih w e h
        | error e' =>
          simp only [eval_loop, hk]
          apply ih
          split
          · exact h
          · exact List.mem_append_left _ h

/-- The error of a row whose kernel fails is among the emitted warnings. -/
theorem eval_loop_warns {L R Res : Type} (both_null : Option Res)
    (kernel : L → R → Except String Res) :
    ∀ (rows : List (Option L × Option R)) (warnings : List String) (lv : L) (rv : R)
      (e : String), (some lv, some rv) ∈ rows → kernel lv rv = .error e →
      e ∈ (eval_loop both_null kernel rows warnings).2 := by
  intro rows
  induction rows with
  | nil => intro w lv rv e h; simp at h
  | cons row rows ih =>
    intro w lv rv e hmem hk
    rcases List.mem_cons.mp hmem with h | h
    · subst h
      simp only [eval_loop, hk]
      apply eval_loop_warnings_mono
      split
      · assumption
      · exact List.mem_append_right _ (List.mem_singleton_self _)
    · obtain ⟨ln, rn⟩ := row
      cases ln with
      | none => cases rn <;> simp only [eval_loop] <;> exact ih w lv rv e h hk
      | some lv' =>
        cases rn with
        | none => simp only [eval_loop]; exact ih w lv rv e h hk
        | some rv' =>
          cases hk' : kernel lv' rv' with
          | ok res => simp only [eval_loop, hk']; exact ih w lv rv e h hk
          | error e' => simp only [eval_loop, hk']; exact ih _ lv rv e h hk

/-- Every emitted warning is the error of the kernel on some row. -/
theorem eval_loop_warnings_sound {L R Res : Type} (both_null : Option Res)
    (kernel : L → R → Except String Res) :
    ∀ (rows : List (Option L × Option R)) (warnings : List String) (e : String),
      e ∈ (eval_loop both_null kernel rows warnings).2 →
      e ∈ warnings ∨ ∃ lv rv, (some lv, some rv) ∈ rows ∧ kernel lv rv = .error e := by
  intro rows
  induction rows with
  | nil => intro w e h; exact Or.inl h
  | cons row rows ih =>
    intro w e h
    have lift : (e ∈ w ∨ ∃ lv rv, (some lv, some rv) ∈ rows ∧ kernel lv rv = .error e) →
        e ∈ w ∨ ∃ lv rv, (some lv, some rv) ∈ row :: rows ∧ kernel lv rv = .error e := by
      rintro (h | ⟨lv, rv, hm, hk⟩)
      · exact Or.inl h
      · exact Or.inr ⟨lv, rv, List.mem_cons_of_mem _ hm, hk⟩
    obtain ⟨ln, rn⟩ := row
    cases ln with
    | none => cases rn <;> simp only [eval_loop] at h <;> exact lift (ih w e h)
    | some lv =>
      cases rn with
      | none => simp only [eval_loop] at h; exact lift (ih w e h)
      | some rv =>
        cases hk : kernel lv rv with
        | ok res => simp only [eval_loop, hk] at h; exact lift (ih w e h)
        | error e' =>
          simp only [eval_loop, hk] at h
          rcases ih _ e h with h1 | ⟨lv', rv', hm, hk'⟩
          · split at h1
            · exact Or.inl h1
            · rcases List.mem_append.mp h1 with h2 | h2
              · exact Or.inl h2
              · rw [List.mem_singleton.mp h2]
                exact Or.inr ⟨lv, rv, List.mem_cons_self _ _, hk⟩
          · exact Or.inr ⟨lv', rv', List.mem_cons_of_mem _ hm, hk'⟩

end EvalBinary

namespace EvalBinary

theorem div_kernel_error_iff {F : Type} (ops : DoubleOps F) (l r : Number F) (e : String) :
    div_kernel ops l r = .error e ↔ (is_zero ops r = true ∧ e = "division by zero") := by
  unfold div_kernel
  by_cases h : is_zero ops r = true
  · simp only [h, if_true, true_and]
    constructor
    · intro h1; injection h1 with h2; exact h2.symm
    · intro h1; rw [h1]
  · simp [h]

theorem div_kernel_ok {F : Type} (ops : DoubleOps F) (l r : Number F)
    (h : is_zero ops r = false) :
    div_kernel ops l r = .ok (ops.div (to_double ops l) (to_double ops r)) := by
  simp [div_kernel, h]

theorem zip_getElem?_some {A B : Type} (xs : List A) (ys : List B) (i : Nat) (a : A) (b : B)
    (ha : xs[i]? = some a) (hb : ys[i]? = some b) : (xs.zip ys)[i]? = some (a, b) := by
  induction xs generalizing ys i with
  | nil => simp at ha
  | cons x xs ih =>
    cases ys with
    | nil => simp at hb
    | cons y ys =>
      cases i with
      | zero =>
        simp only [List.getElem?_cons_zero, Option.some.injEq] at ha hb
        simp [ha, hb]
      | succ i =>
        simp only [List.getElem?_cons_succ] at ha hb
        simpa using ih ys i ha hb

theorem zip_mem_getElem? {A B : Type} (xs : List A) (ys : List B) (a : A) (b : B)
    (h : (a, b) ∈ xs.zip ys) : ∃ i : Nat, xs[i]? = some a ∧ ys[i]? = some b := by
  induction xs generalizing ys with
  | nil => simp at h
  | cons x xs ih =>
    cases ys with
    | nil => simp at h
    | cons y ys =>
      simp only [List.zip_cons_cons, List.mem_cons, Prod.mk.injEq] at h
      rcases h with ⟨h1, h2⟩ | h
      · exact ⟨0, by simp [h1], by simp [h2]⟩
      · obtain ⟨i, hi1, hi2⟩ := ih ys h
        exact ⟨i + 1, by simpa using hi1, by simpa using hi2⟩

/-- C18: `BinOpKernel<div, L, R>::evaluate` on numeric operands fails exactly
when `r` equals zero, and then with the error "division by zero"; otherwise
it returns the quotient of the two operands converted to double. In
`EvalBinOp::eval`, a row `i` where both operands are present has a null cell
exactly when its `r` equals zero, and the quotient otherwise; the warning
"division by zero" is emitted exactly when some row with both operands
present has a zero divisor, and no other warning is emitted. For the integer
types, `r` equals zero means the integer 0. -/
theorem div_spec {F : Type} (ops : DoubleOps F) (lc rc : List (Option (Number F)))
    (i : Nat) (l r : Number F) (hlen : lc.length = rc.length)
    (hl : lc[i]? = some (some l)) (hr : rc[i]? = some (some r)) :
    ((∃ e, div_kernel ops l r = .error e) ↔ is_zero ops r = true) ∧
    (div_kernel ops l r = .error "division by zero" ↔ is_zero ops r = true) ∧
    (is_zero ops r = false →
      div_kernel ops l r = .ok (ops.div (to_double ops l) (to_double ops r)) ∧
      (eval none (div_kernel ops) lc rc).1[i]?
        = some (some (ops.div (to_double ops l) (to_double ops r)))) ∧
    ((eval none (div_kernel ops) lc rc).1[i]? = some none ↔ is_zero ops r = true) ∧
    (eval none (div_kernel ops) lc rc).1.length = lc.length ∧
    (∀ w, w ∈ (eval none (div_kernel ops) lc rc).2 ↔
      (w = "division by zero" ∧ ∃ (j : Nat) (l1 r1 : Number F), lc[j]? = some (some l1) ∧
        rc[j]? = some (some r1) ∧ is_zero ops r1 = true)) ∧
    (∀ v : Int, is_zero ops (.int64 v) = true ↔ v = 0) ∧
    (∀ v : Nat, is_zero ops (.uint64 v) = true ↔ v = 0) := by
  have hz : (lc.zip rc)[i]? = some (some l, some r) := zip_getElem?_some lc rc i _ _ hl hr
  have hcell : (eval none (div_kernel ops) lc rc).1[i]?
      = some (cell_of none (div_kernel ops) (some l, some r)) := by
    unfold eval
    rw [eval_loop_cells, List.getElem?_map, hz]
    rfl
  refine ⟨?_, ?_, ?_, ?_, ?_, ?_, ?_, ?_⟩
  · constructor
    · rintro ⟨e, he⟩
      exact ((div_kernel_error_iff ops l r e).mp he).1
    · intro h
      exact ⟨_, (div_kernel_error_iff ops l r _).mpr ⟨h, rfl⟩⟩
  · constructor
    · intro he
      exact ((div_kernel_error_iff ops l r _).mp he).1
    · intro h
      exact (div_kernel_error_iff ops l r _).mpr ⟨h, rfl⟩
  · intro h
    refine ⟨div_kernel_ok ops l r h, ?_⟩
    rw [hcell]
    simp [cell_of, div_kernel_ok ops l r h]
  · rw [hcell]
    by_cases h : is_zero ops r = true
    · have he := (div_kernel_error_iff ops l r _).mpr ⟨h, rfl⟩
      simp [cell_of, he, h]
    · have h0 : is_zero ops r = false := by simpa using h
      simp [cell_of, div_kernel_ok ops l r h0, h0]
  · unfold eval
    rw [eval_loop_cells, List.length_map, List.length_zip, hlen, Nat.min_self]
  · intro w
    constructor
    · intro hw
      unfold eval at hw
      rcases eval_loop_warnings_sound none (div_kernel ops) _ [] w hw with h | ⟨l1, r1, hm, hk⟩
      · simp at h
      · obtain ⟨j, hj1, hj2⟩ := zip_mem_getElem? lc rc _ _ hm
        obtain ⟨hz1, he⟩ := (div_kernel_error_iff ops l1 r1 w).mp hk
        exact ⟨he, j, l1, r1, hj1, hj2, hz1⟩
    · rintro ⟨hw, j, l1, r1, hj1, hj2, hz1⟩
      unfold eval
      rw [hw]
      apply eval_loop_warns none (div_kernel ops) _ [] l1 r1
      · exact List.getElem?_mem (zip_getElem?_some lc rc j _ _ hj1 hj2)
      · exact (div_kernel_error_iff ops l1 r1 _).mpr ⟨hz1, rfl⟩
  · intro v
    simp [is_zero]
  · intro v
    simp [is_zero]

/-- C18 at the columns `[6, 1, null]` (int64) and `[3, 0, 2]` (uint64), row 1,
with the sample double operations. -/
theorem div_spec_witness :
    ((∃ e, div_kernel sampleDoubleOps (.int64 1) (.uint64 0) = .error e) ↔
      is_zero sampleDoubleOps (.uint64 0) = true) ∧
    (div_kernel sampleDoubleOps (.int64 1) (.uint64 0) = .error "division by zero" ↔
      is_zero sampleDoubleOps (.uint64 0) = true) ∧
    (is_zero sampleDoubleOps (.uint64 0) = false →
      div_kernel sampleDoubleOps (.int64 1) (.uint64 0)
        = .ok (sampleDoubleOps.div (to_double sampleDoubleOps (.int64 1))
            (to_double sampleDoubleOps (.uint64 0))) ∧
      (eval none (div_kernel sampleDoubleOps)
          [some (.int64 6), some (.int64 1), none]
          [some (.uint64 3), some (.uint64 0), some (.uint64 2)]).1[1]?
        = some (some (sampleDoubleOps.div (to_double sampleDoubleOps (.int64 1))
            (to_double sampleDoubleOps (.uint64 0))))) ∧
    ((eval none (div_kernel sampleDoubleOps)
        [some (.int64 6), some (.int64 1), none]
        [some (.uint64 3), some (.uint64 0), some (.uint64 2)]).1[1]? = some none ↔
      is_zero sampleDoubleOps (.uint64 0) = true) ∧
    (eval none (div_kernel sampleDoubleOps)
        [some (.int64 6), some (.int64 1), none]
        [some (.uint64 3), some (.uint64 0), some (.uint64 2)]).1.length
      = [some (Number.int64 6), some (.int64 1), (none : Option (Number Rat))].length ∧
    (∀ w, w ∈ (eval none (div_kernel sampleDoubleOps)
        [some (.int64 6), some (.int64 1), none]
        [some (.uint64 3), some (.uint64 0), some (.uint64 2)]).2 ↔
      (w = "division by zero" ∧ ∃ (j : Nat) (l1 r1 : Number Rat),
        [some (Number.int64 6), some (.int64 1), (none : Option (Number Rat))][j]?
          = some (some l1) ∧
        [some (Number.uint64 3), some (.uint64 0), some (.uint64 2)][j]? = some (some r1) ∧
        is_zero sampleDoubleOps r1 = true)) ∧
    (∀ v : Int, is_zero sampleDoubleOps (.int64 v) = true ↔ v = 0) ∧
    (∀ v : Nat, is_zero sampleDoubleOps (.uint64 v) = true ↔ v = 0) :=
  div_spec sampleDoubleOps [some (.int64 6), some (.int64 1), none]
    [some (.uint64 3), some (.uint64 0), some (.uint64 2)] 1 (.int64 1) (.uint64 0)
    rfl rfl rfl

/-- The columns `[6, 1, null] / [3, 0, 2]` evaluate to `[2, null, null]` with
the one warning "division by zero". -/
theorem div_example :
    eval none (div_kernel sampleDoubleOps)
        [some (.int64 6), some (.int64 1), none]
        [some (.uint64 3), some (.uint64 0), some (.uint64 2)]
      = ([some 2, none, none], ["division by zero"]) := by
  simp [eval, eval_loop, div_kernel, is_zero, to_double, sampleDoubleOps]
  norm_num

end EvalBinary

namespace EvalBinary

/-- The kernel `BinOpKernel<sub, int64_type, uint64_type>::evaluate` on an
`int64_t` `l` and a `uint64_t` `r`: a returned value is the exact difference;
the kernel fails with "subtraction overflow" exactly when `r` exceeds
`INT64_MAX`, and with "subtraction underflow" exactly when `r` does not and
`l - r` lies below `INT64_MIN`. -/
theorem sub_int64_uint64_cases (l r : Int) (hl : INT64_MIN ≤ l ∧ l ≤ INT64_MAX)
    (hr : 0 ≤ r ∧ r < 18446744073709551616) :
    (sub_int64_uint64 l r = .error "subtraction overflow" ↔ INT64_MAX < r) ∧
    (sub_int64_uint64 l r = .error "subtraction underflow" ↔
      (r ≤ INT64_MAX ∧ l - r < INT64_MIN)) ∧
    (sub_int64_uint64 l r = .ok (l - r) ↔ (r ≤ INT64_MAX ∧ INT64_MIN ≤ l - r)) ∧
    (∀ v, sub_int64_uint64 l r = .ok v → v = l - r) := by
  obtain ⟨hl1, hl2⟩ := hl
  obtain ⟨hr1, hr2⟩ := hr
  unfold INT64_MIN at hl1
  unfold INT64_MAX at hl2
  by_cases h1 : INT64_MAX < r
  · have h1' : r > to_uint64 INT64_MAX := by
      unfold INT64_MAX at h1
      unfold to_uint64 INT64_MAX
      omega
    have hres : sub_int64_uint64 l r = .error "subtraction overflow" := by
      unfold sub_int64_uint64
      rw [if_pos h1']
    rw [hres]
    have h1n : ¬ r ≤ INT64_MAX := not_le.mpr h1
    refine ⟨by simp [h1], ?_, ?_, ?_⟩
    · simp [h1n]
    · simp [h1n]
    · intro v hv; cases hv
  · have h1' : ¬ r > to_uint64 INT64_MAX := by
      unfold INT64_MAX at h1
      unfold to_uint64 INT64_MAX
      omega
    have h1le : r ≤ INT64_MAX := not_lt.mp h1
    have h1u : r ≤ 9223372036854775807 := by
      unfold INT64_MAX at h1le
      exact h1le
    by_cases h2 : l - r < INT64_MIN
    · have h2' : l < 0 ∧ to_uint64 (to_uint64 (abs_int64 l) + r)
          > to_uint64 (to_uint64 INT64_MAX + 1) := by
        unfold INT64_MIN at h2
        unfold to_uint64 abs_int64 to_int64 INT64_MAX
        have hneg : l < 0 := by omega
        rw [if_pos hneg]
        refine ⟨hneg, ?_⟩
        omega
      have hres : sub_int64_uint64 l r = .error "subtraction underflow" := by
        unfold sub_int64_uint64
        rw [if_neg h1', if_pos h2']
      rw [hres]
      have h2n : ¬ INT64_MIN ≤ l - r := not_le.mpr h2
      refine ⟨by simp [h1], by simp [h1le, h2], by simp [h2n], ?_⟩
      intro v hv; cases hv
    · have h2' : ¬ (l < 0 ∧ to_uint64 (to_uint64 (abs_int64 l) + r)
          > to_uint64 (to_uint64 INT64_MAX + 1)) := by
        unfold INT64_MIN at h2
        unfold to_uint64 abs_int64 to_int64 INT64_MAX
        rintro ⟨hneg, hgt⟩
        rw [if_pos hneg] at hgt
        omega
      have hval : to_int64 (l - to_int64 r) = l - r := by
        unfold INT64_MIN at h2
        unfold to_int64
        omega
      have hres : sub_int64_uint64 l r = .ok (l - r) := by
        unfold sub_int64_uint64
        rw [if_neg h1', if_neg h2', hval]
      rw [hres]
      have h2le : INT64_MIN ≤ l - r := not_lt.mp h2
      refine ⟨by simp [h1le], by simp [h1le, h2le], by simp [h1le, h2le], ?_⟩
      intro v hv
      injection hv with hv
      exact hv.symm

/-- C19 (code at the failing input): for `l = 0` and `r = 2^63` the kernel
`BinOpKernel<sub, int64_type, uint64_type>::evaluate` returns the error
"subtraction overflow", although the difference `0 - 2^63` equals `INT64_MIN`
and is representable as a signed 64-bit integer. -/
theorem sub_int64_uint64_rejects_representable :
    sub_int64_uint64 0 9223372036854775808 = .error "subtraction overflow" ∧
    INT64_MIN ≤ (0 : Int) - 9223372036854775808 ∧
    (0 : Int) - 9223372036854775808 ≤ INT64_MAX := by
  refine ⟨rfl, by decide, by decide⟩

/-- The general case at a sample input: `-5 - 7 = -12`. -/
theorem sub_int64_uint64_cases_example :
    sub_int64_uint64 (-5) 7 = .ok (-12) := rfl

end EvalBinary

namespace Aggregation

/-! ### NaN and null inputs of `sum` and `approximate_median` -/

/-- C20 (counterexample): adding a NaN to the empty state of `sum` over
doubles changes the state, and the final result becomes NaN instead of
null, whereas adding a null leaves both as they were. -/
theorem sum_add_nan_changes_state :
    sample_double.isnan .nan = true ∧
    sum_add sample_double.plus none (some .nan) = some .nan ∧
    sum_add sample_double.plus none (some .nan) ≠ none ∧
    sum_finish (sum_add sample_double.plus none (some sample_double.nan)) = some .nan ∧
    sum_finish (sum_add sample_double.plus none (none : Option sample_double)) = none ∧
    sum_add sample_double.plus (some (.finite 1)) (some .nan) = some .nan ∧
    sum_add sample_double.plus (some (.finite 1)) (some .nan) ≠ some (.finite 1) := by
  decide

/-- The array overload of `approximate_median_function::add` adds the values
one at a time. -/
theorem approximate_median_add_array_eq_foldl {τ F V : Type} (td : TDigest τ F)
    (isnan : F → Bool) (is_double : Bool) (to_double : V → F) :
    ∀ (values : List (Option V)) (t : τ),
      approximate_median_add_array td isnan is_double to_double t values
        = values.foldl (approximate_median_add td isnan is_double to_double) t := by
  intro values
  induction values with
  | nil => intro t; rfl
  | cons v values ih =>
    intro t
    cases v with
    | none => simp only [approximate_median_add_array, List.foldl_cons, approximate_median_add, ih]
    | some v =>
      by_cases h : is_double = true ∧ isnan (to_double v) = true
      · simp only [approximate_median_add_array, List.foldl_cons, approximate_median_add, ih,
          if_pos h]
      · simp only [approximate_median_add_array, List.foldl_cons, approximate_median_add, ih,
          if_neg h]

/-- C20 (amended): `approximate_median` over doubles skips NaN inputs: for
every state, adding a NaN leaves the digest, and hence the final result,
unchanged, exactly as adding a null does, also in a whole array. `sum` skips
null inputs only: adding a null leaves the state unchanged, whereas adding a
NaN stores it in an empty state and adds it to the sum held otherwise, so
that the final result is that value and not null. -/
theorem skip_nan_spec {τ F : Type} (td : TDigest τ F) (isnan : F → Bool) (plus : F → F → F)
    (t : τ) (s : Option F) (x : F) (hx : isnan x = true) :
    approximate_median_add td isnan true id t (some x) = t ∧
    approximate_median_add td isnan true id t (some x)
      = approximate_median_add td isnan true id t none ∧
    approximate_median_finish td id (approximate_median_add td isnan true id t (some x))
      = approximate_median_finish td id t ∧
    (∀ before after : List (Option F),
      approximate_median_add_array td isnan true id t (before ++ some x :: after)
        = approximate_median_add_array td isnan true id t (before ++ after)) ∧
    sum_add plus s none = s ∧
    sum_add plus none (some x) = some x ∧
    (∀ s0, sum_add plus (some s0) (some x) = some (plus s0 x)) ∧
    sum_finish (sum_add plus none (some x)) = some x ∧
    (∀ s0, sum_finish (sum_add plus (some s0) (some x)) = some (plus s0 x)) := by
  have h1 : approximate_median_add td isnan true id t (some x) = t := by
    simp [approximate_median_add, hx]
  refine ⟨h1, ?_, ?_, ?_, rfl, rfl, fun _ => rfl, rfl, fun _ => rfl⟩
  · rw [h1]; rfl
  · rw [h1]
  · intro before after
    rw [approximate_median_add_array_eq_foldl, approximate_median_add_array_eq_foldl,
      List.foldl_append, List.foldl_append, List.foldl_cons]
    congr 1
    simp [approximate_median_add, hx]

/-- C20 (amended) at the sample doubles: a NaN added to the digest `[1, 3]`
and to the sum `4`. -/
theorem skip_nan_spec_witness :
    sample_double.isnan .nan = true ∧
    approximate_median_add sampleDigest sample_double.isnan true id
      [.finite 1, .finite 3] (some .nan) = [.finite 1, .finite 3] ∧
    sum_add sample_double.plus (some (.finite 4)) none = some (.finite 4) ∧
    sum_add sample_double.plus none (some .nan) = some .nan ∧
    sum_finish (sum_add sample_double.plus (some (.finite 4)) (some .nan)) = some .nan :=
  have h := skip_nan_spec sampleDigest sample_double.isnan sample_double.plus
    [.finite 1, .finite 3] (some (.finite 4)) .nan rfl
  ⟨rfl, h.1, h.2.2.2.2.1, h.2.2.2.2.2.1, h.2.2.2.2.2.2.2.2 (.finite 4)⟩

end Aggregation

namespace SortOp

/-! ### Warnings of `find_or_create_path` -/

/-- A schema that has an entry in `key_field_path_` gives no warning and
leaves the state as it is. -/
theorem find_or_create_path_seen {σ α κ : Type} [DecidableEq σ] (env : Env σ α κ)
    (key : String) (st : sort_state σ α κ) (schema : σ) (h : Seen st schema) :
    (find_or_create_path env key st schema).warnings = [] ∧
    (find_or_create_path env key st schema).state = st := by
  unfold Seen at h
  unfold find_or_create_path
  cases hf : st.key_field_path_.find? (fun kv => kv.1 = schema) with
  | none => rw [hf] at h; simp at h
  | some kv => exact ⟨rfl, rfl⟩

/-- The entries of `key_field_path_` after a call are those before it when the
schema has an entry, and otherwise those followed by one entry for the schema
of the call. -/
theorem find_or_create_path_entries {σ α κ : Type} [DecidableEq σ] (env : Env σ α κ)
    (key : String) (st : sort_state σ α κ) (schema : σ) :
    (Seen st schema ∧ (find_or_create_path env key st schema).state = st) ∨
    (¬ Seen st schema ∧
      ∃ p, (find_or_create_path env key st schema).state.key_field_path_
        = st.key_field_path_ ++ [(schema, p)]) := by
  unfold find_or_create_path Seen
  cases hf : st.key_field_path_.find? (fun kv => kv.1 = schema) with
  | some kv => exact Or.inl ⟨rfl, rfl⟩
  | none =>
    right
    refine ⟨by simp, ?_⟩
    dsimp only
    split
    · split
      · exact ⟨_, rfl⟩
      · exact ⟨_, rfl⟩
    · split
      · exact ⟨_, rfl⟩
      · exact ⟨_, rfl⟩

/-- After a call the schema has an entry, and the schemas that had one keep
it. -/
theorem find_or_create_path_keeps_seen {σ α κ : Type} [DecidableEq σ] (env : Env σ α κ)
    (key : String) (st : sort_state σ α κ) (schema : σ) :
    Seen (find_or_create_path env key st schema).state schema ∧
    ∀ other, Seen st other → Seen (find_or_create_path env key st schema).state other := by
  rcases find_or_create_path_entries env key st schema with ⟨h, hs⟩ | ⟨h, p, he⟩
  · rw [hs]
    exact ⟨h, fun _ ho => ho⟩
  · constructor
    · unfold Seen at h
      unfold Seen
      rw [he, List.find?_append]
      cases hf : st.key_field_path_.find? (fun kv => kv.1 = schema) with
      | some kv => simp
      | none => simp
    · intro other ho
      unfold Seen at ho
      unfold Seen
      rw [he, List.find?_append]
      cases hf : st.key_field_path_.find? (fun kv => kv.1 = other) with
      | some kv => simp
      | none => rw [hf] at ho; simp at ho

/-- One call of `find_or_create_path` emits at most two warnings. -/
theorem find_or_create_path_warnings_le {σ α κ : Type} [DecidableEq σ] (env : Env σ α κ)
    (key : String) (st : sort_state σ α κ) (schema : σ) :
    (find_or_create_path env key st schema).warnings.length ≤ 2 := by
  unfold find_or_create_path
  cases hf : st.key_field_path_.find? (fun kv => kv.1 = schema) with
  | some kv => simp
  | none =>
    dsimp only
    split
    · split <;> (dsimp only; split <;> simp)
    · split <;> (dsimp only; split <;> simp)

/-- C21 (code at the failing input): after a slice of schema `A`, whose key
`t` resolves, the first slice of schema `C`, which has no field `t`, makes
`find_or_create_path` emit two warnings for the one schema `C`: that the key
does not apply, and that its type differs from the one resolved before. A
second slice of schema `C` gives no further warning. -/
theorem find_or_create_path_warns_twice :
    (add_all mixedEnv "t" [⟨"A", [3]⟩, ⟨"C", [1]⟩] sort_state.init).warnings
      = [⟨ec.invalid_configuration,
          "sort key t does not apply to schema C; events of this schema will not be sorted"⟩,
         ⟨ec.invalid_configuration,
          "sort key t resolved to a type for schema C that differs from the type resolved " ++
          "for a previous schema; events of this schema will not be sorted"⟩] ∧
    (add_all mixedEnv "t" [⟨"A", [3]⟩, ⟨"C", [1]⟩, ⟨"C", [5]⟩] sort_state.init).warnings.length
      = 2 := by
  constructor
  · decide
  · decide

/-- C22 (code at the failing input): for the input slices `A: t = 3`,
`C: 1` (schema `C` has no field `t`) and `A: t = 2`, the operator yields
three empty slices while it reads the input and then one batch with the rows
`2, 3`: the row of the slice of schema `C` is not emitted at all. The same
holds for a slice whose key type differs (`B`) and for a subnet key (`S`). -/
theorem sort_operator_drops_unsorted_rows :
    (sort_operator mixedEnv "t" 4 8 [⟨"A", [3]⟩, ⟨"C", [1]⟩, ⟨"A", [2]⟩]).map
        (fun out => out.1)
      = some [table_slice.empty, table_slice.empty, table_slice.empty, ⟨"A", [2, 3]⟩] ∧
    (sort_operator mixedEnv "t" 4 8 [⟨"A", [3]⟩, ⟨"C", [1]⟩, ⟨"A", [2]⟩]).map
        (fun out => all_rows out.1) = some [2, 3] ∧
    all_rows [(⟨"A", [3]⟩ : table_slice String Int), ⟨"C", [1]⟩, ⟨"A", [2]⟩] = [3, 1, 2] ∧
    (sort_operator mixedEnv "t" 4 8 [⟨"A", [3]⟩, ⟨"B", [1]⟩, ⟨"A", [2]⟩]).map
        (fun out => all_rows out.1) = some [2, 3] ∧
    (sort_operator mixedEnv "t" 4 8 [⟨"S", [1]⟩, ⟨"A", [3]⟩, ⟨"A", [2]⟩]).map
        (fun out => all_rows out.1) = some [2, 3] := by
  refine ⟨rfl, rfl, rfl, rfl, rfl⟩

end SortOp

namespace EvalBinary

/-! ### `and_` on booleans -/

theorem and_row_eq_kleene (l r : BooleanArray) (i : Nat) :
    and_row l r i
      = kleene_and (if l.IsNull i = true then none else some (l.Value i))
          (if r.IsNull i = true then none else some (r.Value i)) := by
  unfold and_row
  cases l.Value i <;> cases r.Value i <;> cases l.IsNull i <;> cases r.IsNull i <;> rfl

theorem kleene_and_comm (a b : Option Bool) : kleene_and a b = kleene_and b a := by
  cases a with
  | none => cases b with
    | none => rfl
    | some y => cases y <;> rfl
  | some x => cases b with
    | none => cases x <;> rfl
    | some y => cases x <;> cases y <;> rfl

theorem zipWith_same {A B : Type} (f : A → A → B) (xs : List A) :
    List.zipWith f xs xs = xs.map (fun a => f a a) := by
  induction xs with
  | nil => rfl
  | cons x xs ih => simp only [List.zipWith_cons_cons, List.map_cons, ih]

theorem and_rows_eq_kleene (l r : BooleanArray) (hlen : l.length = r.length) :
    and_rows l r = List.zipWith kleene_and l.cells r.cells := by
  unfold and_rows BooleanArray.cells
  rw [← hlen, List.zipWith_map, zipWith_same]
  apply List.map_congr_left
  intro i _
  exact and_row_eq_kleene l r i

theorem getBit_and_bytes (xs ys : List Nat) (size i : Nat) (hi : i / 8 < size) :
    GetBit ((List.range size).map (fun k => xs.getD k 0 &&& ys.getD k 0)) i
      = (GetBit xs i && GetBit ys i) := by
  unfold GetBit
  have h : ((List.range size).map (fun k => xs.getD k 0 &&& ys.getD k 0)).getD (i / 8) 0
      = xs.getD (i / 8) 0 &&& ys.getD (i / 8) 0 := by
    simp [List.getD_eq_getElem?_getD, List.getElem?_map, List.getElem?_range hi]
  rw [h, Nat.testBit_and]

/-- The cells of the array of the bitmap path are those of the row-by-row
loop, when neither array has a null bitmap or an offset. -/
theorem and_bitmap_cells (l r : BooleanArray) (out : BooleanArray)
    (hl : l.null_bitmap = none) (hr : r.null_bitmap = none)
    (hlo : l.offset = 0) (hro : r.offset = 0) (h : and_bitmap l r = some out) :
    out.cells = and_rows l r := by
  unfold and_bitmap at h
  dsimp only at h
  split at h
  · injection h with h
    subst h
    unfold BooleanArray.cells and_rows
    apply List.map_congr_left
    intro i hi
    have hi' : i < l.length := List.mem_range.mp hi
    have hdiv : i / 8 < (l.length + 7) / 8 := by omega
    have hv := getBit_and_bytes l.values r.values ((l.length + 7) / 8) i hdiv
    simp only [BooleanArray.IsNull, BooleanArray.Value, Nat.add_zero] at *
    rw [and_row_eq_kleene]
    simp only [BooleanArray.IsNull, BooleanArray.Value, hl, hr, hlo, hro, Nat.add_zero, hv]
    cases GetBit l.values i <;> cases GetBit r.values i <;> rfl
  · cases h

theorem and_bitmap_isSome (l r : BooleanArray) (hlen : l.length = r.length)
    (hl : l.WellFormed) (hr : r.WellFormed) : ∃ out, and_bitmap l r = some out := by
  unfold and_bitmap
  dsimp only
  have h1 := hl.1
  have h2 := hr.1
  have hc : (l.length + 7) / 8 ≤ l.values.length ∧ (l.length + 7) / 8 ≤ r.values.length := by
    constructor <;> omega
  rw [if_pos hc]
  exact ⟨_, rfl⟩

theorem eval_and_eq_kleene (l r : BooleanArray) (hlen : l.length = r.length)
    (hl : l.WellFormed) (hr : r.WellFormed) :
    eval_and l r = some (List.zipWith kleene_and l.cells r.cells) := by
  unfold eval_and
  dsimp only
  split
  · rename_i hfast
    obtain ⟨out, hout⟩ := and_bitmap_isSome l r hlen hl hr
    have hln : l.null_bitmap = none := by
      cases h : l.null_bitmap with
      | none => rfl
      | some b => simp [h] at hfast
    have hrn : r.null_bitmap = none := by
      cases h : r.null_bitmap with
      | none => rfl
      | some b => simp [h] at hfast
    have hlo : l.offset = 0 := by
      by_contra hne
      simp [hne] at hfast
    have hro : r.offset = 0 := by
      by_contra hne
      simp [hne] at hfast
    rw [hout, Option.map_some', and_bitmap_cells l r out hln hrn hlo hro hout,
      and_rows_eq_kleene l r hlen]
  · rw [and_rows_eq_kleene l r hlen]

theorem zipWith_kleene_and_comm (xs ys : List (Option Bool)) :
    List.zipWith kleene_and xs ys = List.zipWith kleene_and ys xs := by
  induction xs generalizing ys with
  | nil => cases ys <;> rfl
  | cons x xs ih =>
    cases ys with
    | nil => rfl
    | cons y ys => simp only [List.zipWith_cons_cons, kleene_and_comm x y, ih ys]

/-- C23: for well-formed boolean arrays `l` and `r` of equal length,
`EvalBinOp<and_, bool, bool>::eval` returns an array whose cells are the
Kleene conjunction of the cells of `l` and `r` at every row; the result is the
same with `l` and `r` exchanged; and when neither array has a null bitmap or
an offset, the bitmap path is taken and returns the cells that the row-by-row
loop gives. -/
theorem eval_and_spec (l r : BooleanArray) (hlen : l.length = r.length)
    (hl : l.WellFormed) (hr : r.WellFormed) :
    eval_and l r = some (List.zipWith kleene_and l.cells r.cells) ∧
    (∀ i, i < l.length →
      ∃ a b c, l.cells[i]? = some a ∧ r.cells[i]? = some b ∧
        (eval_and l r).map (fun out => out[i]?) = some (some c) ∧
        c = kleene_and a b ∧
        (c = some true ↔ (a = some true ∧ b = some true)) ∧
        (c = some false ↔ (a = some false ∨ b = some false))) ∧
    eval_and l r = eval_and r l ∧
    (l.null_bitmap = none → r.null_bitmap = none → l.offset = 0 → r.offset = 0 →
      ∃ out, and_bitmap l r = some out ∧ eval_and l r = some out.cells ∧
        out.cells = and_rows l r) := by
  have h1 := eval_and_eq_kleene l r hlen hl hr
  refine ⟨h1, ?_, ?_, ?_⟩
  · intro i hi
    have hla : l.cells[i]? = some (if l.IsNull i = true then none else some (l.Value i)) := by
      unfold BooleanArray.cells
      rw [List.getElem?_map, List.getElem?_range hi]
      rfl
    have hrb : r.cells[i]? = some (if r.IsNull i = true then none else some (r.Value i)) := by
      unfold BooleanArray.cells
      rw [List.getElem?_map, List.getElem?_range (hlen ▸ hi)]
      rfl
    refine ⟨_, _, _, hla, hrb, ?_, rfl, ?_, ?_⟩
    · rw [h1, Option.map_some', List.getElem?_zipWith, hla, hrb]
    · cases l.IsNull i <;> cases r.IsNull i <;> cases l.Value i <;> cases r.Value i <;>
        simp [kleene_and]
    · cases l.IsNull i <;> cases r.IsNull i <;> cases l.Value i <;> cases r.Value i <;>
        simp [kleene_and]
  · rw [h1, eval_and_eq_kleene r l hlen.symm hr hl, zipWith_kleene_and_comm]
  · intro hln hrn hlo hro
    obtain ⟨out, hout⟩ := and_bitmap_isSome l r hlen hl hr
    refine ⟨out, hout, ?_, and_bitmap_cells l r out hln hrn hlo hro hout⟩
    unfold eval_and
    simp [hln, hrn, hlo, hro, hout]

/-- C23 at the arrays `[true, true, false]` (one byte `3`, no null bitmap) and
`[true, null, false]` (byte `1`, null bitmap `5`). -/
theorem eval_and_spec_witness :
    eval_and ⟨3, 0, [3], none⟩ ⟨3, 0, [1], some [5]⟩ = some [some true, none, some false] :=
  (eval_and_spec ⟨3, 0, [3], none⟩ ⟨3, 0, [1], some [5]⟩ rfl
    ⟨by decide, fun _ h => by cases h⟩
    ⟨by decide, fun b h => by cases h; decide⟩).1

/-- The bitmap path at the arrays `[true, true, false]` and
`[true, false, true]`. -/
theorem eval_and_bitmap_example :
    eval_and ⟨3, 0, [3], none⟩ ⟨3, 0, [5], none⟩ = some [some true, some false, some false] := by
  decide

end EvalBinary

namespace EvalBinary

/-! ### `eq` and `neq` on strings -/

theorem eval_string_eq_getElem? (invert : Bool) :
    ∀ (rows : List (Option String × Option String)) (i : Nat) (lc rc : Option String),
      rows[i]? = some (lc, rc) →
      (eval_string_eq invert rows)[i]? = (eval_string_eq invert [(lc, rc)])[0]? := by
  intro rows
  induction rows with
  | nil => intro i lc rc h; simp at h
  | cons row rows ih =>
    intro i lc rc h
    obtain ⟨a, b⟩ := row
    cases i with
    | zero =>
      simp only [List.getElem?_cons_zero, Option.some.injEq, Prod.mk.injEq] at h
      obtain ⟨h1, h2⟩ := h
      subst h1 h2
      simp only [eval_string_eq, List.getElem?_cons_zero]
    | succ i =>
      simp only [List.getElem?_cons_succ] at h
      simp only [eval_string_eq, List.getElem?_cons_succ]
      exact ih i lc rc h

/-- C24 (counterexample): for the string arrays `["a"]` and `[null]`, the
specialization for strings returns the non-null cell `false` for `eq` and
`true` for `neq`, whereas the kernel-based `EvalBinOp::eval` returns a null
cell for both. -/
theorem eval_string_eq_one_null_not_null :
    eval_string_eq false ([some "a"].zip [none]) = [some false] ∧
    eval_string_eq true ([some "a"].zip [none]) = [some true] ∧
    (eval (result_if_both_null .eq) (eq_kernel false) [some "a"] [(none : Option String)]).1
      = [none] ∧
    (eval (result_if_both_null .neq) (eq_kernel true) [some "a"] [(none : Option String)]).1
      = [none] := by
  refine ⟨rfl, rfl, rfl, rfl⟩

/-- C24 (amended): at every row, the specialization of `eq` and `neq` for
strings returns a non-null boolean. When both operands are null it is `true`
for `eq` and `false` for `neq`, and when both are present it is the value
comparison; in both cases the kernel-based `EvalBinOp::eval` returns the same
cell. When exactly one operand is null, the specialization returns `false` for
`eq` and `true` for `neq`, whereas the kernel-based `EvalBinOp::eval` returns a
null cell. -/
theorem eval_string_eq_spec (invert : Bool) (l r : List (Option String)) (i : Nat)
    (lc rc : Option String) (hl : l[i]? = some lc) (hr : r[i]? = some rc) :
    (∃ c, (eval_string_eq invert (l.zip r))[i]? = some (some c)) ∧
    (lc = none → rc = none →
      (eval_string_eq invert (l.zip r))[i]? = some (some (!invert)) ∧
      (eval (result_if_both_null (eq_op invert)) (eq_kernel invert) l r).1[i]?
        = some (some (!invert))) ∧
    (∀ lv rv, lc = some lv → rc = some rv →
      (eval_string_eq invert (l.zip r))[i]? = some (some ((lv == rv) != invert)) ∧
      (eval (result_if_both_null (eq_op invert)) (eq_kernel invert) l r).1[i]?
        = some (some ((lv == rv) != invert))) ∧
    (lc.isNone ≠ rc.isNone →
      (eval_string_eq invert (l.zip r))[i]? = some (some invert) ∧
      (eval (result_if_both_null (eq_op invert)) (eq_kernel invert) l r).1[i]?
        = some none) := by
  have hz : (l.zip r)[i]? = some (lc, rc) := zip_getElem?_some l r i lc rc hl hr
  have hs := eval_string_eq_getElem? invert (l.zip r) i lc rc hz
  have hg : (eval (result_if_both_null (eq_op invert)) (eq_kernel invert) l r).1[i]?
      = some (cell_of (result_if_both_null (eq_op invert)) (eq_kernel invert) (lc, rc)) := by
    unfold eval
    rw [eval_loop_cells, List.getElem?_map, hz]
    rfl
  rw [hs, hg]
  refine ⟨⟨_, rfl⟩, ?_, ?_, ?_⟩
  · intro h1 h2
    subst h1 h2
    cases invert <;> exact ⟨rfl, rfl⟩
  · intro lv rv h1 h2
    subst h1 h2
    cases invert
    · refine ⟨?_, ?_⟩
      · simp [eval_string_eq]
      · simp [cell_of, eq_kernel]
    · refine ⟨?_, ?_⟩
      · simp [eval_string_eq]
      · simp [cell_of, eq_kernel, bne]
  · intro hne
    cases lc with
    | none =>
      cases rc with
      | none => exact absurd rfl hne
      | some rv => cases invert <;> exact ⟨rfl, rfl⟩
    | some lv =>
      cases rc with
      | none => cases invert <;> exact ⟨rfl, rfl⟩
      | some rv => exact absurd rfl hne

/-- C24 (amended) at the arrays `["a", null, "b"]` and `[null, null, "b"]`,
row 0, for `eq`. -/
theorem eval_string_eq_spec_witness :
    (eval_string_eq false ([some "a", none, some "b"].zip [none, none, some "b"]))[0]?
      = some (some false) ∧
    (eval (result_if_both_null (eq_op false)) (eq_kernel false)
        [some "a", none, some "b"] [none, none, some "b"]).1[0]? = some none :=
  (eval_string_eq_spec false [some "a", none, some "b"] [none, none, some "b"] 0
    (some "a") none rfl rfl).2.2.2 (by decide)

/-- The two arrays `["a", null, "b"]` and `[null, null, "b"]` under `eq`:
the specialization and the kernel-based evaluation. -/
theorem eval_string_eq_example :
    eval_string_eq false ([some "a", none, some "b"].zip [none, none, some "b"])
      = [some false, some true, some true] ∧
    (eval (result_if_both_null .eq) (eq_kernel false)
        [some "a", none, some "b"] [none, none, some "b"]).1
      = [none, some true, some true] := by
  refine ⟨by decide, by decide⟩

end EvalBinary

namespace Decapsulate

/-! ### Reads and slices of `frame::make`, `packet::make`, `segment::make` -/

theorem subspan_fixed_some (bytes : List Nat) (off cnt : Nat) (h : off + cnt ≤ bytes.length) :
    subspan_fixed bytes off cnt = some ((bytes.drop off).take cnt) := by
  unfold subspan_fixed
  rw [if_pos h]

theorem subspan_from_some (bytes : List Nat) (off : Nat) (h : off ≤ bytes.length) :
    subspan_from bytes off = some (bytes.drop off) := by
  unfold subspan_from
  rw [if_pos h]

theorem getElem?_some_of_lt (bytes : List Nat) (i : Nat) (h : i < bytes.length) :
    bytes[i]? = some (bytes.getD i 0) := by
  rw [List.getD_eq_getElem?_getD, List.getElem?_eq_getElem h]
  rfl

theorem ipv4_header_length_le (b0 : Nat) : ipv4_header_length b0 ≤ 60 := by
  unfold ipv4_header_length
  have h : b0 % 256 &&& 0x0f ≤ 0x0f := Nat.and_le_right
  omega

/-- The function `frame::make` never leaves the bytes, and the payload of a
frame it returns is what is left of the bytes behind a header of 14, 18 or 22
bytes. -/
theorem frame_make_in_bounds (as_ether_type : List Nat → ether_type) (bytes : List Nat)
    (type : frame_type) :
    ∃ r, frame.make as_ether_type bytes type = some r ∧
      ∀ f, r = some f → ∃ k, (k = 14 ∨ k = 18 ∨ k = 22) ∧ k ≤ bytes.length ∧
        f.payload = bytes.drop k := by
  cases type with
  | other id => exact ⟨none, rfl, fun f h => by cases h⟩
  | ethernet =>
    unfold frame.make
    by_cases h14 : bytes.length < 14
    · rw [if_pos h14]
      exact ⟨none, rfl, fun f h => by cases h⟩
    · rw [if_neg h14, subspan_fixed_some bytes 0 6 (by omega),
        subspan_fixed_some bytes 6 6 (by omega), subspan_fixed_some bytes 12 2 (by omega)]
      dsimp only
      split
      · by_cases h18 : bytes.length < 18
        · rw [if_pos h18]
          exact ⟨none, rfl, fun f h => by cases h⟩
        · rw [if_neg h18, subspan_fixed_some bytes 14 2 (by omega),
            subspan_fixed_some bytes 16 2 (by omega), subspan_from_some bytes 18 (by omega)]
          dsimp only
          split
          · by_cases h22 : bytes.length < 22
            · rw [if_pos h22]
              exact ⟨none, rfl, fun f h => by cases h⟩
            · rw [if_neg h22, subspan_fixed_some bytes 18 2 (by omega),
                subspan_fixed_some bytes 20 2 (by omega), subspan_from_some bytes 22 (by omega)]
              refine ⟨_, rfl, fun f h => ?_⟩
              injection h with h
              subst h
              exact ⟨22, by simp, by omega, rfl⟩
          · refine ⟨_, rfl, fun f h => ?_⟩
            injection h with h
            subst h
            exact ⟨18, by simp, by omega, rfl⟩
      · by_cases h22 : bytes.length < 22
        · rw [if_pos h22]
          exact ⟨none, rfl, fun f h => by cases h⟩
        · rw [if_neg h22, subspan_fixed_some bytes 14 2 (by omega),
            subspan_fixed_some bytes 18 2 (by omega), subspan_fixed_some bytes 20 2 (by omega),
            subspan_from_some bytes 22 (by omega)]
          refine ⟨_, rfl, fun f h => ?_⟩
          injection h with h
          subst h
          exact ⟨22, by simp, by omega, rfl⟩
      · rw [subspan_from_some bytes 14 (by omega)]
        refine ⟨_, rfl, fun f h => ?_⟩
        injection h with h
        subst h
        exact ⟨14, by simp, by omega, rfl⟩

/-- The function `packet::make` never leaves the bytes, and the payload of a
packet it returns is what is left of the bytes behind some offset within
them. -/
theorem packet_make_in_bounds (bytes : List Nat) (type : ether_type) :
    ∃ r, packet.make bytes type = some r ∧
      ∀ p, r = some p → ∃ k, k ≤ bytes.length ∧ p.payload = bytes.drop k := by
  have hnone : ∃ r, (some none : Option (Option packet)) = some r ∧
      ∀ p, r = some p → ∃ k, k ≤ bytes.length ∧ p.payload = bytes.drop k :=
    ⟨none, rfl, fun p h => by cases h⟩
  cases type with
  | ipv4 =>
    unfold packet.make
    by_cases h20 : bytes.length < 20
    · rw [if_pos h20]; exact hnone
    · rw [if_neg h20, getElem?_some_of_lt bytes 0 (by omega)]
      dsimp only
      by_cases hh : bytes.length < ipv4_header_length (bytes.getD 0 0)
      · rw [if_pos hh]; exact hnone
      · rw [if_neg hh, subspan_fixed_some bytes 12 4 (by omega),
          subspan_fixed_some bytes 16 4 (by omega), getElem?_some_of_lt bytes 9 (by omega),
          subspan_from_some bytes _ (by omega)]
        refine ⟨_, rfl, fun p h => ?_⟩
        injection h with h
        subst h
        exact ⟨_, by omega, rfl⟩
  | ipv6 =>
    unfold packet.make
    by_cases h40 : bytes.length < 40
    · rw [if_pos h40]; exact hnone
    · rw [if_neg h40, subspan_fixed_some bytes 8 16 (by omega),
        subspan_fixed_some bytes 24 16 (by omega), getElem?_some_of_lt bytes 6 (by omega),
        subspan_from_some bytes 40 (by omega)]
      refine ⟨_, rfl, fun p h => ?_⟩
      injection h with h
      subst h
      exact ⟨40, by omega, rfl⟩
  | invalid => exact hnone
  | ieee_802_1aq => exact hnone
  | ieee_802_1q_db => exact hnone
  | other v => exact hnone

/-- The function `segment::make` never leaves the bytes, and the payload of a
segment it returns is what is left of the bytes behind some offset within
them. -/
theorem segment_make_in_bounds (bytes : List Nat) (type : Nat) :
    ∃ r, segment.make bytes type = some r ∧
      ∀ s, r = some s → ∃ k, k ≤ bytes.length ∧ s.payload = bytes.drop k := by
  have hnone : ∃ r, (some none : Option (Option segment)) = some r ∧
      ∀ s, r = some s → ∃ k, k ≤ bytes.length ∧ s.payload = bytes.drop k :=
    ⟨none, rfl, fun s h => by cases h⟩
  unfold segment.make
  split
  · by_cases h20 : bytes.length < 20
    · rw [if_pos h20]; exact hnone
    · rw [if_neg h20, subspan_fixed_some bytes 0 2 (by omega),
        subspan_fixed_some bytes 2 2 (by omega), getElem?_some_of_lt bytes 12 (by omega)]
      dsimp only
      by_cases hh : bytes.length < tcp_data_offset (bytes.getD 12 0)
      · rw [if_pos hh]; exact hnone
      · rw [if_neg hh, subspan_from_some bytes _ (by omega)]
        refine ⟨_, rfl, fun s h => ?_⟩
        injection h with h
        subst h
        exact ⟨_, by omega, rfl⟩
  · split
    · by_cases h8 : bytes.length < 8
      · rw [if_pos h8]; exact hnone
      · rw [if_neg h8, subspan_fixed_some bytes 0 2 (by omega),
          subspan_fixed_some bytes 2 2 (by omega), subspan_from_some bytes 8 (by omega)]
        refine ⟨_, rfl, fun s h => ?_⟩
        injection h with h
        subst h
        exact ⟨8, by omega, rfl⟩
    · split
      · by_cases h8 : bytes.length < 8
        · rw [if_pos h8]; exact hnone
        · rw [if_neg h8, getElem?_some_of_lt bytes 0 (by omega),
            getElem?_some_of_lt bytes 1 (by omega), subspan_from_some bytes 8 (by omega)]
          refine ⟨_, rfl, fun s h => ?_⟩
          injection h with h
          subst h
          exact ⟨8, by omega, rfl⟩
      · exact hnone

end Decapsulate
namespace Decapsulate

/-- The function `frame::make` on an Ethernet frame returns `nullopt` exactly
when the bytes are shorter than the header that the tags ask for. -/
theorem frame_make_nullopt_iff (as_ether_type : List Nat → ether_type) (bytes : List Nat) :
    frame.make as_ether_type bytes .ethernet = some none ↔
      (bytes.length < 14 ∨
       (as_ether_type ((bytes.drop 12).take 2) = .ieee_802_1aq ∧
          (bytes.length < 18 ∨
           (as_ether_type ((bytes.drop 16).take 2) = .ieee_802_1aq ∧ bytes.length < 22))) ∨
       (as_ether_type ((bytes.drop 12).take 2) = .ieee_802_1q_db ∧ bytes.length < 22)) := by
  unfold frame.make
  by_cases h14 : bytes.length < 14
  · rw [if_pos h14]
    simp [h14]
  · rw [if_neg h14, subspan_fixed_some bytes 0 6 (by omega),
      subspan_fixed_some bytes 6 6 (by omega), subspan_fixed_some bytes 12 2 (by omega)]
    dsimp only
    split
    · rename_i htag
      by_cases h18 : bytes.length < 18
      · rw [if_pos h18]
        simp [htag, h18]
      · rw [if_neg h18, subspan_fixed_some bytes 14 2 (by omega),
          subspan_fixed_some bytes 16 2 (by omega), subspan_from_some bytes 18 (by omega)]
        dsimp only
        split
        · rename_i htag2
          by_cases h22 : bytes.length < 22
          · rw [if_pos h22]
            simp [htag, htag2, h22]
          · rw [if_neg h22, subspan_fixed_some bytes 18 2 (by omega),
              subspan_fixed_some bytes 20 2 (by omega), subspan_from_some bytes 22 (by omega)]
            simp [htag, h14, h18, h22]
        · rename_i htag2
          simp [htag, htag2, h14, h18]
    · rename_i htag
      by_cases h22 : bytes.length < 22
      · rw [if_pos h22]
        simp [htag, h22]
      · rw [if_neg h22, subspan_fixed_some bytes 14 2 (by omega),
          subspan_fixed_some bytes 18 2 (by omega), subspan_fixed_some bytes 20 2 (by omega),
          subspan_from_some bytes 22 (by omega)]
        simp [htag, h14, h22]
    · rename_i h1 h2
      rw [subspan_from_some bytes 14 (by omega)]
      simp [h14, h1, h2]
      exact ⟨fun h => (h1 h).elim, fun h => (h2 h).elim⟩

/-- The function `packet::make` returns `nullopt` exactly for an ether type
other than IPv4 and IPv6 and when the bytes are shorter than the header. -/
theorem packet_make_nullopt_iff (bytes : List Nat) :
    (packet.make bytes .ipv4 = some none ↔
      (bytes.length < 20 ∨ bytes.length < ipv4_header_length (bytes.getD 0 0))) ∧
    (packet.make bytes .ipv6 = some none ↔ bytes.length < 40) := by
  constructor
  · unfold packet.make
    by_cases h20 : bytes.length < 20
    · rw [if_pos h20]; simp [h20]
    · rw [if_neg h20, getElem?_some_of_lt bytes 0 (by omega)]
      dsimp only
      by_cases hh : bytes.length < ipv4_header_length (bytes.getD 0 0)
      · rw [if_pos hh]
        exact ⟨fun _ => Or.inr hh, fun _ => rfl⟩
      · rw [if_neg hh, subspan_fixed_some bytes 12 4 (by omega),
          subspan_fixed_some bytes 16 4 (by omega), getElem?_some_of_lt bytes 9 (by omega),
          subspan_from_some bytes _ (by omega)]
        constructor
        · intro h
          cases h
        · intro h
          rcases h with h | h <;> contradiction
  · unfold packet.make
    by_cases h40 : bytes.length < 40
    · rw [if_pos h40]; simp [h40]
    · rw [if_neg h40, subspan_fixed_some bytes 8 16 (by omega),
        subspan_fixed_some bytes 24 16 (by omega), getElem?_some_of_lt bytes 6 (by omega),
        subspan_from_some bytes 40 (by omega)]
      simp [h40]

/-- The function `segment::make` returns `nullopt` for TCP, UDP and ICMP
exactly when the bytes are shorter than the header. -/
theorem segment_make_nullopt_iff (bytes : List Nat) :
    (segment.make bytes IPPROTO_TCP = some none ↔
      (bytes.length < 20 ∨ bytes.length < tcp_data_offset (bytes.getD 12 0))) ∧
    (segment.make bytes IPPROTO_UDP = some none ↔ bytes.length < 8) ∧
    (segment.make bytes IPPROTO_ICMP = some none ↔ bytes.length < 8) := by
  refine ⟨?_, ?_, ?_⟩
  · unfold segment.make
    rw [if_pos rfl]
    by_cases h20 : bytes.length < 20
    · rw [if_pos h20]; simp [h20]
    · rw [if_neg h20, subspan_fixed_some bytes 0 2 (by omega),
        subspan_fixed_some bytes 2 2 (by omega), getElem?_some_of_lt bytes 12 (by omega)]
      dsimp only
      by_cases hh : bytes.length < tcp_data_offset (bytes.getD 12 0)
      · rw [if_pos hh]
        exact ⟨fun _ => Or.inr hh, fun _ => rfl⟩
      · rw [if_neg hh, subspan_from_some bytes _ (by omega)]
        constructor
        · intro h
          cases h
        · intro h
          rcases h with h | h <;> contradiction
  · unfold segment.make
    rw [if_neg (by decide), if_pos rfl]
    by_cases h8 : bytes.length < 8
    · rw [if_pos h8]; simp [h8]
    · rw [if_neg h8, subspan_fixed_some bytes 0 2 (by omega),
        subspan_fixed_some bytes 2 2 (by omega), subspan_from_some bytes 8 (by omega)]
      simp [h8]
  · unfold segment.make
    rw [if_neg (by decide), if_neg (by decide), if_pos rfl]
    by_cases h8 : bytes.length < 8
    · rw [if_pos h8]; simp [h8]
    · rw [if_neg h8, getElem?_some_of_lt bytes 0 (by omega),
        getElem?_some_of_lt bytes 1 (by omega), subspan_from_some bytes 8 (by omega)]
      simp [h8]

/-- C25: for every byte sequence and every frame, ether and protocol type,
`frame::make`, `packet::make` and `segment::make` never read or slice outside
the given bytes, and a payload they return is what is left of the bytes behind
an offset within them. They return `nullopt` instead exactly when the bytes
are too short: an Ethernet frame shorter than 14 bytes, than 18 with one VLAN
tag, than 22 for QinQ and 802.1Q-DB; an IPv4 packet shorter than 20 bytes or
than `4 * IHL`; an IPv6 packet shorter than 40; a TCP segment shorter than 20
or than `4 * data offset`; a UDP or ICMP segment shorter than 8. -/
theorem make_in_bounds (as_ether_type : List Nat → ether_type) (bytes : List Nat) :
    (∀ type, ∃ r, frame.make as_ether_type bytes type = some r ∧
      ∀ f, r = some f → ∃ k, (k = 14 ∨ k = 18 ∨ k = 22) ∧ k ≤ bytes.length ∧
        f.payload = bytes.drop k) ∧
    (∀ type, ∃ r, packet.make bytes type = some r ∧
      ∀ p, r = some p → ∃ k, k ≤ bytes.length ∧ p.payload = bytes.drop k) ∧
    (∀ type, ∃ r, segment.make bytes type = some r ∧
      ∀ s, r = some s → ∃ k, k ≤ bytes.length ∧ s.payload = bytes.drop k) ∧
    (frame.make as_ether_type bytes .ethernet = some none ↔
      (bytes.length < 14 ∨
       (as_ether_type ((bytes.drop 12).take 2) = .ieee_802_1aq ∧
          (bytes.length < 18 ∨
           (as_ether_type ((bytes.drop 16).take 2) = .ieee_802_1aq ∧ bytes.length < 22))) ∨
       (as_ether_type ((bytes.drop 12).take 2) = .ieee_802_1q_db ∧ bytes.length < 22))) ∧
    (packet.make bytes .ipv4 = some none ↔
      (bytes.length < 20 ∨ bytes.length < ipv4_header_length (bytes.getD 0 0))) ∧
    (packet.make bytes .ipv6 = some none ↔ bytes.length < 40) ∧
    (segment.make bytes IPPROTO_TCP = some none ↔
      (bytes.length < 20 ∨ bytes.length < tcp_data_offset (bytes.getD 12 0))) ∧
    (segment.make bytes IPPROTO_UDP = some none ↔ bytes.length < 8) ∧
    (segment.make bytes IPPROTO_ICMP = some none ↔ bytes.length < 8) :=
  ⟨fun type => frame_make_in_bounds as_ether_type bytes type,
    fun type => packet_make_in_bounds bytes type,
    fun type => segment_make_in_bounds bytes type,
    frame_make_nullopt_iff as_ether_type bytes,
    (packet_make_nullopt_iff bytes).1, (packet_make_nullopt_iff bytes).2,
    (segment_make_nullopt_iff bytes).1, (segment_make_nullopt_iff bytes).2.1,
    (segment_make_nullopt_iff bytes).2.2⟩

/-- An Ethernet frame with one VLAN tag that is cut off after 17 bytes gives
`nullopt`, and the same frame with 18 bytes is accepted with no payload. -/
theorem frame_make_example :
    frame.make sample_as_ether_type
        [1, 2, 3, 4, 5, 6, 7, 8, 9, 10, 11, 12, 0x81, 0x00, 0x00, 0x05, 0x08] .ethernet
      = some none ∧
    frame.make sample_as_ether_type
        [1, 2, 3, 4, 5, 6, 7, 8, 9, 10, 11, 12, 0x81, 0x00, 0x00, 0x05, 0x08, 0x00] .ethernet
      = some (some ⟨[1, 2, 3, 4, 5, 6], [7, 8, 9, 10, 11, 12], some 5, none, .ipv4, []⟩) := by
  refine ⟨by decide, by decide⟩

end Decapsulate
namespace Decapsulate

/-! ### The payload of an IPv4 packet -/

/-- C26 (counterexample): the 20 bytes of an IPv4 header whose first byte is
`0x40` (IHL 0) are accepted by `packet::make`, and the returned payload starts
at offset 0: it is all the 20 bytes, the fixed header from which `src`, `dst`
and the protocol were read included. -/
theorem packet_make_ipv4_payload_overlaps_header :
    packet.make [0x40, 0, 0, 0, 0, 0, 0, 0, 0, 6, 0, 0, 10, 0, 0, 1, 10, 0, 0, 2] .ipv4
      = some (some ⟨[10, 0, 0, 1], [10, 0, 0, 2], 6,
          [0x40, 0, 0, 0, 0, 0, 0, 0, 0, 6, 0, 0, 10, 0, 0, 1, 10, 0, 0, 2]⟩) ∧
    ipv4_header_length 0x40 = 0 := by
  refine ⟨by decide, by decide⟩

/-- C26 (amended): for every byte sequence that `packet::make` accepts as an
IPv4 packet, there are at least 20 bytes, and the returned payload is the
suffix of the bytes that starts at offset `4 * IHL`, where the IHL, the low
four bits of the first byte, is any value from 0 to 15 with `4 * IHL` at most
the number of bytes. The payload starts behind the fixed 20-byte header
exactly when the IHL is 5 or more; for a smaller IHL it overlaps that header.
`src`, `dst` and the protocol are the bytes 12 to 15, 16 to 19 and 9. -/
theorem packet_make_ipv4_payload (bytes : List Nat) (p : packet)
    (h : packet.make bytes .ipv4 = some (some p)) :
    20 ≤ bytes.length ∧
    ∃ ihl, ihl = (bytes.getD 0 0 % 256 &&& 0x0f) ∧ ihl ≤ 15 ∧ 4 * ihl ≤ bytes.length ∧
      p.payload = bytes.drop (4 * ihl) ∧
      p.payload.length = bytes.length - 4 * ihl ∧
      (p.payload.length ≤ bytes.length - 20 ↔ 5 ≤ ihl) ∧
      p.src = (bytes.drop 12).take 4 ∧ p.dst = (bytes.drop 16).take 4 ∧
      p.type = bytes.getD 9 0 % 256 := by
  unfold packet.make at h
  by_cases h20 : bytes.length < 20
  · rw [if_pos h20] at h
    cases h
  · rw [if_neg h20, getElem?_some_of_lt bytes 0 (by omega)] at h
    dsimp only at h
    by_cases hh : bytes.length < ipv4_header_length (bytes.getD 0 0)
    · rw [if_pos hh] at h
      cases h
    · have hle := ipv4_header_length_le (bytes.getD 0 0)
      rw [if_neg hh, subspan_fixed_some bytes 12 4 (by omega),
        subspan_fixed_some bytes 16 4 (by omega), getElem?_some_of_lt bytes 9 (by omega),
        subspan_from_some bytes _ (by omega)] at h
      injection h with h
      injection h with h
      subst h
      unfold ipv4_header_length at hh hle
      refine ⟨by omega, _, rfl, by omega, by omega, ?_, ?_, ?_, rfl, rfl, rfl⟩
      · show List.drop (ipv4_header_length (bytes.getD 0 0)) bytes = _
        unfold ipv4_header_length
        rw [Nat.mul_comm]
      · show (List.drop (ipv4_header_length (bytes.getD 0 0)) bytes).length = _
        unfold ipv4_header_length
        rw [List.length_drop, Nat.mul_comm]
      · show (List.drop (ipv4_header_length (bytes.getD 0 0)) bytes).length ≤ _ ↔ _
        unfold ipv4_header_length
        rw [List.length_drop]
        omega

/-- C26 (amended) at a packet with the IHL 5 and two bytes of payload. -/
theorem packet_make_ipv4_payload_witness :
    20 ≤ [0x45, 0, 0, 22, 0, 0, 0, 0, 64, 17, 0, 0, 10, 0, 0, 1, 10, 0, 0, 2, 7, 9].length ∧
    ∃ ihl, ihl = ([0x45, 0, 0, 22, 0, 0, 0, 0, 64, 17, 0, 0, 10, 0, 0, 1, 10, 0, 0, 2, 7,
          9].getD 0 0 % 256 &&& 0x0f) ∧ ihl ≤ 15 ∧
      4 * ihl ≤ [0x45, 0, 0, 22, 0, 0, 0, 0, 64, 17, 0, 0, 10, 0, 0, 1, 10, 0, 0, 2, 7,
          9].length ∧
      (⟨[10, 0, 0, 1], [10, 0, 0, 2], 17, [7, 9]⟩ : packet).payload
        = [0x45, 0, 0, 22, 0, 0, 0, 0, 64, 17, 0, 0, 10, 0, 0, 1, 10, 0, 0, 2, 7, 9].drop
            (4 * ihl) ∧
      (⟨[10, 0, 0, 1], [10, 0, 0, 2], 17, [7, 9]⟩ : packet).payload.length
        = [0x45, 0, 0, 22, 0, 0, 0, 0, 64, 17, 0, 0, 10, 0, 0, 1, 10, 0, 0, 2, 7, 9].length
            - 4 * ihl ∧
      ((⟨[10, 0, 0, 1], [10, 0, 0, 2], 17, [7, 9]⟩ : packet).payload.length
        ≤ [0x45, 0, 0, 22, 0, 0, 0, 0, 64, 17, 0, 0, 10, 0, 0, 1, 10, 0, 0, 2, 7, 9].length
            - 20 ↔ 5 ≤ ihl) ∧
      (⟨[10, 0, 0, 1], [10, 0, 0, 2], 17, [7, 9]⟩ : packet).src
        = ([0x45, 0, 0, 22, 0, 0, 0, 0, 64, 17, 0, 0, 10, 0, 0, 1, 10, 0, 0, 2, 7, 9].drop
            12).take 4 ∧
      (⟨[10, 0, 0, 1], [10, 0, 0, 2], 17, [7, 9]⟩ : packet).dst
        = ([0x45, 0, 0, 22, 0, 0, 0, 0, 64, 17, 0, 0, 10, 0, 0, 1, 10, 0, 0, 2, 7, 9].drop
            16).take 4 ∧
      (⟨[10, 0, 0, 1], [10, 0, 0, 2], 17, [7, 9]⟩ : packet).type
        = [0x45, 0, 0, 22, 0, 0, 0, 0, 64, 17, 0, 0, 10, 0, 0, 1, 10, 0, 0, 2, 7, 9].getD 9 0
            % 256 :=
  packet_make_ipv4_payload
    [0x45, 0, 0, 22, 0, 0, 0, 0, 64, 17, 0, 0, 10, 0, 0, 1, 10, 0, 0, 2, 7, 9]
    ⟨[10, 0, 0, 1], [10, 0, 0, 2], 17, [7, 9]⟩ (by decide)

end Decapsulate

namespace Index

/-! ### The capacity of the active partition -/

/-- One slice: from a state in which an active partition has a capacity of at
most `partition_capacity`, the assertion holds, and afterwards there is an
active partition with such a capacity. -/
theorem process_spec (partition_capacity : Nat) (active : active_partition_state) (rows : Nat)
    (hinv : active.actor = true → active.capacity ≤ partition_capacity) :
    ∃ active1, process partition_capacity active rows = some active1 ∧
      active1.actor = true ∧ active1.capacity ≤ partition_capacity := by
  unfold process create_active_partition
  obtain ⟨actor, capacity⟩ := active
  cases actor with
  | false =>
    simp only [if_true]
    by_cases h : rows > partition_capacity
    · simp [h]
    · have h' : partition_capacity ≥ rows := by omega
      simp [h, h']
  | true =>
    have hc : capacity ≤ partition_capacity := hinv rfl
    simp only [Bool.true_eq_false, if_false]
    by_cases h1 : rows > capacity
    · simp only [if_pos h1]
      by_cases h : rows > partition_capacity
      · simp [h]
      · have h' : partition_capacity ≥ rows := by omega
        simp [h, h']
    · simp only [if_neg h1]
      have h2 : capacity ≥ rows := by omega
      have h3 : ¬ (capacity = partition_capacity ∧ rows > capacity) := fun h => h1 h.2
      rw [if_neg h3, if_pos h2]
      exact ⟨_, rfl, rfl, by simp only; omega⟩

theorem process_all_spec (partition_capacity : Nat) :
    ∀ (stream : List Nat) (active : active_partition_state),
      (active.actor = true → active.capacity ≤ partition_capacity) →
      ∃ states, process_all partition_capacity active stream = some states ∧
        states.length = stream.length ∧
        ∀ s ∈ states, s.actor = true ∧ 0 ≤ s.capacity ∧ s.capacity ≤ partition_capacity := by
  intro stream
  induction stream with
  | nil => intro active _; exact ⟨[], rfl, rfl, fun s hs => by simp at hs⟩
  | cons rows stream ih =>
    intro active hinv
    obtain ⟨active1, h1, ha, hc⟩ := process_spec partition_capacity active rows hinv
    obtain ⟨states, h2, hl, hs⟩ := ih active1 (fun _ => hc)
    refine ⟨active1 :: states, ?_, ?_, ?_⟩
    · simp only [process_all, h1, h2]
    · simp [hl]
    · intro s hmem
      rcases List.mem_cons.mp hmem with h | h
      · subst h; exact ⟨ha, Nat.zero_le _, hc⟩
      · exact hs s h

/-- C27: for every `partition_capacity` and every sequence of incoming table
slices, of any numbers of rows, the assertion `active.capacity >= x->rows()`
of the stream-stage handler never fails, and after each slice the remaining
capacity of the active partition satisfies
`0 <= active.capacity <= partition_capacity`. -/
theorem index_capacity_spec (partition_capacity : Nat) (stream : List Nat) :
    ∃ states, process_all partition_capacity initial stream = some states ∧
      states.length = stream.length ∧
      ∀ s ∈ states, s.actor = true ∧ 0 ≤ s.capacity ∧ s.capacity ≤ partition_capacity :=
  process_all_spec partition_capacity stream initial (fun h => by cases h)

/-- The capacity 10 with slices of 4, 4, 4, 25 and 3 rows: the third slice
opens a new partition, and so does the fourth, which is larger than a
partition. -/
theorem index_capacity_example :
    process_all 10 initial [4, 4, 4, 25, 3]
      = some [⟨true, 6⟩, ⟨true, 2⟩, ⟨true, 6⟩, ⟨true, 0⟩, ⟨true, 7⟩] := by
  decide

end Index

namespace Velociraptor

/-! ### The checks of the configuration -/

/-- The error about `client_cert` is never emitted: its test repeats the one
of `client_private_key`, which has passed before. -/
theorem operator_start_never_reports_client_cert (config : String → Option String) :
    operator_start config ≠ .error "no 'client_cert' found in config file" := by
  unfold operator_start
  dsimp only
  split
  · intro h; injection h with h; revert h; decide
  · split
    · intro h; injection h with h; revert h; decide
    · split
      · intro h; injection h with h; revert h; decide
      · split <;> intro h <;> cases h

/-- The three other keys are checked before they are used: when one of them is
missing, the first one that is missing is reported. -/
theorem operator_start_other_keys (config : String → Option String) :
    (config "ca_certificate" = none →
      operator_start config = .error "no 'ca_certificate' found in config file") ∧
    (config "ca_certificate" ≠ none → config "client_private_key" = none →
      operator_start config = .error "no 'client_private_key' found in config file") ∧
    (config "ca_certificate" ≠ none → config "client_private_key" ≠ none →
      config "api_connection_string" = none →
      operator_start config = .error "no 'api_connection_string' found in config file") := by
  unfold operator_start
  refine ⟨?_, ?_, ?_⟩
  · intro h; simp [h]
  · intro h1 h2; simp [h1, h2]
  · intro h1 h2 h3; simp [h1, h2, h3]

/-- C28 (code at the failing input): for a configuration that has
`ca_certificate`, `client_private_key` and `api_connection_string` and lacks
only `client_cert`, the operator emits no error and goes on to dereference the
null pointer `client_cert`; the error "no 'client_cert' found in config file"
is not produced. -/
theorem operator_start_missing_client_cert :
    config_of [("ca_certificate", "CA"), ("client_private_key", "KEY"),
        ("api_connection_string", "127.0.0.1:8001")] "client_cert" = none ∧
    operator_start (config_of [("ca_certificate", "CA"), ("client_private_key", "KEY"),
        ("api_connection_string", "127.0.0.1:8001")]) = .null_dereference ∧
    operator_start (config_of [("ca_certificate", "CA"), ("client_private_key", "KEY"),
        ("api_connection_string", "127.0.0.1:8001")])
      ≠ .error "no 'client_cert' found in config file" := by
  refine ⟨by decide, by decide, by decide⟩

end Velociraptor

namespace Json

/-! ### The style of the JSON printer -/

theorem parse_flag_monochrome (args : printer_args) (flag : String) (place : Nat)
    (h : args.monochrome_output = none) :
    (parse_flag printer_bindings args flag place).monochrome_output = none := by
  unfold parse_flag
  split
  · rename_i b hb
    have hmem := List.mem_of_find?_eq_some hb
    simp only [printer_bindings, List.mem_cons, List.mem_singleton, List.not_mem_nil,
      or_false] at hmem
    rcases hmem with h1 | h1 | h1 | h1 | h1 | h1 | h1 <;> (subst h1; exact h)
  · exact h

theorem parse_flags_monochrome :
    ∀ (flags : List String) (args : printer_args) (place : Nat),
      args.monochrome_output = none →
      (parse_flags printer_bindings args flags place).monochrome_output = none := by
  intro flags
  induction flags with
  | nil => intro args place h; exact h
  | cons flag flags ih =>
    intro args place h
    exact ih _ _ (parse_flag_monochrome args flag place h)

/-- No flags make the printer use `no_style`: `monochrome_output` is bound to
no flag. -/
theorem printer_style_ne_no_style (flags : List String) :
    printer_style flags ≠ json_style.no_style := by
  unfold printer_style instantiate_style parse_printer
  rw [parse_flags_monochrome flags printer_args.init 0 rfl]
  simp only [Option.isSome_none, Bool.false_eq_true, if_false]
  split <;> decide

/-- C29 (code at the failing input): with the flag `-M` alone, and likewise
with `--monochrome-output`, the printer uses the jq colour style and not
`no_style`, because `parse_printer` binds the flag to `color_output`; the
same holds for `-M` together with `-C`. Without flags the style is the default
one, and with `-C` alone it is the jq style. -/
theorem printer_style_monochrome_gives_jq_style :
    printer_style ["-M"] = json_style.jq_style ∧
    printer_style ["--monochrome-output"] = json_style.jq_style ∧
    printer_style ["-M", "-C"] = json_style.jq_style ∧
    printer_style ["-C", "-M"] = json_style.jq_style ∧
    (parse_printer ["-M"]).monochrome_output = none ∧
    (parse_printer ["-M"]).color_output = some 0 ∧
    printer_style [] = json_style.default_style ∧
    printer_style ["-C"] = json_style.jq_style := by
  refine ⟨by decide, by decide, by decide, by decide, by decide, by decide, by decide,
    by decide⟩

end Json
namespace Vast

/-! ### `operator<=>` on offsets -/

theorem compare_nil_nil : compare false [] [] = strong_ordering.equivalent := rfl

theorem compare_nil_cons (r : Nat) (rhs : List Nat) :
    compare false [] (r :: rhs) = strong_ordering.less := rfl

theorem compare_cons_nil (l : Nat) (lhs : List Nat) :
    compare false (l :: lhs) [] = strong_ordering.greater := rfl

theorem compare_cons_cons (l r : Nat) (lhs rhs : List Nat) :
    compare false (l :: lhs) (r :: rhs)
      = if l = r then compare false lhs rhs
        else if l < r then strong_ordering.less else strong_ordering.greater := by
  by_cases h : l = r
  · simp only [compare, mismatch, h, if_true]
  · simp only [compare, mismatch, h, if_false]
    rfl

theorem lex_less_nil_left (b : List Nat) : lex_less [] b ↔ b ≠ [] := by
  constructor
  · rintro (⟨c, hc, hb⟩ | ⟨p, x, y, s, t, ha, _, _⟩)
    · rw [hb]; simpa using hc
    · cases p <;> simp at ha
  · intro h
    exact Or.inl ⟨b, h, rfl⟩

theorem lex_less_nil_right (a : List Nat) : ¬ lex_less a [] := by
  rintro (⟨c, hc, hb⟩ | ⟨p, x, y, s, t, _, hb, _⟩)
  · have h := congrArg List.length hb
    simp only [List.length_nil, List.length_append] at h
    have hc' : c.length ≠ 0 := fun h0 => hc (List.length_eq_zero.mp h0)
    omega
  · cases p <;> simp at hb

theorem lex_less_cons (x y : Nat) (a b : List Nat) :
    lex_less (x :: a) (y :: b) ↔ (x < y ∨ (x = y ∧ lex_less a b)) := by
  constructor
  · rintro (⟨c, hc, hb⟩ | ⟨p, x1, y1, s, t, ha, hb, hlt⟩)
    · simp only [List.cons_append, List.cons.injEq] at hb
      exact Or.inr ⟨hb.1.symm, Or.inl ⟨c, hc, hb.2⟩⟩
    · cases p with
      | nil =>
        simp only [List.nil_append, List.cons.injEq] at ha hb
        left
        rw [ha.1, hb.1]
        exact hlt
      | cons q p =>
        simp only [List.cons_append, List.cons.injEq] at ha hb
        right
        refine ⟨ha.1.trans hb.1.symm, Or.inr ⟨p, x1, y1, s, t, ha.2, hb.2, hlt⟩⟩
  · rintro (hlt | ⟨hxy, (⟨c, hc, hb⟩ | ⟨p, x1, y1, s, t, ha, hb, hlt⟩)⟩)
    · exact Or.inr ⟨[], x, y, a, b, rfl, rfl, hlt⟩
    · exact Or.inl ⟨c, hc, by simp [hxy, hb]⟩
    · exact Or.inr ⟨x :: p, x1, y1, s, t, by simp [ha], by simp [hxy, hb], hlt⟩

theorem compare_equivalent_iff : ∀ (a b : List Nat),
    compare false a b = strong_ordering.equivalent ↔ a = b := by
  intro a
  induction a with
  | nil =>
    intro b
    cases b with
    | nil => simp [compare_nil_nil]
    | cons r rhs => simp [compare_nil_cons]
  | cons l lhs ih =>
    intro b
    cases b with
    | nil => simp [compare_cons_nil]
    | cons r rhs =>
      rw [compare_cons_cons]
      by_cases h : l = r
      · simp [h, ih rhs]
      · by_cases h2 : l < r <;> simp [h, h2]

theorem compare_less_iff : ∀ (a b : List Nat),
    compare false a b = strong_ordering.less ↔ lex_less a b := by
  intro a
  induction a with
  | nil =>
    intro b
    rw [lex_less_nil_left]
    cases b with
    | nil => simp [compare_nil_nil]
    | cons r rhs => simp [compare_nil_cons]
  | cons l lhs ih =>
    intro b
    cases b with
    | nil =>
      simp only [compare_cons_nil, reduceCtorEq, false_iff]
      exact lex_less_nil_right _
    | cons r rhs =>
      rw [compare_cons_cons, lex_less_cons]
      by_cases h : l = r
      · subst h
        simp [ih rhs]
      · by_cases h2 : l < r <;> simp [h, h2]

theorem compare_greater_iff : ∀ (a b : List Nat),
    compare false a b = strong_ordering.greater ↔ lex_less b a := by
  intro a
  induction a with
  | nil =>
    intro b
    cases b with
    | nil =>
      simp only [compare_nil_nil, reduceCtorEq, false_iff]
      exact lex_less_nil_right _
    | cons r rhs =>
      simp only [compare_nil_cons, reduceCtorEq, false_iff]
      exact lex_less_nil_right _
  | cons l lhs ih =>
    intro b
    cases b with
    | nil =>
      rw [lex_less_nil_left]
      simp [compare_cons_nil]
    | cons r rhs =>
      rw [compare_cons_cons, lex_less_cons]
      by_cases h : l = r
      · subst h
        simp [ih rhs]
      · have h' : ¬ r = l := fun e => h e.symm
        by_cases h2 : l < r
        · have h3 : ¬ r < l := by omega
          simp [h, h', h2, h3]
        · have h3 : r < l := by omega
          simp [h, h', h2, h3]

theorem compare_less_trans : ∀ (a b c : List Nat),
    compare false a b = strong_ordering.less → compare false b c = strong_ordering.less →
    compare false a c = strong_ordering.less := by
  intro a
  induction a with
  | nil =>
    intro b c hab hbc
    cases c with
    | nil =>
      cases b with
      | nil => exact hbc
      | cons y b => rw [compare_cons_nil] at hbc; cases hbc
    | cons z c => rfl
  | cons x a ih =>
    intro b c hab hbc
    cases b with
    | nil => rw [compare_cons_nil] at hab; cases hab
    | cons y b =>
      cases c with
      | nil => rw [compare_cons_nil] at hbc; cases hbc
      | cons z c =>
        rw [compare_cons_cons] at hab hbc
        rw [compare_cons_cons]
        by_cases hxy : x = y
        · subst hxy
          rw [if_pos rfl] at hab
          by_cases hxz : x = z
          · subst hxz
            rw [if_pos rfl] at hbc
            rw [if_pos rfl]
            exact ih b c hab hbc
          · rw [if_neg hxz] at hbc
            rw [if_neg hxz]
            exact hbc
        · rw [if_neg hxy] at hab
          by_cases hlt : x < y
          · by_cases hyz : y = z
            · subst hyz
              rw [if_neg hxy, if_pos hlt]
            · rw [if_neg hyz] at hbc
              by_cases hlt2 : y < z
              · have h1 : ¬ x = z := by omega
                have h2 : x < z := by omega
                rw [if_neg h1, if_pos h2]
              · rw [if_neg hlt2] at hbc
                cases hbc
          · rw [if_neg hlt] at hab
            cases hab

theorem compare_same_object (a b : List Nat) (h : a = b) (same_object : Bool) :
    compare same_object a b = strong_ordering.equivalent := by
  cases same_object with
  | true => rfl
  | false => exact (compare_equivalent_iff a b).mpr h

theorem compare_eq_compare_false (same_object : Bool) (a b : List Nat)
    (h : same_object = true → a = b) : compare same_object a b = compare false a b := by
  cases same_object with
  | false => rfl
  | true => rw [compare_same_object a b (h rfl), compare_same_object a b (h rfl)]

/-- C30: `operator<=>` on offsets is the lexicographic order on index
sequences. For all offsets `a` and `b` it returns `equivalent` exactly when
`a` and `b` are equal element-wise, `less` exactly when `a` is a proper initial
part of `b` or has the smaller element at the first position where they
differ, and `greater` otherwise; `a <=> b` is `less` exactly when `b <=> a`
is `greater`; and the order is transitive. The flags say whether the two
arguments of a call are one and the same object, in which case they are
equal. -/
theorem compare_spec (a b c : List Nat) (s_ab s_ba s_bc s_ac : Bool)
    (h_ab : s_ab = true → a = b) (h_ba : s_ba = true → b = a)
    (h_bc : s_bc = true → b = c) (h_ac : s_ac = true → a = c) :
    (compare s_ab a b = strong_ordering.equivalent ↔ a = b) ∧
    (compare s_ab a b = strong_ordering.less ↔ lex_less a b) ∧
    (compare s_ab a b = strong_ordering.greater ↔ (a ≠ b ∧ ¬ lex_less a b)) ∧
    (compare s_ab a b = strong_ordering.greater ↔ lex_less b a) ∧
    (compare s_ab a b = strong_ordering.less ↔ compare s_ba b a = strong_ordering.greater) ∧
    (compare s_ab a b = strong_ordering.less → compare s_bc b c = strong_ordering.less →
      compare s_ac a c = strong_ordering.less) := by
  rw [compare_eq_compare_false s_ab a b h_ab, compare_eq_compare_false s_ba b a h_ba,
    compare_eq_compare_false s_bc b c h_bc, compare_eq_compare_false s_ac a c h_ac]
  refine ⟨compare_equivalent_iff a b, compare_less_iff a b, ?_, compare_greater_iff a b, ?_,
    compare_less_trans a b c⟩
  · constructor
    · intro h
      constructor
      · intro e
        rw [(compare_equivalent_iff a b).mpr e] at h
        cases h
      · intro e
        rw [(compare_less_iff a b).mpr e] at h
        cases h
    · rintro ⟨h1, h2⟩
      cases hc : compare false a b with
      | less => exact absurd ((compare_less_iff a b).mp hc) h2
      | equivalent => exact absurd ((compare_equivalent_iff a b).mp hc) h1
      | greater => rfl
  · rw [compare_less_iff, compare_greater_iff]

/-- C30 at the offsets `[0, 1]`, `[0, 1, 2]` and `[0, 2]`. -/
theorem compare_spec_witness :
    compare false [0, 1] [0, 1, 2] = strong_ordering.less ∧
    compare false [0, 1, 2] [0, 2] = strong_ordering.less ∧
    compare false [0, 1] [0, 2] = strong_ordering.less ∧
    compare false [0, 1, 2] [0, 1] = strong_ordering.greater :=
  have h := compare_spec [0, 1] [0, 1, 2] [0, 2] false false false false
    (fun e => by cases e) (fun e => by cases e) (fun e => by cases e) (fun e => by cases e)
  ⟨by decide, by decide, h.2.2.2.2.2 (by decide) (by decide), h.2.2.2.2.1.mp (by decide)⟩

end Vast
